import Mathlib

set_option maxHeartbeats 1000000

/-!
Shallow embedding of the mpc.js monadic parser combinator library
(src/mpcapp/mpcapp/mpc.ts) and of the expression grammar built on it
(src/mpcapp/mpcapp/exp.ts), together with proofs of the specification
claims.  The mutable `ParserState` of the source is modelled by explicit
state passing: every parser is a function from a state to a result
carrying the (possibly mutated) state.  The unbounded `while` loops of
`many`, `manyString` and `chainLeft`, and the rebound circular parser
`p_expression`, are modelled with an explicit fuel parameter; fuel
adequacy is proved where a claim depends on it.
-/

namespace mpc

/-- Tests a character code and a local position (source: interface Satisfy). -/
def Satisfy : Type := Nat → Nat → Bool

/-- Combines a left tree with a right tree using an operator value
(source: interface Combiner). -/
def Combiner (T S : Type) : Type := T → S → T → T

/-- Snapshot of the parser state: position and indent (source: class Snapshot). -/
structure Snapshot where
  position : Nat
  indent : Int
deriving DecidableEq, Repr

/-- Parser state: the input text, the scan position and the indent level
(source: class ParserState).  The source mutates it in place; here it is
threaded explicitly. -/
structure ParserState where
  text : List Char
  position : Nat
  indent : Int
deriving DecidableEq, Repr

/-- Fresh parser state over an input string (source: ParserState constructor). -/
def ParserState.init (s : List Char) : ParserState := ⟨s, 0, 0⟩

/-- Takes a snapshot of the parser state. -/
def ParserState.snapshot (ps : ParserState) : Snapshot := ⟨ps.position, ps.indent⟩

/-- Increases the current indent. -/
def ParserState.increaseIndent (ps : ParserState) : ParserState :=
  { ps with indent := ps.indent + 1 }

/-- Decreases the current indent; mutates only when the indent is at least 1
and reports whether it did. -/
def ParserState.decreaseIndent (ps : ParserState) : ParserState × Bool :=
  if ps.indent < 1 then (ps, false) else ({ ps with indent := ps.indent - 1 }, true)

/-- Restores position and indent from a snapshot (the text is untouched). -/
def ParserState.restore (ps : ParserState) (s : Snapshot) : ParserState :=
  { ps with position := s.position, indent := s.indent }

/-- Tests if the state is at end of stream. -/
def ParserState.isEOS (ps : ParserState) : Bool := decide (ps.position ≥ ps.text.length)

/-- Character code at the current position, none at end of stream. -/
def ParserState.currentCharCode (ps : ParserState) : Option Nat :=
  if ps.position ≥ ps.text.length then none
  else some ((ps.text.getD ps.position ' ').toNat)

/-- Loop of ParserState.advance and ParserState.skipAdvance: the number of
characters at the head of the list satisfying f, threading the local index
starting at i. -/
def advanceCount (f : Satisfy) : List Char → Nat → Nat
  | [], _ => 0
  | c :: rest, i => if f c.toNat i then advanceCount f rest (i + 1) + 1 else 0

/-- Advances while the character and local position satisfy the criteria,
returning the count (source: ParserState.skipAdvance). -/
def ParserState.skipAdvance (ps : ParserState) (f : Satisfy) : ParserState × Nat :=
  let n := advanceCount f (ps.text.drop ps.position) 0
  ({ ps with position := ps.position + n }, n)

/-- Advances while the character and local position satisfy the criteria,
returning the consumed characters (source: ParserState.advance). -/
def ParserState.advance (ps : ParserState) (f : Satisfy) : ParserState × List Char :=
  let n := advanceCount f (ps.text.drop ps.position) 0
  ({ ps with position := ps.position + n }, (ps.text.drop ps.position).take n)

/-- Result of a parse attempt: the current state, and the parsed value
present exactly when the parse succeeded (source: class ParseResult). -/
structure ParseResult (T : Type) where
  state : ParserState
  value : Option T
deriving DecidableEq, Repr

/-- Creates a success ParseResult from the current state and a value. -/
def ParserState.succeed {T : Type} (ps : ParserState) (v : T) : ParseResult T := ⟨ps, some v⟩

/-- Creates a failure ParseResult from the current state. -/
def ParserState.fail {T : Type} (ps : ParserState) : ParseResult T := ⟨ps, none⟩

/-- The parser monad: a parser takes a parser state and produces a
ParseResult (source: class Parser). -/
def Parser (T : Type) : Type := ParserState → ParseResult T

/-- Converts a Parser T into a Parser Unit (source: Parser.noResult). -/
def Parser.noResult {T : Type} (p : Parser T) : Parser Unit := fun ps =>
  let r := p ps
  match r.value with
  | none => r.state.fail
  | some _ => r.state.succeed ()

/-- Replaces the parsed value with a constant (source: Parser.result). -/
def Parser.result {T R : Type} (p : Parser T) (v : R) : Parser R := fun ps =>
  let r := p ps
  match r.value with
  | none => r.state.fail
  | some _ => r.state.succeed v

/-- Tests whether the parsed value satisfies a predicate, restoring the
snapshot when it does not (source: Parser.test). -/
def Parser.test {T : Type} (p : Parser T) (predicate : T → Bool) : Parser T := fun ps =>
  let snap := ps.snapshot
  let r := p ps
  match r.value with
  | none => r.state.fail
  | some v =>
    if predicate v then r.state.succeed v
    else (r.state.restore snap).fail

/-- Succeeds only when the parser consumed at least i characters
(source: Parser.consumedAtLeast). -/
def Parser.consumedAtLeast {T : Type} (p : Parser T) (i : Nat) : Parser T := fun ps =>
  let snap := ps.snapshot
  let r := p ps
  match r.value with
  | none => r.state.fail
  | some v =>
    if r.state.position < snap.position + i then (r.state.restore snap).fail
    else r.state.succeed v

/-- Surrounds a parser with a begin parser and an end parser, keeping the
inner value (source: Parser.inBetween). -/
def Parser.inBetween {T : Type} (p : Parser T) (pBegin : Parser Unit) (pEnd : Parser Unit) :
    Parser T := fun ps =>
  let snap := ps.snapshot
  let rb := pBegin ps
  match rb.value with
  | none => rb.state.fail
  | some _ =>
    let r := p rb.state
    match r.value with
    | none => (r.state.restore snap).fail
    | some v =>
      let re := pEnd r.state
      match re.value with
      | none => (re.state.restore snap).fail
      | some _ => re.state.succeed v

/-- Sequences two parsers and keeps the first value (source: Parser.keepLeft). -/
def Parser.keepLeft {T R : Type} (p : Parser T) (pOther : Parser R) : Parser T := fun ps =>
  let snap := ps.snapshot
  let r := p ps
  match r.value with
  | none => r.state.fail
  | some v =>
    let ro := pOther r.state
    match ro.value with
    | none => (ro.state.restore snap).fail
    | some _ => ro.state.succeed v

/-- Sequences two parsers and keeps the second value (source: Parser.keepRight). -/
def Parser.keepRight {T R : Type} (p : Parser T) (pOther : Parser R) : Parser R := fun ps =>
  let snap := ps.snapshot
  let r := p ps
  match r.value with
  | none => r.state.fail
  | some _ =>
    let ro := pOther r.state
    match ro.value with
    | none => (ro.state.restore snap).fail
    | some v => ro.state.succeed v

/-- Succeeds with the parser value only when the except parser fails at the
current position (source: Parser.except). -/
def Parser.except {T R : Type} (p : Parser T) (pExcept : Parser R) : Parser T := fun ps =>
  let snap := ps.snapshot
  let re := pExcept ps
  match re.value with
  | some _ => (re.state.restore snap).fail
  | none =>
    let r := p re.state
    match r.value with
    | none => r.state.fail
    | some v => r.state.succeed v

/-- Always succeeds; the value is none when the parser failed (the source
returns a null value; source: Parser.opt). -/
def Parser.opt {T : Type} (p : Parser T) : Parser (Option T) := fun ps =>
  let r := p ps
  match r.value with
  | none => r.state.succeed none
  | some v => r.state.succeed (some v)

/-- Transforms the parsed value (source: Parser.transform). -/
def Parser.transform {T R : Type} (p : Parser T) (f : T → R) : Parser R := fun ps =>
  let r := p ps
  match r.value with
  | none => r.state.fail
  | some v => r.state.succeed (f v)

/-- Executes a parser over an input string (source: function parse). -/
def parse {T : Type} (p : Parser T) (s : List Char) : ParseResult T :=
  p (ParserState.init s)

/-- Parser that always succeeds with a value (source: function success). -/
def success {T : Type} (value : T) : Parser T := fun ps => ps.succeed value

/-- Parser that always fails (source: function fail). -/
def fail {T : Type} : Parser T := fun ps => ps.fail

/-- Parser that increases the current indent (source: function indent). -/
def indent : Parser Unit := fun ps => ps.increaseIndent.succeed ()

/-- Parser that decreases the current indent, failing when it could not
(source: function dedent). -/
def dedent : Parser Unit := fun ps =>
  let (ps', ok) := ps.decreaseIndent
  if ok then ps'.succeed () else ps'.fail

/-- Parses exactly the expected number of tab characters, the current indent
(source: function indention). -/
def indention : Parser Nat := fun ps =>
  let snap := ps.snapshot
  if ps.indent = 0 then ps.succeed 0
  else
    let (ps', tabs) := ps.skipAdvance (fun ch pos => decide ((pos : Int) < ps.indent) && decide (ch = 9))
    if (tabs : Int) = ps.indent then ps'.succeed tabs
    else (ps'.restore snap).fail

/-- Satisfy function for whitespace (source: satisyWhitespace; tab, LF, CR, space). -/
def satisyWhitespace : Satisfy := fun ch _ => decide (ch = 9 ∨ ch = 10 ∨ ch = 13 ∨ ch = 32)

/-- Satisfy function for tab (source: satisyTab). -/
def satisyTab : Satisfy := fun ch _ => decide (ch = 9)

/-- Parses any character, producing its code (source: function anyChar). -/
def anyChar : Parser Nat := fun ps =>
  match ps.currentCharCode with
  | none => ps.fail
  | some ch => ({ ps with position := ps.position + 1 }).succeed ch

/-- First index of a code in a list, as JavaScript Array.indexOf. -/
def indexOfCode : List Nat → Nat → Option Nat
  | [], _ => none
  | c :: rest, x => if c = x then some 0 else (indexOfCode rest x).map (· + 1)

/-- Parses a character that is a member of str, producing the index of the
match (source: function anyCharOf). -/
def anyCharOf (str : List Char) : Parser Nat := fun ps =>
  match ps.currentCharCode with
  | none => ps.fail
  | some ch =>
    match indexOfCode (str.map Char.toNat) ch with
    | none => ps.fail
    | some i => ({ ps with position := ps.position + 1 }).succeed i

/-- Parses a character that is a member of str and maps the index through a
lookup table, failing when the index has no mapping (source: anyCharOf2). -/
def anyCharOf2 {T : Type} (str : List Char) (mapTo : List T) : Parser T := fun ps =>
  match ps.currentCharCode with
  | none => ps.fail
  | some ch =>
    match indexOfCode (str.map Char.toNat) ch with
    | none => ps.fail
    | some i =>
      match mapTo.get? i with
      | none => ps.fail
      | some v => ({ ps with position := ps.position + 1 }).succeed v

/-- Parses a possibly empty run of characters that are members of str
(source: function anyStringOf); never fails. -/
def anyStringOf (str : List Char) : Parser (List Char) := fun ps =>
  let (ps', s) := ps.advance (fun ch _ => (str.map Char.toNat).contains ch)
  ps'.succeed s

/-- Parses end of stream (source: function EOS). -/
def EOS : Parser Unit := fun ps =>
  if ps.isEOS then ps.succeed () else ps.fail

/-- Parses end of line: succeeds consuming nothing at end of stream,
consumes a LF, or a CR optionally followed by a LF (source: function EOL). -/
def EOL : Parser Unit := fun ps =>
  if ps.isEOS then ps.succeed ()
  else if ps.text.getD ps.position ' ' = '\n' then
    ({ ps with position := ps.position + 1 }).succeed ()
  else if ps.text.getD ps.position ' ' = '\r' then
    let ps1 : ParserState := { ps with position := ps.position + 1 }
    if ¬ ps1.isEOS ∧ ps1.text.getD ps1.position ' ' = '\n' then
      ({ ps1 with position := ps1.position + 1 }).succeed ()
    else ps1.succeed ()
  else ps.fail

/-- Parses one character satisfying the predicate (source: function satisfy). -/
def satisfy (f : Satisfy) : Parser Nat := fun ps =>
  if ps.isEOS then ps.fail
  else
    let ch := (ps.text.getD ps.position ' ').toNat
    if f ch 0 then ({ ps with position := ps.position + 1 }).succeed ch
    else ps.fail

/-- Parses a maximal run satisfying the predicate, producing the substring
(source: function satisfyMany); never fails. -/
def satisfyMany (f : Satisfy) : Parser (List Char) := fun ps =>
  let (ps', s) := ps.advance f
  ps'.succeed s

/-- Skips a maximal run satisfying the predicate, producing the count
(source: function skipSatisfyMany); never fails. -/
def skipSatisfyMany (f : Satisfy) : Parser Nat := fun ps =>
  let (ps', n) := ps.skipAdvance f
  ps'.succeed n

/-- Parses any number of tab characters (source: function anyIndention). -/
def anyIndention : Parser Nat := skipSatisfyMany satisyTab

/-- Skips exactly the string str, restoring the snapshot on a partial match
(source: function skipString). -/
def skipString (str : List Char) : Parser Unit := fun ps =>
  let snap := ps.snapshot
  let (ps', n) := ps.skipAdvance
    (fun ch pos => decide (pos < str.length) && decide ((str.getD pos ' ').toNat = ch))
  if n = str.length then ps'.succeed ()
  else (ps'.restore snap).fail

/-- Loop of the many combinator, with explicit fuel standing in for the
source's unbounded while loop. -/
def manyLoop {T : Type} (p : Parser T) : Nat → ParserState → List T → ParseResult (List T)
  | 0, ps, acc => ps.succeed acc
  | fuel + 1, ps, acc =>
    let r := p ps
    match r.value with
    | none => r.state.succeed acc
    | some v => manyLoop p fuel r.state (acc ++ [v])

/-- Applies the parser until it fails, collecting all values; always
succeeds (source: function many). -/
def many {T : Type} (p : Parser T) : Parser (List T) := fun ps =>
  manyLoop p (ps.text.length + 1 - ps.position) ps []

/-- Loop of the manyString combinator. -/
def manyStringLoop (p : Parser Nat) : Nat → ParserState → List Char → ParseResult (List Char)
  | 0, ps, acc => ps.succeed acc
  | fuel + 1, ps, acc =>
    let r := p ps
    match r.value with
    | none => r.state.succeed acc
    | some v => manyStringLoop p fuel r.state (acc ++ [Char.ofNat v])

/-- Applies the character-code parser until it fails and joins the
characters into a string (source: function manyString). -/
def manyString (p : Parser Nat) : Parser (List Char) := fun ps =>
  manyStringLoop p (ps.text.length + 1 - ps.position) ps []

/-- Combines two parser results into a pair (source: function combine2). -/
def combine2 {T0 T1 : Type} (p0 : Parser T0) (p1 : Parser T1) : Parser (T0 × T1) := fun ps =>
  let snap := ps.snapshot
  let r0 := p0 ps
  match r0.value with
  | none => r0.state.fail
  | some v0 =>
    let r1 := p1 r0.state
    match r1.value with
    | none => (r1.state.restore snap).fail
    | some v1 => r1.state.succeed (v0, v1)

/-- Combines three parser results into a triple (source: function combine3). -/
def combine3 {T0 T1 T2 : Type} (p0 : Parser T0) (p1 : Parser T1) (p2 : Parser T2) :
    Parser (T0 × T1 × T2) := fun ps =>
  let snap := ps.snapshot
  let r0 := p0 ps
  match r0.value with
  | none => r0.state.fail
  | some v0 =>
    let r1 := p1 r0.state
    match r1.value with
    | none => (r1.state.restore snap).fail
    | some v1 =>
      let r2 := p2 r1.state
      match r2.value with
      | none => (r2.state.restore snap).fail
      | some v2 => r2.state.succeed (v0, v1, v2)

/-- Loop of the chainLeft combinator, with explicit fuel.  The state passed
in is the state right after the last accepted term, and the snapshot always
captures it, mirroring the source loop where the snapshot is retaken after
every accepted (separator, term) pair and restored on exit. -/
def chainLeftLoop {T S : Type} (p : Parser T) (pSeparator : Parser S) (combiner : Combiner T S) :
    Nat → ParserState → Snapshot → T → ParseResult T
  | 0, ps, snap, value => (ps.restore snap).succeed value
  | fuel + 1, ps, snap, value =>
    let rs := pSeparator ps
    match rs.value with
    | none => (rs.state.restore snap).succeed value
    | some op =>
      let rp := p rs.state
      match rp.value with
      | none => (rp.state.restore snap).succeed value
      | some w => chainLeftLoop p pSeparator combiner fuel rp.state rp.state.snapshot
          (combiner value op w)

/-- Left-associative operator chaining: parses a term, then folds
(separator, term) pairs left-associatively, restoring to the end of the
last accepted term (source: function chainLeft). -/
def chainLeft {T S : Type} (p : Parser T) (pSeparator : Parser S) (combiner : Combiner T S) :
    Parser T := fun ps =>
  let r := p ps
  match r.value with
  | none => r.state.fail
  | some v =>
    chainLeftLoop p pSeparator combiner (r.state.text.length + 1 - r.state.position)
      r.state r.state.snapshot v

/-- Loop of the choice combinator over the list of alternatives, threading
the state left by each failing alternative as the source does. -/
def choiceGo {T : Type} : List (Parser T) → ParserState → ParseResult T
  | [], ps => ps.fail
  | p :: rest, ps =>
    let r := p ps
    match r.value with
    | some v => r.state.succeed v
    | none => choiceGo rest r.state

/-- Applies each alternative in order and picks the first that matches
(source: function choice). -/
def choice {T : Type} (choices : List (Parser T)) : Parser T := fun ps => choiceGo choices ps

/-- Lookup of the switchOver dispatch table: the source assigns
map[code] = parser over the flattened differentiators in order, so a later
entry for the same character code wins. -/
def switchLookup {T : Type} (choices : List (List Char × Parser T)) (ch : Nat) :
    Option (Parser T) :=
  choices.foldl
    (fun acc dp => if (dp.1.map Char.toNat).contains ch then some dp.2 else acc) none

/-- Peeks one character and delegates to the parser registered for it;
fails (not the default) when no entry matches (source: function switchOver). -/
def switchOver {T : Type} (defaultTo : Parser T) (choices : List (List Char × Parser T)) :
    Parser T := fun ps =>
  match ps.currentCharCode with
  | none => ps.fail
  | some ch =>
    match switchLookup choices ch with
    | none => ps.fail
    | some p => p ps

end mpc

namespace exp

/-- All supported operators (source: enum BinaryOperator). -/
inductive BinaryOperator : Type
  | Unknown
  | Add
  | Subtract
  | Multiply
  | Divide
  | EqualTo
  | NotEqualTo
deriving DecidableEq, Repr

/-- The expression AST (source: Expression with its three implementing
classes, collapsed into a closed inductive type).  Number literal values
are modelled as naturals: the grammar builds them from pure digit runs,
which denote non-negative integers. -/
inductive Expression : Type
  | BinaryExpression (op : BinaryOperator) (left : Expression) (right : Expression)
  | NumberLiteralExpression (value : Nat)
  | IdentifierExpression (name : List Char)
deriving DecidableEq, Repr

/-- Decimal digit character for a value below ten. -/
def digitChar (n : Nat) : Char := Char.ofNat (48 + n)

/-- Loop computing the decimal digits of a natural, most significant first.
The fuel only bounds the recursion and is always taken large enough. -/
def natDigitsAux : Nat → Nat → List Char
  | 0, _ => []
  | fuel + 1, n =>
    if n < 10 then [digitChar n]
    else natDigitsAux fuel (n / 10) ++ [digitChar (n % 10)]

/-- Decimal digit string of a natural number. -/
def natToDigits (n : Nat) : List Char := natDigitsAux (n + 1) n

/-- Numeric value of a digit string, as parseFloat computes it on the pure
digit runs produced by the number parser. -/
def digitsToNat (l : List Char) : Nat := l.foldl (fun n c => n * 10 + (c.toNat - 48)) 0

/-- Drops trailing zero characters. -/
def stripTrailingZeros (l : List Char) : List Char :=
  (l.reverse.dropWhile (fun c => c == '0')).reverse

/-- Decimal rendering of a non-negative integer number value as
JavaScript Number.prototype.toString produces it (ECMA-262 ToString applied
to an exactly representable integer): plain digits below 10^21, and
exponential notation d.ddd e+k from 10^21 on. -/
def jsNatToString (n : Nat) : List Char :=
  let digs := natToDigits n
  if digs.length ≤ 21 then digs
  else
    let s := stripTrailingZeros digs
    let e := digs.length - 1
    match s with
    | [] => digs
    | [d] => [d] ++ ("e+".toList) ++ natToDigits e
    | d :: rest => [d] ++ (".".toList) ++ rest ++ ("e+".toList) ++ natToDigits e

/-- Operator rendering of the serializer visitor (source:
ExpressionSerializer.visitBinary switch). -/
def serializeOp : BinaryOperator → List Char
  | BinaryOperator.Add => " + ".toList
  | BinaryOperator.Subtract => " - ".toList
  | BinaryOperator.Multiply => " * ".toList
  | BinaryOperator.Divide => " / ".toList
  | BinaryOperator.EqualTo => " = ".toList
  | BinaryOperator.NotEqualTo => " <> ".toList
  | BinaryOperator.Unknown => " <UNK> ".toList

/-- The serializer visitor, as the recursive function it computes: every
binary node is fully parenthesized (source: class ExpressionSerializer). -/
def serialize : Expression → List Char
  | Expression.BinaryExpression op l r =>
    "(".toList ++ serialize l ++ serializeOp op ++ serialize r ++ ")".toList
  | Expression.NumberLiteralExpression v => jsNatToString v
  | Expression.IdentifierExpression name => name

/-- Takes an expression and produces a human readable string
(source: function toString). -/
def toString (expr : Expression) : List Char := serialize expr

/-- Consumes whitespaces (source: p_whitespaces). -/
def p_whitespaces : mpc.Parser Nat := mpc.skipSatisfyMany mpc.satisyWhitespace

/-- Parses + and - operators, mapping them to BinaryOperator values
(source: p_addLikeOperator). -/
def p_addLikeOperator : mpc.Parser BinaryOperator :=
  (mpc.anyCharOf2 ("+-".toList) [BinaryOperator.Add, BinaryOperator.Subtract]).keepLeft
    p_whitespaces

/-- Parses * and / operators (source: p_multiplyLikeOperator). -/
def p_multiplyLikeOperator : mpc.Parser BinaryOperator :=
  (mpc.anyCharOf2 ("*/".toList) [BinaryOperator.Multiply, BinaryOperator.Divide]).keepLeft
    p_whitespaces

/-- Parses = and <> operators (source: p_comparisonOperator). -/
def p_comparisonOperator : mpc.Parser BinaryOperator :=
  (mpc.choice
    [(mpc.skipString ("=".toList)).result BinaryOperator.EqualTo,
     (mpc.skipString ("<>".toList)).result BinaryOperator.NotEqualTo]).keepLeft
    p_whitespaces

/-- Parses a number (source: p_number). -/
def p_number : mpc.Parser Expression :=
  (((mpc.anyStringOf ("0123456789".toList)).consumedAtLeast 1).keepLeft p_whitespaces).transform
    (fun c => Expression.NumberLiteralExpression (digitsToNat c))

/-- Parses an identifier, a nonempty run of ASCII letters (source: p_identifer). -/
def p_identifer : mpc.Parser Expression :=
  (((mpc.satisfyMany
      (fun ch _ => decide ((65 ≤ ch ∧ ch ≤ 90) ∨ (97 ≤ ch ∧ ch ≤ 122)))).consumedAtLeast
      1).keepLeft p_whitespaces).transform
    (fun c => Expression.IdentifierExpression c)

/-- Combines binary expressions (source: expressionCombiner). -/
def expressionCombiner : mpc.Combiner Expression BinaryOperator :=
  fun l op r => Expression.BinaryExpression op l r

/-- Parses a sub expression surrounded by parentheses, delegating to the
given expression parser (source: p_subExpression, with the circular
p_expression slot made an explicit parameter). -/
def p_subExpressionOf (pe : mpc.Parser Expression) : mpc.Parser Expression :=
  (pe.inBetween (mpc.skipString ("(".toList)) (mpc.skipString (")".toList))).keepLeft
    p_whitespaces

/-- Parses a term: a number, an identifier or a sub expression (source: p_term). -/
def p_termOf (pe : mpc.Parser Expression) : mpc.Parser Expression :=
  mpc.choice [p_number, p_identifer, p_subExpressionOf pe]

/-- Level 1: terms chained by * and / (source: p_l1). -/
def p_l1Of (pe : mpc.Parser Expression) : mpc.Parser Expression :=
  mpc.chainLeft (p_termOf pe) p_multiplyLikeOperator expressionCombiner

/-- Level 2: level 1 expressions chained by + and - (source: p_l2). -/
def p_l2Of (pe : mpc.Parser Expression) : mpc.Parser Expression :=
  mpc.chainLeft (p_l1Of pe) p_addLikeOperator expressionCombiner

/-- Level 3: level 2 expressions chained by = and <> (source: p_l3). -/
def p_l3Of (pe : mpc.Parser Expression) : mpc.Parser Expression :=
  mpc.chainLeft (p_l2Of pe) p_comparisonOperator expressionCombiner

/-- The rebound circular expression parser (source: p_expression together
with the p_complete assignment p_expression.parse = p_l3.parse).  The
mutual reference of the grammar through the shared mutable slot is
modelled with fuel: at fuel n + 1 the placeholder delegates to the fully
assembled p_l3 built over the placeholder at fuel n.  Fuel adequacy is
proved separately; entering a sub expression always consumes an opening
parenthesis first, so the nesting depth is bounded by the remaining input. -/
def p_expression : Nat → mpc.Parser Expression
  | 0 => fun ps => ps.fail
  | n + 1 => p_l3Of (p_expression n)

/-- Parses a string and returns a ParseResult (source: parseExpression,
which runs p_complete, the assembled p_l3). -/
def parseExpression (s : List Char) : mpc.ParseResult Expression :=
  mpc.parse (p_expression (s.length + 1)) s

end exp

namespace mpc

/-- Backtracking contract of the library: whenever the parser fails, the
state's position and indent are exactly their values from before the
attempt. -/
def RestoresOnFailure {T : Type} (p : Parser T) : Prop :=
  ∀ ps, (p ps).value = none →
    (p ps).state.position = ps.position ∧ (p ps).state.indent = ps.indent

/-- The parser never changes the input text. -/
def TextPres {T : Type} (p : Parser T) : Prop := ∀ ps, (p ps).state.text = ps.text

/-- The parser never moves the position backwards. -/
def MonoPos {T : Type} (p : Parser T) : Prop := ∀ ps, ps.position ≤ (p ps).state.position

/-- The parser never changes the indent. -/
def IndentPres {T : Type} (p : Parser T) : Prop := ∀ ps, (p ps).state.indent = ps.indent

/-- Cursor invariant of the specification: the position stays within the
text and the indent counter stays non-negative. -/
def Inv (ps : ParserState) : Prop := ps.position ≤ ps.text.length ∧ 0 ≤ ps.indent

/-- The parser preserves the cursor invariant. -/
def PresInv {T : Type} (p : Parser T) : Prop := ∀ ps, Inv ps → Inv (p ps).state

/-- Every success of the parser strictly advances the position. -/
def AdvancesOnSuccess {T : Type} (p : Parser T) : Prop :=
  ∀ ps v, (p ps).value = some v → ps.position < (p ps).state.position

/-- The parser keeps the position within the text. -/
def BoundedPos {T : Type} (p : Parser T) : Prop :=
  ∀ ps, ps.position ≤ ps.text.length → (p ps).state.position ≤ (p ps).state.text.length

/-- Iteration relation of the chainLeft loop, as the specification words
it: from the state s right after the last accepted term with accumulator
v, either the separator (or the term after it) fails and the chain stops
with v at s — the dangling separator is not consumed — or both succeed
and the chain continues from the state after that term with the combined
accumulator. -/
inductive ChainFrom {T S : Type} (p : Parser T) (pSeparator : Parser S)
    (combiner : Combiner T S) : ParserState → T → ParserState → T → Prop where
  | stopSep : ∀ s v, (pSeparator s).value = none → ChainFrom p pSeparator combiner s v s v
  | stopTerm : ∀ s v op, (pSeparator s).value = some op →
      (p (pSeparator s).state).value = none → ChainFrom p pSeparator combiner s v s v
  | step : ∀ s v op w sf vf, (pSeparator s).value = some op →
      (p (pSeparator s).state).value = some w →
      ChainFrom p pSeparator combiner (p (pSeparator s).state).state
        (combiner v op w) sf vf →
      ChainFrom p pSeparator combiner s v sf vf

/-- Iteration relation of the many loop: apply p until its first failure,
collecting the successes; the loop ends in the state p's failing attempt
left. -/
inductive ManyFrom {T : Type} (p : Parser T) :
    ParserState → List T → ParserState → List T → Prop where
  | stop : ∀ s acc, (p s).value = none → ManyFrom p s acc (p s).state acc
  | step : ∀ s acc v sf accf, (p s).value = some v →
      ManyFrom p (p s).state (acc ++ [v]) sf accf → ManyFrom p s acc sf accf

end mpc

namespace exp

/-- ASCII letter, as the identifier parser accepts them. -/
def isLetterCode (ch : Nat) : Prop := (65 ≤ ch ∧ ch ≤ 90) ∨ (97 ≤ ch ∧ ch ≤ 122)

/-- Shape of every expression the grammar can produce: operators are never
the Unknown sentinel and identifier names are nonempty runs of ASCII
letters. -/
def wfExpr : Expression → Prop
  | Expression.BinaryExpression op l r => op ≠ BinaryOperator.Unknown ∧ wfExpr l ∧ wfExpr r
  | Expression.NumberLiteralExpression _ => True
  | Expression.IdentifierExpression name =>
      name ≠ [] ∧ ∀ c ∈ name, isLetterCode c.toNat

/-- Every number literal in the tree is below 10^21, i.e. prints as a plain
digit string rather than in exponential notation. -/
def SmallNumbers : Expression → Prop
  | Expression.BinaryExpression _ l r => SmallNumbers l ∧ SmallNumbers r
  | Expression.NumberLiteralExpression v => (natToDigits v).length ≤ 21
  | Expression.IdentifierExpression _ => True

/-- Parenthesis nesting depth of an expression; bounds the fuel the
recursive grammar needs. -/
def depth : Expression → Nat
  | Expression.BinaryExpression _ l r => max (depth l) (depth r) + 1
  | Expression.NumberLiteralExpression _ => 0
  | Expression.IdentifierExpression _ => 0

/-- Decimal digit character, as the number parser accepts them. -/
def isDigitChar (c : Char) : Prop := 48 ≤ c.toNat ∧ c.toNat ≤ 57

/-- Whitespace character, as satisyWhitespace accepts them. -/
def isWsChar (c : Char) : Prop := c.toNat = 9 ∨ c.toNat = 10 ∨ c.toNat = 13 ∨ c.toNat = 32

/-- Serializable expression: well formed and with all number literals
printing as plain digit strings. -/
def wfS (T : Expression) : Prop := wfExpr T ∧ SmallNumbers T

/-- Characters at which every layer of the serialized-input parse stops:
a closing parenthesis or an operator character. -/
def closerChar (c : Char) : Prop :=
  c = ')' ∨ c = '+' ∨ c = '-' ∨ c = '*' ∨ c = '/' ∨ c = '=' ∨ c = '<'

/-- Follow condition for a serialized term: end of input or a closer. -/
def FollowTerm (r : List Char) : Prop :=
  r = [] ∨ ∃ c r', r = c :: r' ∧ closerChar c

/-- Follow condition after which the multiplicative chain stops. -/
def FollowL1 (r : List Char) : Prop :=
  r = [] ∨ ∃ c r', r = c :: r' ∧ (c = ')' ∨ c = '+' ∨ c = '-' ∨ c = '=' ∨ c = '<')

/-- Follow condition after which the additive chain stops. -/
def FollowL2 (r : List Char) : Prop :=
  r = [] ∨ ∃ c r', r = c :: r' ∧ (c = ')' ∨ c = '=' ∨ c = '<')

/-- Follow condition after which the comparison chain stops. -/
def FollowL3 (r : List Char) : Prop :=
  r = [] ∨ ∃ r', r = ')' :: r'

/-- The term parser built over pe parses exactly the serialization of T
followed by a run of trailing whitespace, for any follow text at which
terms stop. -/
def TermSpec (T : Expression) (n : Nat) : Prop :=
  ∀ (text : List Char) (pos : Nat) (ind : Int) (W r : List Char),
    text.drop pos = serialize T ++ W ++ r →
    (∀ c ∈ W, isWsChar c) → FollowTerm r →
    p_termOf (p_expression n) ⟨text, pos, ind⟩ =
      ⟨⟨text, pos + ((serialize T).length + W.length), ind⟩, some T⟩

/-- As TermSpec, for the level-1 (multiplicative) chain parser. -/
def L1Spec (T : Expression) (n : Nat) : Prop :=
  ∀ (text : List Char) (pos : Nat) (ind : Int) (W r : List Char),
    text.drop pos = serialize T ++ W ++ r →
    (∀ c ∈ W, isWsChar c) → FollowL1 r →
    p_l1Of (p_expression n) ⟨text, pos, ind⟩ =
      ⟨⟨text, pos + ((serialize T).length + W.length), ind⟩, some T⟩

/-- As TermSpec, for the level-2 (additive) chain parser. -/
def L2Spec (T : Expression) (n : Nat) : Prop :=
  ∀ (text : List Char) (pos : Nat) (ind : Int) (W r : List Char),
    text.drop pos = serialize T ++ W ++ r →
    (∀ c ∈ W, isWsChar c) → FollowL2 r →
    p_l2Of (p_expression n) ⟨text, pos, ind⟩ =
      ⟨⟨text, pos + ((serialize T).length + W.length), ind⟩, some T⟩

/-- As TermSpec, for the level-3 (comparison) chain parser. -/
def L3Spec (T : Expression) (n : Nat) : Prop :=
  ∀ (text : List Char) (pos : Nat) (ind : Int) (W r : List Char),
    text.drop pos = serialize T ++ W ++ r →
    (∀ c ∈ W, isWsChar c) → FollowL3 r →
    p_l3Of (p_expression n) ⟨text, pos, ind⟩ =
      ⟨⟨text, pos + ((serialize T).length + W.length), ind⟩, some T⟩

/-- Every value the parser produces satisfies P. -/
def Produces {R : Type} (p : mpc.Parser R) (P : R → Prop) : Prop :=
  ∀ (ps : mpc.ParserState) (v : R), (p ps).value = some v → P v

end exp

namespace mpc

@[simp] theorem succeed_state {T : Type} (ps : ParserState) (v : T) :
    (ps.succeed v).state = ps := rfl

@[simp] theorem succeed_value {T : Type} (ps : ParserState) (v : T) :
    (ps.succeed v).value = some v := rfl

@[simp] theorem fail_state {T : Type} (ps : ParserState) :
    (ps.fail (T := T)).state = ps := rfl

@[simp] theorem fail_value {T : Type} (ps : ParserState) :
    (ps.fail (T := T)).value = none := rfl

@[simp] theorem restore_text (ps : ParserState) (s : Snapshot) :
    (ps.restore s).text = ps.text := rfl

@[simp] theorem restore_position (ps : ParserState) (s : Snapshot) :
    (ps.restore s).position = s.position := rfl

@[simp] theorem restore_indent (ps : ParserState) (s : Snapshot) :
    (ps.restore s).indent = s.indent := rfl

@[simp] theorem snapshot_position (ps : ParserState) : ps.snapshot.position = ps.position := rfl

@[simp] theorem snapshot_indent (ps : ParserState) : ps.snapshot.indent = ps.indent := rfl

theorem advanceCount_le (f : Satisfy) :
    ∀ (l : List Char) (i : Nat), advanceCount f l i ≤ l.length := by
  intro l
  induction l with
  | nil => intro i; simp [advanceCount]
  | cons c rest ih =>
    intro i
    simp only [advanceCount, List.length_cons]
    by_cases h : f c.toNat i
    · simpa [h] using Nat.succ_le_succ (ih (i + 1))
    · simp [h]

theorem restores_success {T : Type} (v : T) : RestoresOnFailure (success v) := by
  intro ps h; simp [success] at h

theorem restores_fail {T : Type} : RestoresOnFailure (fail (T := T)) := by
  intro ps _; exact ⟨rfl, rfl⟩

theorem restores_indent : RestoresOnFailure indent := by
  intro ps h; simp [indent] at h

theorem restores_dedent : RestoresOnFailure dedent := by
  intro ps h
  by_cases hi : ps.indent < 1
  · simp [dedent, ParserState.decreaseIndent, hi]
  · simp [dedent, ParserState.decreaseIndent, hi] at h

theorem restores_indention : RestoresOnFailure indention := by
  intro ps h
  by_cases hz : ps.indent = 0
  · simp [indention, hz] at h
  · by_cases ht : ((advanceCount
        (fun ch pos => decide ((pos : Int) < ps.indent) && decide (ch = 9))
        (ps.text.drop ps.position) 0 : Nat) : Int) = ps.indent
    · simp [indention, hz, ParserState.skipAdvance, ht] at h
    · simp [indention, hz, ParserState.skipAdvance, ht]

theorem restores_anyChar : RestoresOnFailure anyChar := by
  intro ps h
  cases hc : ps.currentCharCode with
  | none => simp [anyChar, hc]
  | some ch => simp [anyChar, hc] at h

theorem restores_anyCharOf (str : List Char) : RestoresOnFailure (anyCharOf str) := by
  intro ps h
  cases hc : ps.currentCharCode with
  | none => simp [anyCharOf, hc]
  | some ch =>
    cases hi : indexOfCode (str.map Char.toNat) ch with
    | none => simp [anyCharOf, hc, hi]
    | some i => simp [anyCharOf, hc, hi] at h

theorem restores_anyCharOf2 {T : Type} (str : List Char) (mapTo : List T) :
    RestoresOnFailure (anyCharOf2 str mapTo) := by
  intro ps h
  cases hc : ps.currentCharCode with
  | none => simp [anyCharOf2, hc]
  | some ch =>
    cases hi : indexOfCode (str.map Char.toNat) ch with
    | none => simp [anyCharOf2, hc, hi]
    | some i =>
      cases hm : mapTo[i]? with
      | none => simp [anyCharOf2, hc, hi, hm, List.get?_eq_getElem?]
      | some v => simp [anyCharOf2, hc, hi, hm, List.get?_eq_getElem?] at h

theorem restores_anyStringOf (str : List Char) : RestoresOnFailure (anyStringOf str) := by
  intro ps h; simp [anyStringOf, ParserState.advance] at h

theorem restores_EOS : RestoresOnFailure EOS := by
  intro ps h
  by_cases he : ps.isEOS
  · simp [EOS, he] at h
  · simp [EOS, he]

theorem restores_EOL : RestoresOnFailure EOL := by
  intro ps h
  simp only [EOL] at h ⊢
  split_ifs at h ⊢ <;> simp_all

theorem restores_satisfy (f : Satisfy) : RestoresOnFailure (satisfy f) := by
  intro ps h
  simp only [satisfy] at h ⊢
  split_ifs at h ⊢ <;> simp_all

theorem restores_satisfyMany (f : Satisfy) : RestoresOnFailure (satisfyMany f) := by
  intro ps h; simp [satisfyMany, ParserState.advance] at h

theorem restores_skipSatisfyMany (f : Satisfy) : RestoresOnFailure (skipSatisfyMany f) := by
  intro ps h; simp [skipSatisfyMany, ParserState.skipAdvance] at h

theorem restores_anyIndention : RestoresOnFailure anyIndention :=
  restores_skipSatisfyMany satisyTab

theorem restores_skipString (str : List Char) : RestoresOnFailure (skipString str) := by
  intro ps h
  simp only [skipString, ParserState.skipAdvance] at h ⊢
  split_ifs at h ⊢ <;> simp_all

end mpc

namespace mpc

theorem restores_noResult {T : Type} (p : Parser T) (hp : RestoresOnFailure p) :
    RestoresOnFailure p.noResult := by
  intro ps h
  simp only [Parser.noResult] at h ⊢
  cases hr : (p ps).value with
  | none => simpa [hr] using hp ps hr
  | some v => simp [hr] at h

theorem restores_result {T R : Type} (p : Parser T) (v : R) (hp : RestoresOnFailure p) :
    RestoresOnFailure (p.result v) := by
  intro ps h
  simp only [Parser.result] at h ⊢
  cases hr : (p ps).value with
  | none => simpa [hr] using hp ps hr
  | some w => simp [hr] at h

theorem restores_test {T : Type} (p : Parser T) (f : T → Bool) (hp : RestoresOnFailure p) :
    RestoresOnFailure (p.test f) := by
  intro ps h
  simp only [Parser.test] at h ⊢
  cases hr : (p ps).value with
  | none => simpa [hr] using hp ps hr
  | some v =>
    by_cases hf : f v
    · simp [hr, hf] at h
    · simp [hr, hf]

theorem restores_consumedAtLeast {T : Type} (p : Parser T) (i : Nat)
    (hp : RestoresOnFailure p) : RestoresOnFailure (p.consumedAtLeast i) := by
  intro ps h
  simp only [Parser.consumedAtLeast, snapshot_position] at h ⊢
  cases hr : (p ps).value with
  | none => simpa [hr] using hp ps hr
  | some v =>
    simp only [hr] at h ⊢
    by_cases hc : (p ps).state.position < ps.position + i
    · simp [hc]
    · simp [hc] at h

theorem restores_inBetween {T : Type} (p : Parser T) (pBegin pEnd : Parser Unit)
    (hb : RestoresOnFailure pBegin) : RestoresOnFailure (p.inBetween pBegin pEnd) := by
  intro ps h
  simp only [Parser.inBetween] at h ⊢
  cases hrb : (pBegin ps).value with
  | none => simpa [hrb] using hb ps hrb
  | some u =>
    cases hr : (p (pBegin ps).state).value with
    | none => simp [hrb, hr]
    | some v =>
      cases hre : (pEnd (p (pBegin ps).state).state).value with
      | none => simp [hrb, hr, hre]
      | some w => simp [hrb, hr, hre] at h

theorem restores_keepLeft {T R : Type} (p : Parser T) (q : Parser R)
    (hp : RestoresOnFailure p) : RestoresOnFailure (p.keepLeft q) := by
  intro ps h
  simp only [Parser.keepLeft] at h ⊢
  cases hr : (p ps).value with
  | none => simpa [hr] using hp ps hr
  | some v =>
    cases hro : (q (p ps).state).value with
    | none => simp [hr, hro]
    | some w => simp [hr, hro] at h

theorem restores_keepRight {T R : Type} (p : Parser T) (q : Parser R)
    (hp : RestoresOnFailure p) : RestoresOnFailure (p.keepRight q) := by
  intro ps h
  simp only [Parser.keepRight] at h ⊢
  cases hr : (p ps).value with
  | none => simpa [hr] using hp ps hr
  | some v =>
    cases hro : (q (p ps).state).value with
    | none => simp [hr, hro]
    | some w => simp [hr, hro] at h

theorem restores_except {T R : Type} (p : Parser T) (pExcept : Parser R)
    (hp : RestoresOnFailure p) (he : RestoresOnFailure pExcept) :
    RestoresOnFailure (p.except pExcept) := by
  intro ps h
  simp only [Parser.except] at h ⊢
  cases hre : (pExcept ps).value with
  | some v => simp [hre]
  | none =>
    have he2 := he ps hre
    cases hr : (p (pExcept ps).state).value with
    | none =>
      have h2 := hp (pExcept ps).state hr
      simp [hre, hr, h2.1.trans he2.1, h2.2.trans he2.2]
    | some v => simp [hre, hr] at h

theorem restores_opt {T : Type} (p : Parser T) : RestoresOnFailure p.opt := by
  intro ps h
  simp only [Parser.opt] at h
  cases hr : (p ps).value <;> simp [hr] at h

theorem restores_transform {T R : Type} (p : Parser T) (f : T → R)
    (hp : RestoresOnFailure p) : RestoresOnFailure (p.transform f) := by
  intro ps h
  simp only [Parser.transform] at h ⊢
  cases hr : (p ps).value with
  | none => simpa [hr] using hp ps hr
  | some v => simp [hr] at h

theorem restores_combine2 {T0 T1 : Type} (p0 : Parser T0) (p1 : Parser T1)
    (h0 : RestoresOnFailure p0) : RestoresOnFailure (combine2 p0 p1) := by
  intro ps h
  simp only [combine2] at h ⊢
  cases hr0 : (p0 ps).value with
  | none => simpa [hr0] using h0 ps hr0
  | some v0 =>
    cases hr1 : (p1 (p0 ps).state).value with
    | none => simp [hr0, hr1]
    | some v1 => simp [hr0, hr1] at h

theorem restores_combine3 {T0 T1 T2 : Type} (p0 : Parser T0) (p1 : Parser T1) (p2 : Parser T2)
    (h0 : RestoresOnFailure p0) : RestoresOnFailure (combine3 p0 p1 p2) := by
  intro ps h
  simp only [combine3] at h ⊢
  cases hr0 : (p0 ps).value with
  | none => simpa [hr0] using h0 ps hr0
  | some v0 =>
    cases hr1 : (p1 (p0 ps).state).value with
    | none => simp [hr0, hr1]
    | some v1 =>
      cases hr2 : (p2 (p1 (p0 ps).state).state).value with
      | none => simp [hr0, hr1, hr2]
      | some v2 => simp [hr0, hr1, hr2] at h

theorem manyLoop_value {T : Type} (p : Parser T) :
    ∀ (fuel : Nat) (ps : ParserState) (acc : List T),
      (manyLoop p fuel ps acc).value.isSome := by
  intro fuel
  induction fuel with
  | zero => intro ps acc; simp [manyLoop]
  | succ n ih =>
    intro ps acc
    simp only [manyLoop]
    cases hr : (p ps).value with
    | none => simp [hr]
    | some v => simpa [hr] using ih (p ps).state (acc ++ [v])

theorem restores_many {T : Type} (p : Parser T) : RestoresOnFailure (many p) := by
  intro ps h
  exfalso
  have := manyLoop_value p (ps.text.length + 1 - ps.position) ps []
  simp only [many] at h
  rw [h] at this
  simp at this

theorem manyStringLoop_value (p : Parser Nat) :
    ∀ (fuel : Nat) (ps : ParserState) (acc : List Char),
      (manyStringLoop p fuel ps acc).value.isSome := by
  intro fuel
  induction fuel with
  | zero => intro ps acc; simp [manyStringLoop]
  | succ n ih =>
    intro ps acc
    simp only [manyStringLoop]
    cases hr : (p ps).value with
    | none => simp [hr]
    | some v => simpa [hr] using ih (p ps).state (acc ++ [Char.ofNat v])

theorem restores_manyString (p : Parser Nat) : RestoresOnFailure (manyString p) := by
  intro ps h
  exfalso
  have := manyStringLoop_value p (ps.text.length + 1 - ps.position) ps []
  simp only [manyString] at h
  rw [h] at this
  simp at this

theorem chainLeftLoop_value {T S : Type} (p : Parser T) (sep : Parser S) (c : Combiner T S) :
    ∀ (fuel : Nat) (ps : ParserState) (snap : Snapshot) (v : T),
      (chainLeftLoop p sep c fuel ps snap v).value.isSome := by
  intro fuel
  induction fuel with
  | zero => intro ps snap v; simp [chainLeftLoop]
  | succ n ih =>
    intro ps snap v
    simp only [chainLeftLoop]
    cases hrs : (sep ps).value with
    | none => simp [hrs]
    | some op =>
      cases hrp : (p (sep ps).state).value with
      | none => simp [hrs, hrp]
      | some w => simpa [hrs, hrp] using ih _ _ _

theorem restores_chainLeft {T S : Type} (p : Parser T) (sep : Parser S) (c : Combiner T S)
    (hp : RestoresOnFailure p) : RestoresOnFailure (chainLeft p sep c) := by
  intro ps h
  simp only [chainLeft] at h ⊢
  cases hr : (p ps).value with
  | none => simpa [hr] using hp ps hr
  | some v =>
    exfalso
    have := chainLeftLoop_value p sep c ((p ps).state.text.length + 1 - (p ps).state.position)
      (p ps).state (p ps).state.snapshot v
    simp only [hr] at h
    rw [h] at this
    simp at this

theorem restores_choiceGo {T : Type} (l : List (Parser T)) (hl : ∀ q ∈ l, RestoresOnFailure q) :
    ∀ ps, (choiceGo l ps).value = none →
      (choiceGo l ps).state.position = ps.position ∧ (choiceGo l ps).state.indent = ps.indent := by
  induction l with
  | nil => intro ps _; exact ⟨rfl, rfl⟩
  | cons q rest ih =>
    intro ps h
    simp only [choiceGo] at h ⊢
    cases hr : (q ps).value with
    | some v => simp [hr] at h
    | none =>
      have hq := hl q (by simp) ps hr
      have hrest := ih (fun r hr => hl r (by simp [hr])) (q ps).state
      simp only [hr] at h ⊢
      have h3 := hrest h
      exact ⟨h3.1.trans hq.1, h3.2.trans hq.2⟩

theorem restores_choice {T : Type} (l : List (Parser T)) (hl : ∀ q ∈ l, RestoresOnFailure q) :
    RestoresOnFailure (choice l) := by
  intro ps h
  exact restores_choiceGo l hl ps h

theorem switchLookup_mem {T : Type} (choices : List (List Char × Parser T)) (ch : Nat)
    (p : Parser T) (h : switchLookup choices ch = some p) : ∃ d, (d, p) ∈ choices := by
  simp only [switchLookup] at h
  have main : ∀ (l : List (List Char × Parser T)) (acc : Option (Parser T)),
      List.foldl (fun acc dp =>
        if (dp.1.map Char.toNat).contains ch then some dp.2 else acc) acc l = some p →
      (∃ d, (d, p) ∈ l) ∨ acc = some p := by
    intro l
    induction l with
    | nil => intro acc hacc; exact Or.inr hacc
    | cons dp rest ih =>
      intro acc hacc
      simp only [List.foldl_cons] at hacc
      rcases ih _ hacc with hmem | hacc'
      · rcases hmem with ⟨d, hd⟩
        exact Or.inl ⟨d, by simp [hd]⟩
      · by_cases hc : ((dp.1.map Char.toNat).contains ch) = true
        · rw [if_pos hc] at hacc'
          have : p = dp.2 := by
            have := hacc'.symm
            simpa using this
          exact Or.inl ⟨dp.1, by cases dp; simp_all⟩
        · rw [if_neg hc] at hacc'
          exact Or.inr hacc'
  rcases main choices none h with hmem | hnone
  · exact hmem
  · simp at hnone

theorem restores_switchOver {T : Type} (defaultTo : Parser T)
    (choices : List (List Char × Parser T))
    (hl : ∀ dp ∈ choices, RestoresOnFailure dp.2) :
    RestoresOnFailure (switchOver defaultTo choices) := by
  intro ps h
  simp only [switchOver] at h ⊢
  cases hc : ps.currentCharCode with
  | none => simp [hc]
  | some ch =>
    cases hp : switchLookup choices ch with
    | none => simp [hc, hp]
    | some q =>
      simp only [hc, hp] at h ⊢
      rcases switchLookup_mem choices ch q hp with ⟨d, hd⟩
      exact hl (d, q) hd ps h

end mpc

/-- C1: for every parser constructed by the library — every primitive and
every combinator, the latter under the contract hypothesis for the parsers
they delegate to — whenever its parse function returns a failing result on
a ParserState, the state's position and indent fields are exactly their
values from before the parse attempt, even when the parser internally
consumed input or ran sub-parsers that were discarded. -/
theorem claim_C1_every_parser_restores_on_failure :
    (∀ (T : Type) (v : T), mpc.RestoresOnFailure (mpc.success v))
  ∧ (∀ (T : Type), mpc.RestoresOnFailure (mpc.fail (T := T)))
  ∧ mpc.RestoresOnFailure mpc.indent
  ∧ mpc.RestoresOnFailure mpc.dedent
  ∧ mpc.RestoresOnFailure mpc.indention
  ∧ mpc.RestoresOnFailure mpc.anyIndention
  ∧ mpc.RestoresOnFailure mpc.anyChar
  ∧ (∀ str, mpc.RestoresOnFailure (mpc.anyCharOf str))
  ∧ (∀ (T : Type) (str : List Char) (mapTo : List T),
      mpc.RestoresOnFailure (mpc.anyCharOf2 str mapTo))
  ∧ (∀ str, mpc.RestoresOnFailure (mpc.anyStringOf str))
  ∧ mpc.RestoresOnFailure mpc.EOS
  ∧ mpc.RestoresOnFailure mpc.EOL
  ∧ (∀ f, mpc.RestoresOnFailure (mpc.satisfy f))
  ∧ (∀ f, mpc.RestoresOnFailure (mpc.satisfyMany f))
  ∧ (∀ f, mpc.RestoresOnFailure (mpc.skipSatisfyMany f))
  ∧ (∀ str, mpc.RestoresOnFailure (mpc.skipString str))
  ∧ (∀ (T : Type) (p : mpc.Parser T), mpc.RestoresOnFailure (mpc.many p))
  ∧ (∀ (p : mpc.Parser Nat), mpc.RestoresOnFailure (mpc.manyString p))
  ∧ (∀ (T : Type) (p : mpc.Parser T), mpc.RestoresOnFailure p.opt)
  ∧ (∀ (T : Type) (p : mpc.Parser T),
      mpc.RestoresOnFailure p → mpc.RestoresOnFailure p.noResult)
  ∧ (∀ (T R : Type) (p : mpc.Parser T) (v : R),
      mpc.RestoresOnFailure p → mpc.RestoresOnFailure (p.result v))
  ∧ (∀ (T : Type) (p : mpc.Parser T) (f : T → Bool),
      mpc.RestoresOnFailure p → mpc.RestoresOnFailure (p.test f))
  ∧ (∀ (T : Type) (p : mpc.Parser T) (i : Nat),
      mpc.RestoresOnFailure p → mpc.RestoresOnFailure (p.consumedAtLeast i))
  ∧ (∀ (T : Type) (p : mpc.Parser T) (pBegin pEnd : mpc.Parser Unit),
      mpc.RestoresOnFailure pBegin → mpc.RestoresOnFailure (p.inBetween pBegin pEnd))
  ∧ (∀ (T R : Type) (p : mpc.Parser T) (q : mpc.Parser R),
      mpc.RestoresOnFailure p → mpc.RestoresOnFailure (p.keepLeft q))
  ∧ (∀ (T R : Type) (p : mpc.Parser T) (q : mpc.Parser R),
      mpc.RestoresOnFailure p → mpc.RestoresOnFailure (p.keepRight q))
  ∧ (∀ (T R : Type) (p : mpc.Parser T) (pExcept : mpc.Parser R),
      mpc.RestoresOnFailure p → mpc.RestoresOnFailure pExcept →
      mpc.RestoresOnFailure (p.except pExcept))
  ∧ (∀ (T R : Type) (p : mpc.Parser T) (f : T → R),
      mpc.RestoresOnFailure p → mpc.RestoresOnFailure (p.transform f))
  ∧ (∀ (T0 T1 : Type) (p0 : mpc.Parser T0) (p1 : mpc.Parser T1),
      mpc.RestoresOnFailure p0 → mpc.RestoresOnFailure (mpc.combine2 p0 p1))
  ∧ (∀ (T0 T1 T2 : Type) (p0 : mpc.Parser T0) (p1 : mpc.Parser T1) (p2 : mpc.Parser T2),
      mpc.RestoresOnFailure p0 → mpc.RestoresOnFailure (mpc.combine3 p0 p1 p2))
  ∧ (∀ (T S : Type) (p : mpc.Parser T) (sep : mpc.Parser S) (c : mpc.Combiner T S),
      mpc.RestoresOnFailure p → mpc.RestoresOnFailure (mpc.chainLeft p sep c))
  ∧ (∀ (T : Type) (l : List (mpc.Parser T)),
      (∀ q ∈ l, mpc.RestoresOnFailure q) → mpc.RestoresOnFailure (mpc.choice l))
  ∧ (∀ (T : Type) (defaultTo : mpc.Parser T) (choices : List (List Char × mpc.Parser T)),
      (∀ dp ∈ choices, mpc.RestoresOnFailure dp.2) →
      mpc.RestoresOnFailure (mpc.switchOver defaultTo choices)) :=
  ⟨fun _ v => mpc.restores_success v,
   fun _ => mpc.restores_fail,
   mpc.restores_indent,
   mpc.restores_dedent,
   mpc.restores_indention,
   mpc.restores_anyIndention,
   mpc.restores_anyChar,
   mpc.restores_anyCharOf,
   fun _ str mapTo => mpc.restores_anyCharOf2 str mapTo,
   mpc.restores_anyStringOf,
   mpc.restores_EOS,
   mpc.restores_EOL,
   mpc.restores_satisfy,
   mpc.restores_satisfyMany,
   mpc.restores_skipSatisfyMany,
   mpc.restores_skipString,
   fun _ p => mpc.restores_many p,
   mpc.restores_manyString,
   fun _ p => mpc.restores_opt p,
   fun _ p hp => mpc.restores_noResult p hp,
   fun _ _ p v hp => mpc.restores_result p v hp,
   fun _ p f hp => mpc.restores_test p f hp,
   fun _ p i hp => mpc.restores_consumedAtLeast p i hp,
   fun _ p pb pe hb => mpc.restores_inBetween p pb pe hb,
   fun _ _ p q hp => mpc.restores_keepLeft p q hp,
   fun _ _ p q hp => mpc.restores_keepRight p q hp,
   fun _ _ p q hp hq => mpc.restores_except p q hp hq,
   fun _ _ p f hp => mpc.restores_transform p f hp,
   fun _ _ p0 p1 h0 => mpc.restores_combine2 p0 p1 h0,
   fun _ _ _ p0 p1 p2 h0 => mpc.restores_combine3 p0 p1 p2 h0,
   fun _ _ p sep c hp => mpc.restores_chainLeft p sep c hp,
   fun _ l hl => mpc.restores_choice l hl,
   fun _ d cs hl => mpc.restores_switchOver d cs hl⟩

/-- Witness for C1: the contract instantiated at a concrete combination —
a predicate-filtered anyChar — with the combinator hypotheses discharged
by the claim theorem's own primitive clauses. -/
theorem claim_C1_witness :
    mpc.RestoresOnFailure (mpc.anyChar.test (fun n => decide (n = 97))) := by
  obtain ⟨-, -, -, -, -, -, hAnyChar, -, -, -, -, -, -, -, -, -, -, -, -, -, -,
    hTest, -⟩ := claim_C1_every_parser_restores_on_failure
  exact hTest Nat mpc.anyChar (fun n => decide (n = 97)) hAnyChar

namespace mpc

theorem pos_add_advanceCount_le (f : Satisfy) (ps : ParserState)
    (h : ps.position ≤ ps.text.length) :
    ps.position + advanceCount f (ps.text.drop ps.position) 0 ≤ ps.text.length := by
  have h1 := advanceCount_le f (ps.text.drop ps.position) 0
  have h2 : (ps.text.drop ps.position).length = ps.text.length - ps.position := by simp
  omega

theorem inv_init (s : List Char) : Inv (ParserState.init s) := by
  constructor <;> simp [ParserState.init]

theorem inv_skipAdvance (ps : ParserState) (f : Satisfy) (h : Inv ps) :
    Inv (ps.skipAdvance f).1 := by
  refine ⟨?_, h.2⟩
  simpa [ParserState.skipAdvance] using pos_add_advanceCount_le f ps h.1

theorem inv_advance (ps : ParserState) (f : Satisfy) (h : Inv ps) :
    Inv (ps.advance f).1 := by
  refine ⟨?_, h.2⟩
  simpa [ParserState.advance] using pos_add_advanceCount_le f ps h.1

theorem inv_increaseIndent (ps : ParserState) (h : Inv ps) : Inv ps.increaseIndent := by
  have h2 := h.2
  refine ⟨h.1, ?_⟩
  show (0 : Int) ≤ ps.indent + 1
  omega

theorem inv_decreaseIndent (ps : ParserState) (h : Inv ps) : Inv (ps.decreaseIndent).1 := by
  by_cases hi : ps.indent < 1
  · simpa [ParserState.decreaseIndent, hi] using h
  · have heq : (ps.decreaseIndent).1 = { ps with indent := ps.indent - 1 } := by
      simp [ParserState.decreaseIndent, hi]
    rw [heq]
    refine ⟨h.1, ?_⟩
    show (0 : Int) ≤ ps.indent - 1
    omega

theorem inv_restore_snapshot (ps ps' : ParserState) (h : Inv ps) (ht : ps'.text = ps.text) :
    Inv (ps'.restore ps.snapshot) := by
  refine ⟨?_, ?_⟩
  · simpa [ht] using h.1
  · simpa using h.2

theorem textpres_success {T : Type} (v : T) : TextPres (success v) := fun _ => rfl

theorem presinv_success {T : Type} (v : T) : PresInv (success v) := fun _ h => h

theorem textpres_fail {T : Type} : TextPres (fail (T := T)) := fun _ => rfl

theorem presinv_fail {T : Type} : PresInv (fail (T := T)) := fun _ h => h

theorem textpres_indent : TextPres indent := fun _ => rfl

theorem presinv_indent : PresInv indent := fun ps h => inv_increaseIndent ps h

theorem textpres_dedent : TextPres dedent := by
  intro ps
  by_cases hi : ps.indent < 1 <;>
    simp [dedent, ParserState.decreaseIndent, hi]

theorem presinv_dedent : PresInv dedent := by
  intro ps h
  by_cases hi : ps.indent < 1
  · simpa [dedent, ParserState.decreaseIndent, hi] using h
  · have heq : (dedent ps).state = { ps with indent := ps.indent - 1 } := by
      simp [dedent, ParserState.decreaseIndent, hi]
    rw [heq]
    refine ⟨h.1, ?_⟩
    show (0 : Int) ≤ ps.indent - 1
    omega

theorem textpres_indention : TextPres indention := by
  intro ps
  by_cases hz : ps.indent = 0
  · simp [indention, hz]
  · simp only [indention, ParserState.skipAdvance, hz]
    split_ifs <;> simp

theorem presinv_indention : PresInv indention := by
  intro ps h
  by_cases hz : ps.indent = 0
  · simpa [indention, hz] using h
  · simp only [indention, ParserState.skipAdvance]
    rw [if_neg hz]
    split_ifs with ht
    · exact ⟨by simpa using pos_add_advanceCount_le _ ps h.1, by simpa using h.2⟩
    · exact ⟨by simpa using h.1, by simpa using h.2⟩

theorem textpres_anyChar : TextPres anyChar := by
  intro ps
  cases hc : ps.currentCharCode <;> simp [anyChar, hc]

theorem presinv_anyChar : PresInv anyChar := by
  intro ps h
  cases hc : ps.currentCharCode with
  | none => simpa [anyChar, hc] using h
  | some ch =>
    refine ⟨?_, by simpa [anyChar, hc] using h.2⟩
    have : ¬ ps.position ≥ ps.text.length := by
      intro hge
      simp [ParserState.currentCharCode, hge] at hc
    simp only [anyChar, hc]
    simp
    omega

theorem textpres_anyCharOf (str : List Char) : TextPres (anyCharOf str) := by
  intro ps
  cases hc : ps.currentCharCode with
  | none => simp [anyCharOf, hc]
  | some ch =>
    cases hi : indexOfCode (str.map Char.toNat) ch <;> simp [anyCharOf, hc, hi]

theorem presinv_anyCharOf (str : List Char) : PresInv (anyCharOf str) := by
  intro ps h
  cases hc : ps.currentCharCode with
  | none => simpa [anyCharOf, hc] using h
  | some ch =>
    have hlt : ¬ ps.position ≥ ps.text.length := by
      intro hge
      simp [ParserState.currentCharCode, hge] at hc
    cases hi : indexOfCode (str.map Char.toNat) ch with
    | none => simpa [anyCharOf, hc, hi] using h
    | some i =>
      refine ⟨?_, by simpa [anyCharOf, hc, hi] using h.2⟩
      simp only [anyCharOf, hc, hi]
      simp
      omega

theorem textpres_anyCharOf2 {T : Type} (str : List Char) (mapTo : List T) :
    TextPres (anyCharOf2 str mapTo) := by
  intro ps
  cases hc : ps.currentCharCode with
  | none => simp [anyCharOf2, hc]
  | some ch =>
    cases hi : indexOfCode (str.map Char.toNat) ch with
    | none => simp [anyCharOf2, hc, hi]
    | some i =>
      cases hm : mapTo[i]? <;> simp [anyCharOf2, hc, hi, hm, List.get?_eq_getElem?]

theorem presinv_anyCharOf2 {T : Type} (str : List Char) (mapTo : List T) :
    PresInv (anyCharOf2 str mapTo) := by
  intro ps h
  cases hc : ps.currentCharCode with
  | none => simpa [anyCharOf2, hc] using h
  | some ch =>
    have hlt : ¬ ps.position ≥ ps.text.length := by
      intro hge
      simp [ParserState.currentCharCode, hge] at hc
    cases hi : indexOfCode (str.map Char.toNat) ch with
    | none => simpa [anyCharOf2, hc, hi] using h
    | some i =>
      cases hm : mapTo[i]? with
      | none => simpa [anyCharOf2, hc, hi, hm, List.get?_eq_getElem?] using h
      | some v =>
        refine ⟨?_, by simpa [anyCharOf2, hc, hi, hm, List.get?_eq_getElem?] using h.2⟩
        simp only [anyCharOf2, hc, hi, List.get?_eq_getElem?, hm]
        simp
        omega

theorem textpres_anyStringOf (str : List Char) : TextPres (anyStringOf str) := by
  intro ps; simp [anyStringOf, ParserState.advance]

theorem presinv_anyStringOf (str : List Char) : PresInv (anyStringOf str) := by
  intro ps h
  refine ⟨?_, by simpa [anyStringOf, ParserState.advance] using h.2⟩
  simpa [anyStringOf, ParserState.advance] using pos_add_advanceCount_le _ ps h.1

theorem textpres_EOS : TextPres EOS := by
  intro ps
  by_cases he : ps.isEOS <;> simp [EOS, he]

theorem presinv_EOS : PresInv EOS := by
  intro ps h
  by_cases he : ps.isEOS <;> simpa [EOS, he] using h

theorem textpres_EOL : TextPres EOL := by
  intro ps
  simp only [EOL]
  split_ifs <;> simp

theorem presinv_EOL : PresInv EOL := by
  intro ps h
  have hlen : ps.position < ps.text.length ∨ ps.position ≥ ps.text.length := by omega
  simp only [EOL]
  split_ifs with h1 h2 h3 h4 <;> refine ⟨?_, by simpa using h.2⟩
  · simpa using h.1
  · simp only [ParserState.isEOS, ge_iff_le, decide_eq_true_eq] at h1
    simp
    omega
  · rcases h4 with ⟨h5, h6⟩
    simp only [ParserState.isEOS, ge_iff_le] at h5
    simp at h5
    simp
    omega
  · simp only [ParserState.isEOS, ge_iff_le, decide_eq_true_eq] at h1
    simp
    omega
  · simpa using h.1

theorem textpres_satisfy (f : Satisfy) : TextPres (satisfy f) := by
  intro ps
  simp only [satisfy]
  split_ifs <;> simp

theorem presinv_satisfy (f : Satisfy) : PresInv (satisfy f) := by
  intro ps h
  simp only [satisfy]
  split_ifs with h1 h2 <;> refine ⟨?_, by simpa using h.2⟩
  · simpa using h.1
  · simp only [ParserState.isEOS, ge_iff_le, decide_eq_true_eq] at h1
    simp
    omega
  · simpa using h.1

theorem textpres_satisfyMany (f : Satisfy) : TextPres (satisfyMany f) := by
  intro ps; simp [satisfyMany, ParserState.advance]

theorem presinv_satisfyMany (f : Satisfy) : PresInv (satisfyMany f) := by
  intro ps h
  refine ⟨?_, by simpa [satisfyMany, ParserState.advance] using h.2⟩
  simpa [satisfyMany, ParserState.advance] using pos_add_advanceCount_le _ ps h.1

theorem textpres_skipSatisfyMany (f : Satisfy) : TextPres (skipSatisfyMany f) := by
  intro ps; simp [skipSatisfyMany, ParserState.skipAdvance]

theorem presinv_skipSatisfyMany (f : Satisfy) : PresInv (skipSatisfyMany f) := by
  intro ps h
  refine ⟨?_, by simpa [skipSatisfyMany, ParserState.skipAdvance] using h.2⟩
  simpa [skipSatisfyMany, ParserState.skipAdvance] using pos_add_advanceCount_le _ ps h.1

theorem textpres_anyIndention : TextPres anyIndention := textpres_skipSatisfyMany satisyTab

theorem presinv_anyIndention : PresInv anyIndention := presinv_skipSatisfyMany satisyTab

theorem textpres_skipString (str : List Char) : TextPres (skipString str) := by
  intro ps
  simp only [skipString, ParserState.skipAdvance]
  split_ifs <;> simp

theorem presinv_skipString (str : List Char) : PresInv (skipString str) := by
  intro ps h
  simp only [skipString, ParserState.skipAdvance]
  split_ifs with h1 <;> refine ⟨?_, by simpa using h.2⟩
  · simpa using pos_add_advanceCount_le _ ps h.1
  · simpa using h.1

end mpc

namespace mpc

theorem textpres_noResult {T : Type} (p : Parser T) (hp : TextPres p) :
    TextPres p.noResult := by
  intro ps
  simp only [Parser.noResult]
  cases hr : (p ps).value <;> simpa [hr] using hp ps

theorem presinv_noResult {T : Type} (p : Parser T) (hp : PresInv p) :
    PresInv p.noResult := by
  intro ps h
  simp only [Parser.noResult]
  cases hr : (p ps).value <;> simpa [hr] using hp ps h

theorem textpres_result {T R : Type} (p : Parser T) (v : R) (hp : TextPres p) :
    TextPres (p.result v) := by
  intro ps
  simp only [Parser.result]
  cases hr : (p ps).value <;> simpa [hr] using hp ps

theorem presinv_result {T R : Type} (p : Parser T) (v : R) (hp : PresInv p) :
    PresInv (p.result v) := by
  intro ps h
  simp only [Parser.result]
  cases hr : (p ps).value <;> simpa [hr] using hp ps h

theorem textpres_test {T : Type} (p : Parser T) (f : T → Bool) (hp : TextPres p) :
    TextPres (p.test f) := by
  intro ps
  simp only [Parser.test]
  cases hr : (p ps).value with
  | none => simpa [hr] using hp ps
  | some v =>
    by_cases hf : f v <;> simpa [hr, hf] using hp ps

theorem presinv_test {T : Type} (p : Parser T) (f : T → Bool) (hp : PresInv p)
    (ht : TextPres p) : PresInv (p.test f) := by
  intro ps h
  simp only [Parser.test]
  cases hr : (p ps).value with
  | none => simpa [hr] using hp ps h
  | some v =>
    by_cases hf : f v
    · simpa [hr, hf] using hp ps h
    · simp only [hr, hf]
      simpa [hr, hf] using inv_restore_snapshot ps (p ps).state h (ht ps)

theorem textpres_consumedAtLeast {T : Type} (p : Parser T) (i : Nat) (hp : TextPres p) :
    TextPres (p.consumedAtLeast i) := by
  intro ps
  simp only [Parser.consumedAtLeast]
  cases hr : (p ps).value with
  | none => simpa [hr] using hp ps
  | some v =>
    by_cases hc : (p ps).state.position < ps.position + i <;>
      simpa [hr, hc] using hp ps

theorem presinv_consumedAtLeast {T : Type} (p : Parser T) (i : Nat) (hp : PresInv p)
    (ht : TextPres p) : PresInv (p.consumedAtLeast i) := by
  intro ps h
  simp only [Parser.consumedAtLeast]
  cases hr : (p ps).value with
  | none => simpa [hr] using hp ps h
  | some v =>
    by_cases hc : (p ps).state.position < ps.position + i
    · simpa [hr, hc] using inv_restore_snapshot ps (p ps).state h (ht ps)
    · simpa [hr, hc] using hp ps h

theorem textpres_inBetween {T : Type} (p : Parser T) (pb pe : Parser Unit)
    (hp : TextPres p) (hb : TextPres pb) (he : TextPres pe) :
    TextPres (p.inBetween pb pe) := by
  intro ps
  simp only [Parser.inBetween]
  cases hrb : (pb ps).value with
  | none => simpa [hrb] using hb ps
  | some u =>
    cases hr : (p (pb ps).state).value with
    | none => simpa [hr, hrb] using (hp (pb ps).state).trans (hb ps)
    | some v =>
      cases hre : (pe (p (pb ps).state).state).value with
      | none =>
        simpa [hrb, hr, hre] using
          ((he (p (pb ps).state).state).trans ((hp (pb ps).state).trans (hb ps)))
      | some w =>
        simpa [hrb, hr, hre] using
          ((he (p (pb ps).state).state).trans ((hp (pb ps).state).trans (hb ps)))

theorem presinv_inBetween {T : Type} (p : Parser T) (pb pe : Parser Unit)
    (hp : PresInv p) (hb : PresInv pb) (he : PresInv pe)
    (tp : TextPres p) (tb : TextPres pb) (te : TextPres pe) :
    PresInv (p.inBetween pb pe) := by
  intro ps h
  simp only [Parser.inBetween]
  cases hrb : (pb ps).value with
  | none => simpa [hrb] using hb ps h
  | some u =>
    have h1 : Inv (pb ps).state := hb ps h
    cases hr : (p (pb ps).state).value with
    | none =>
      simpa [hrb, hr] using
        inv_restore_snapshot ps (p (pb ps).state).state h ((tp (pb ps).state).trans (tb ps))
    | some v =>
      have h2 : Inv (p (pb ps).state).state := hp (pb ps).state h1
      cases hre : (pe (p (pb ps).state).state).value with
      | none =>
        simpa [hrb, hr, hre] using
          inv_restore_snapshot ps (pe (p (pb ps).state).state).state h
            ((te (p (pb ps).state).state).trans ((tp (pb ps).state).trans (tb ps)))
      | some w => simpa [hrb, hr, hre] using he (p (pb ps).state).state h2

theorem textpres_keepLeft {T R : Type} (p : Parser T) (q : Parser R)
    (hp : TextPres p) (hq : TextPres q) : TextPres (p.keepLeft q) := by
  intro ps
  simp only [Parser.keepLeft]
  cases hr : (p ps).value with
  | none => simpa [hr] using hp ps
  | some v =>
    cases hro : (q (p ps).state).value <;>
      simpa [hr, hro] using (hq (p ps).state).trans (hp ps)

theorem presinv_keepLeft {T R : Type} (p : Parser T) (q : Parser R)
    (hp : PresInv p) (hq : PresInv q) (tp : TextPres p) (tq : TextPres q) :
    PresInv (p.keepLeft q) := by
  intro ps h
  simp only [Parser.keepLeft]
  cases hr : (p ps).value with
  | none => simpa [hr] using hp ps h
  | some v =>
    have h1 : Inv (p ps).state := hp ps h
    cases hro : (q (p ps).state).value with
    | none =>
      simpa [hr, hro] using
        inv_restore_snapshot ps (q (p ps).state).state h ((tq (p ps).state).trans (tp ps))
    | some w => simpa [hr, hro] using hq (p ps).state h1

theorem textpres_keepRight {T R : Type} (p : Parser T) (q : Parser R)
    (hp : TextPres p) (hq : TextPres q) : TextPres (p.keepRight q) := by
  intro ps
  simp only [Parser.keepRight]
  cases hr : (p ps).value with
  | none => simpa [hr] using hp ps
  | some v =>
    cases hro : (q (p ps).state).value <;>
      simpa [hr, hro] using (hq (p ps).state).trans (hp ps)

theorem presinv_keepRight {T R : Type} (p : Parser T) (q : Parser R)
    (hp : PresInv p) (hq : PresInv q) (tp : TextPres p) (tq : TextPres q) :
    PresInv (p.keepRight q) := by
  intro ps h
  simp only [Parser.keepRight]
  cases hr : (p ps).value with
  | none => simpa [hr] using hp ps h
  | some v =>
    have h1 : Inv (p ps).state := hp ps h
    cases hro : (q (p ps).state).value with
    | none =>
      simpa [hr, hro] using
        inv_restore_snapshot ps (q (p ps).state).state h ((tq (p ps).state).trans (tp ps))
    | some w => simpa [hr, hro] using hq (p ps).state h1

theorem textpres_except {T R : Type} (p : Parser T) (q : Parser R)
    (hp : TextPres p) (hq : TextPres q) : TextPres (p.except q) := by
  intro ps
  simp only [Parser.except]
  cases hre : (q ps).value with
  | some v => simpa [hre] using hq ps
  | none =>
    cases hr : (p (q ps).state).value <;>
      simpa [hre, hr] using (hp (q ps).state).trans (hq ps)

theorem presinv_except {T R : Type} (p : Parser T) (q : Parser R)
    (hp : PresInv p) (hq : PresInv q) (tq : TextPres q) : PresInv (p.except q) := by
  intro ps h
  simp only [Parser.except]
  cases hre : (q ps).value with
  | some v =>
    simpa [hre] using inv_restore_snapshot ps (q ps).state h (tq ps)
  | none =>
    have h1 : Inv (q ps).state := hq ps h
    cases hr : (p (q ps).state).value <;> simpa [hre, hr] using hp (q ps).state h1

theorem textpres_opt {T : Type} (p : Parser T) (hp : TextPres p) : TextPres p.opt := by
  intro ps
  simp only [Parser.opt]
  cases hr : (p ps).value <;> simpa [hr] using hp ps

theorem presinv_opt {T : Type} (p : Parser T) (hp : PresInv p) : PresInv p.opt := by
  intro ps h
  simp only [Parser.opt]
  cases hr : (p ps).value <;> simpa [hr] using hp ps h

theorem textpres_transform {T R : Type} (p : Parser T) (f : T → R) (hp : TextPres p) :
    TextPres (p.transform f) := by
  intro ps
  simp only [Parser.transform]
  cases hr : (p ps).value <;> simpa [hr] using hp ps

theorem presinv_transform {T R : Type} (p : Parser T) (f : T → R) (hp : PresInv p) :
    PresInv (p.transform f) := by
  intro ps h
  simp only [Parser.transform]
  cases hr : (p ps).value <;> simpa [hr] using hp ps h

theorem textpres_combine2 {T0 T1 : Type} (p0 : Parser T0) (p1 : Parser T1)
    (h0 : TextPres p0) (h1 : TextPres p1) : TextPres (combine2 p0 p1) := by
  intro ps
  simp only [combine2]
  cases hr0 : (p0 ps).value with
  | none => simpa [hr0] using h0 ps
  | some v0 =>
    cases hr1 : (p1 (p0 ps).state).value <;>
      simpa [hr0, hr1] using (h1 (p0 ps).state).trans (h0 ps)

theorem presinv_combine2 {T0 T1 : Type} (p0 : Parser T0) (p1 : Parser T1)
    (h0 : PresInv p0) (h1 : PresInv p1) (t0 : TextPres p0) (t1 : TextPres p1) :
    PresInv (combine2 p0 p1) := by
  intro ps h
  simp only [combine2]
  cases hr0 : (p0 ps).value with
  | none => simpa [hr0] using h0 ps h
  | some v0 =>
    have hi0 : Inv (p0 ps).state := h0 ps h
    cases hr1 : (p1 (p0 ps).state).value with
    | none =>
      simpa [hr0, hr1] using
        inv_restore_snapshot ps (p1 (p0 ps).state).state h ((t1 (p0 ps).state).trans (t0 ps))
    | some v1 => simpa [hr0, hr1] using h1 (p0 ps).state hi0

theorem textpres_combine3 {T0 T1 T2 : Type} (p0 : Parser T0) (p1 : Parser T1) (p2 : Parser T2)
    (h0 : TextPres p0) (h1 : TextPres p1) (h2 : TextPres p2) :
    TextPres (combine3 p0 p1 p2) := by
  intro ps
  simp only [combine3]
  cases hr0 : (p0 ps).value with
  | none => simpa [hr0] using h0 ps
  | some v0 =>
    cases hr1 : (p1 (p0 ps).state).value with
    | none => simpa [hr0, hr1] using (h1 (p0 ps).state).trans (h0 ps)
    | some v1 =>
      cases hr2 : (p2 (p1 (p0 ps).state).state).value <;>
        simpa [hr0, hr1, hr2] using
          (h2 (p1 (p0 ps).state).state).trans ((h1 (p0 ps).state).trans (h0 ps))

theorem presinv_combine3 {T0 T1 T2 : Type} (p0 : Parser T0) (p1 : Parser T1) (p2 : Parser T2)
    (h0 : PresInv p0) (h1 : PresInv p1) (h2 : PresInv p2)
    (t0 : TextPres p0) (t1 : TextPres p1) (t2 : TextPres p2) :
    PresInv (combine3 p0 p1 p2) := by
  intro ps h
  simp only [combine3]
  cases hr0 : (p0 ps).value with
  | none => simpa [hr0] using h0 ps h
  | some v0 =>
    have hi0 : Inv (p0 ps).state := h0 ps h
    cases hr1 : (p1 (p0 ps).state).value with
    | none =>
      simpa [hr0, hr1] using
        inv_restore_snapshot ps (p1 (p0 ps).state).state h ((t1 (p0 ps).state).trans (t0 ps))
    | some v1 =>
      have hi1 : Inv (p1 (p0 ps).state).state := h1 (p0 ps).state hi0
      cases hr2 : (p2 (p1 (p0 ps).state).state).value with
      | none =>
        simpa [hr0, hr1, hr2] using
          inv_restore_snapshot ps (p2 (p1 (p0 ps).state).state).state h
            ((t2 (p1 (p0 ps).state).state).trans ((t1 (p0 ps).state).trans (t0 ps)))
      | some v2 => simpa [hr0, hr1, hr2] using h2 (p1 (p0 ps).state).state hi1

theorem textpres_manyLoop {T : Type} (p : Parser T) (hp : TextPres p) :
    ∀ (fuel : Nat) (ps : ParserState) (acc : List T),
      (manyLoop p fuel ps acc).state.text = ps.text := by
  intro fuel
  induction fuel with
  | zero => intro ps acc; simp [manyLoop]
  | succ n ih =>
    intro ps acc
    simp only [manyLoop]
    cases hr : (p ps).value with
    | none => simpa [hr] using hp ps
    | some v => simpa [hr] using (ih (p ps).state (acc ++ [v])).trans (hp ps)

theorem textpres_many {T : Type} (p : Parser T) (hp : TextPres p) : TextPres (many p) := by
  intro ps
  exact textpres_manyLoop p hp _ ps []

theorem presinv_manyLoop {T : Type} (p : Parser T) (hp : PresInv p) :
    ∀ (fuel : Nat) (ps : ParserState) (acc : List T),
      Inv ps → Inv (manyLoop p fuel ps acc).state := by
  intro fuel
  induction fuel with
  | zero => intro ps acc h; simpa [manyLoop] using h
  | succ n ih =>
    intro ps acc h
    simp only [manyLoop]
    cases hr : (p ps).value with
    | none => simpa [hr] using hp ps h
    | some v => simpa [hr] using ih (p ps).state (acc ++ [v]) (hp ps h)

theorem presinv_many {T : Type} (p : Parser T) (hp : PresInv p) : PresInv (many p) := by
  intro ps h
  exact presinv_manyLoop p hp _ ps [] h

theorem textpres_manyStringLoop (p : Parser Nat) (hp : TextPres p) :
    ∀ (fuel : Nat) (ps : ParserState) (acc : List Char),
      (manyStringLoop p fuel ps acc).state.text = ps.text := by
  intro fuel
  induction fuel with
  | zero => intro ps acc; simp [manyStringLoop]
  | succ n ih =>
    intro ps acc
    simp only [manyStringLoop]
    cases hr : (p ps).value with
    | none => simpa [hr] using hp ps
    | some v => simpa [hr] using (ih (p ps).state (acc ++ [Char.ofNat v])).trans (hp ps)

theorem textpres_manyString (p : Parser Nat) (hp : TextPres p) : TextPres (manyString p) := by
  intro ps
  exact textpres_manyStringLoop p hp _ ps []

theorem presinv_manyStringLoop (p : Parser Nat) (hp : PresInv p) :
    ∀ (fuel : Nat) (ps : ParserState) (acc : List Char),
      Inv ps → Inv (manyStringLoop p fuel ps acc).state := by
  intro fuel
  induction fuel with
  | zero => intro ps acc h; simpa [manyStringLoop] using h
  | succ n ih =>
    intro ps acc h
    simp only [manyStringLoop]
    cases hr : (p ps).value with
    | none => simpa [hr] using hp ps h
    | some v => simpa [hr] using ih (p ps).state (acc ++ [Char.ofNat v]) (hp ps h)

theorem presinv_manyString (p : Parser Nat) (hp : PresInv p) : PresInv (manyString p) := by
  intro ps h
  exact presinv_manyStringLoop p hp _ ps [] h

end mpc

namespace mpc

theorem textpres_chainLeftLoop {T S : Type} (p : Parser T) (sep : Parser S) (c : Combiner T S)
    (tp : TextPres p) (ts : TextPres sep) :
    ∀ (fuel : Nat) (ps : ParserState) (snap : Snapshot) (v : T),
      (chainLeftLoop p sep c fuel ps snap v).state.text = ps.text := by
  intro fuel
  induction fuel with
  | zero => intro ps snap v; simp [chainLeftLoop]
  | succ n ih =>
    intro ps snap v
    simp only [chainLeftLoop]
    cases hrs : (sep ps).value with
    | none => simpa [hrs] using ts ps
    | some op =>
      cases hrp : (p (sep ps).state).value with
      | none => simpa [hrs, hrp] using (tp (sep ps).state).trans (ts ps)
      | some w =>
        simpa [hrs, hrp] using
          (ih (p (sep ps).state).state (p (sep ps).state).state.snapshot
            (c v op w)).trans ((tp (sep ps).state).trans (ts ps))

theorem textpres_chainLeft {T S : Type} (p : Parser T) (sep : Parser S) (c : Combiner T S)
    (tp : TextPres p) (ts : TextPres sep) : TextPres (chainLeft p sep c) := by
  intro ps
  simp only [chainLeft]
  cases hr : (p ps).value with
  | none => simpa [hr] using tp ps
  | some v =>
    simpa [hr] using
      (textpres_chainLeftLoop p sep c tp ts _ (p ps).state (p ps).state.snapshot v).trans (tp ps)

theorem presinv_chainLeftLoop {T S : Type} (p : Parser T) (sep : Parser S) (c : Combiner T S)
    (hp : PresInv p) (hs : PresInv sep) (tp : TextPres p) (ts : TextPres sep) :
    ∀ (fuel : Nat) (ps : ParserState) (snap : Snapshot) (v : T),
      Inv ps → (snap.position ≤ ps.text.length) → (0 ≤ snap.indent) →
      Inv (chainLeftLoop p sep c fuel ps snap v).state := by
  intro fuel
  induction fuel with
  | zero =>
    intro ps snap v _ h1 h2
    exact ⟨by simpa using h1, by simpa using h2⟩
  | succ n ih =>
    intro ps snap v h h1 h2
    simp only [chainLeftLoop]
    cases hrs : (sep ps).value with
    | none =>
      refine ⟨?_, by simpa using h2⟩
      simpa [ts ps] using h1
    | some op =>
      have hs1 : Inv (sep ps).state := hs ps h
      cases hrp : (p (sep ps).state).value with
      | none =>
        refine ⟨?_, by simpa using h2⟩
        simpa [hrs, hrp, (tp (sep ps).state).trans (ts ps)] using h1
      | some w =>
        have hp1 : Inv (p (sep ps).state).state := hp (sep ps).state hs1
        simp only [hrs, hrp]
        exact ih (p (sep ps).state).state (p (sep ps).state).state.snapshot (c v op w)
          hp1 (by simpa using hp1.1) (by simpa using hp1.2)

theorem presinv_chainLeft {T S : Type} (p : Parser T) (sep : Parser S) (c : Combiner T S)
    (hp : PresInv p) (hs : PresInv sep) (tp : TextPres p) (ts : TextPres sep) :
    PresInv (chainLeft p sep c) := by
  intro ps h
  simp only [chainLeft]
  cases hr : (p ps).value with
  | none => simpa [hr] using hp ps h
  | some v =>
    have h1 : Inv (p ps).state := hp ps h
    simp only [hr]
    exact presinv_chainLeftLoop p sep c hp hs tp ts _ (p ps).state (p ps).state.snapshot v
      h1 (by simpa using h1.1) (by simpa using h1.2)

theorem textpres_choiceGo {T : Type} (l : List (Parser T)) (hl : ∀ q ∈ l, TextPres q) :
    ∀ ps, (choiceGo l ps).state.text = ps.text := by
  induction l with
  | nil => intro ps; simp [choiceGo]
  | cons q rest ih =>
    intro ps
    simp only [choiceGo]
    cases hr : (q ps).value with
    | some v => simpa [hr] using hl q (by simp) ps
    | none =>
      simp only [hr]
      exact (ih (fun r hr2 => hl r (by simp [hr2])) (q ps).state).trans (hl q (by simp) ps)

theorem textpres_choice {T : Type} (l : List (Parser T)) (hl : ∀ q ∈ l, TextPres q) :
    TextPres (choice l) := fun ps => textpres_choiceGo l hl ps

theorem presinv_choiceGo {T : Type} (l : List (Parser T)) (hl : ∀ q ∈ l, PresInv q) :
    ∀ ps, Inv ps → Inv (choiceGo l ps).state := by
  induction l with
  | nil => intro ps h; simpa [choiceGo] using h
  | cons q rest ih =>
    intro ps h
    simp only [choiceGo]
    cases hr : (q ps).value with
    | some v => simpa [hr] using hl q (by simp) ps h
    | none =>
      simp only [hr]
      exact ih (fun r hr2 => hl r (by simp [hr2])) (q ps).state (hl q (by simp) ps h)

theorem presinv_choice {T : Type} (l : List (Parser T)) (hl : ∀ q ∈ l, PresInv q) :
    PresInv (choice l) := fun ps h => presinv_choiceGo l hl ps h

theorem textpres_switchOver {T : Type} (d : Parser T) (choices : List (List Char × Parser T))
    (hl : ∀ dp ∈ choices, TextPres dp.2) : TextPres (switchOver d choices) := by
  intro ps
  simp only [switchOver]
  cases hc : ps.currentCharCode with
  | none => simp
  | some ch =>
    cases hp : switchLookup choices ch with
    | none => simp [hp]
    | some q =>
      rcases switchLookup_mem choices ch q hp with ⟨dd, hd⟩
      simpa [hp] using hl (dd, q) hd ps

theorem presinv_switchOver {T : Type} (d : Parser T) (choices : List (List Char × Parser T))
    (hl : ∀ dp ∈ choices, PresInv dp.2) : PresInv (switchOver d choices) := by
  intro ps h
  simp only [switchOver]
  cases hc : ps.currentCharCode with
  | none => simpa using h
  | some ch =>
    cases hp : switchLookup choices ch with
    | none => simpa [hp] using h
    | some q =>
      rcases switchLookup_mem choices ch q hp with ⟨dd, hd⟩
      simpa [hp] using hl (dd, q) hd ps h

end mpc

/-- C10: every ParserState operation and every parser in the library
preserves the cursor invariant 0 ≤ position ≤ length(text) together with
indent ≥ 0 (position is a natural number in the model, so its lower bound
is inherent): a freshly constructed ParserState satisfies the invariant,
each state operation preserves it, each primitive parser preserves it, and
each combinator preserves it whenever its sub-parsers preserve it and the
text, so no sequence of parser applications can move the position past the
end of the text or make the indent counter negative. -/
theorem claim_C10_cursor_invariant_preserved :
    (∀ s, mpc.Inv (mpc.ParserState.init s))
  ∧ (∀ (ps : mpc.ParserState) (f : mpc.Satisfy), mpc.Inv ps → mpc.Inv (ps.skipAdvance f).1)
  ∧ (∀ (ps : mpc.ParserState) (f : mpc.Satisfy), mpc.Inv ps → mpc.Inv (ps.advance f).1)
  ∧ (∀ ps : mpc.ParserState, mpc.Inv ps → mpc.Inv ps.increaseIndent)
  ∧ (∀ ps : mpc.ParserState, mpc.Inv ps → mpc.Inv (ps.decreaseIndent).1)
  ∧ (∀ ps ps' : mpc.ParserState, mpc.Inv ps → ps'.text = ps.text →
      mpc.Inv (ps'.restore ps.snapshot))
  ∧ (∀ (T : Type) (v : T), mpc.TextPres (mpc.success v) ∧ mpc.PresInv (mpc.success v))
  ∧ (∀ T : Type, mpc.TextPres (mpc.fail (T := T)) ∧ mpc.PresInv (mpc.fail (T := T)))
  ∧ (mpc.TextPres mpc.indent ∧ mpc.PresInv mpc.indent)
  ∧ (mpc.TextPres mpc.dedent ∧ mpc.PresInv mpc.dedent)
  ∧ (mpc.TextPres mpc.indention ∧ mpc.PresInv mpc.indention)
  ∧ (mpc.TextPres mpc.anyIndention ∧ mpc.PresInv mpc.anyIndention)
  ∧ (mpc.TextPres mpc.anyChar ∧ mpc.PresInv mpc.anyChar)
  ∧ (∀ str, mpc.TextPres (mpc.anyCharOf str) ∧ mpc.PresInv (mpc.anyCharOf str))
  ∧ (∀ (T : Type) (str : List Char) (mapTo : List T),
      mpc.TextPres (mpc.anyCharOf2 str mapTo) ∧ mpc.PresInv (mpc.anyCharOf2 str mapTo))
  ∧ (∀ str, mpc.TextPres (mpc.anyStringOf str) ∧ mpc.PresInv (mpc.anyStringOf str))
  ∧ (mpc.TextPres mpc.EOS ∧ mpc.PresInv mpc.EOS)
  ∧ (mpc.TextPres mpc.EOL ∧ mpc.PresInv mpc.EOL)
  ∧ (∀ f, mpc.TextPres (mpc.satisfy f) ∧ mpc.PresInv (mpc.satisfy f))
  ∧ (∀ f, mpc.TextPres (mpc.satisfyMany f) ∧ mpc.PresInv (mpc.satisfyMany f))
  ∧ (∀ f, mpc.TextPres (mpc.skipSatisfyMany f) ∧ mpc.PresInv (mpc.skipSatisfyMany f))
  ∧ (∀ str, mpc.TextPres (mpc.skipString str) ∧ mpc.PresInv (mpc.skipString str))
  ∧ (∀ (T : Type) (p : mpc.Parser T), mpc.TextPres p → mpc.PresInv p →
      mpc.TextPres (mpc.many p) ∧ mpc.PresInv (mpc.many p))
  ∧ (∀ p : mpc.Parser Nat, mpc.TextPres p → mpc.PresInv p →
      mpc.TextPres (mpc.manyString p) ∧ mpc.PresInv (mpc.manyString p))
  ∧ (∀ (T : Type) (p : mpc.Parser T), mpc.TextPres p → mpc.PresInv p →
      mpc.TextPres p.opt ∧ mpc.PresInv p.opt)
  ∧ (∀ (T : Type) (p : mpc.Parser T), mpc.TextPres p → mpc.PresInv p →
      mpc.TextPres p.noResult ∧ mpc.PresInv p.noResult)
  ∧ (∀ (T R : Type) (p : mpc.Parser T) (v : R), mpc.TextPres p → mpc.PresInv p →
      mpc.TextPres (p.result v) ∧ mpc.PresInv (p.result v))
  ∧ (∀ (T : Type) (p : mpc.Parser T) (f : T → Bool), mpc.TextPres p → mpc.PresInv p →
      mpc.TextPres (p.test f) ∧ mpc.PresInv (p.test f))
  ∧ (∀ (T : Type) (p : mpc.Parser T) (i : Nat), mpc.TextPres p → mpc.PresInv p →
      mpc.TextPres (p.consumedAtLeast i) ∧ mpc.PresInv (p.consumedAtLeast i))
  ∧ (∀ (T : Type) (p : mpc.Parser T) (pb pe : mpc.Parser Unit),
      mpc.TextPres p → mpc.PresInv p → mpc.TextPres pb → mpc.PresInv pb →
      mpc.TextPres pe → mpc.PresInv pe →
      mpc.TextPres (p.inBetween pb pe) ∧ mpc.PresInv (p.inBetween pb pe))
  ∧ (∀ (T R : Type) (p : mpc.Parser T) (q : mpc.Parser R),
      mpc.TextPres p → mpc.PresInv p → mpc.TextPres q → mpc.PresInv q →
      mpc.TextPres (p.keepLeft q) ∧ mpc.PresInv (p.keepLeft q))
  ∧ (∀ (T R : Type) (p : mpc.Parser T) (q : mpc.Parser R),
      mpc.TextPres p → mpc.PresInv p → mpc.TextPres q → mpc.PresInv q →
      mpc.TextPres (p.keepRight q) ∧ mpc.PresInv (p.keepRight q))
  ∧ (∀ (T R : Type) (p : mpc.Parser T) (q : mpc.Parser R),
      mpc.TextPres p → mpc.PresInv p → mpc.TextPres q → mpc.PresInv q →
      mpc.TextPres (p.except q) ∧ mpc.PresInv (p.except q))
  ∧ (∀ (T R : Type) (p : mpc.Parser T) (f : T → R), mpc.TextPres p → mpc.PresInv p →
      mpc.TextPres (p.transform f) ∧ mpc.PresInv (p.transform f))
  ∧ (∀ (T0 T1 : Type) (p0 : mpc.Parser T0) (p1 : mpc.Parser T1),
      mpc.TextPres p0 → mpc.PresInv p0 → mpc.TextPres p1 → mpc.PresInv p1 →
      mpc.TextPres (mpc.combine2 p0 p1) ∧ mpc.PresInv (mpc.combine2 p0 p1))
  ∧ (∀ (T0 T1 T2 : Type) (p0 : mpc.Parser T0) (p1 : mpc.Parser T1) (p2 : mpc.Parser T2),
      mpc.TextPres p0 → mpc.PresInv p0 → mpc.TextPres p1 → mpc.PresInv p1 →
      mpc.TextPres p2 → mpc.PresInv p2 →
      mpc.TextPres (mpc.combine3 p0 p1 p2) ∧ mpc.PresInv (mpc.combine3 p0 p1 p2))
  ∧ (∀ (T S : Type) (p : mpc.Parser T) (sep : mpc.Parser S) (c : mpc.Combiner T S),
      mpc.TextPres p → mpc.PresInv p → mpc.TextPres sep → mpc.PresInv sep →
      mpc.TextPres (mpc.chainLeft p sep c) ∧ mpc.PresInv (mpc.chainLeft p sep c))
  ∧ (∀ (T : Type) (l : List (mpc.Parser T)),
      (∀ q ∈ l, mpc.TextPres q) → (∀ q ∈ l, mpc.PresInv q) →
      mpc.TextPres (mpc.choice l) ∧ mpc.PresInv (mpc.choice l))
  ∧ (∀ (T : Type) (d : mpc.Parser T) (choices : List (List Char × mpc.Parser T)),
      (∀ dp ∈ choices, mpc.TextPres dp.2) → (∀ dp ∈ choices, mpc.PresInv dp.2) →
      mpc.TextPres (mpc.switchOver d choices) ∧ mpc.PresInv (mpc.switchOver d choices)) :=
  ⟨mpc.inv_init,
   mpc.inv_skipAdvance,
   mpc.inv_advance,
   mpc.inv_increaseIndent,
   mpc.inv_decreaseIndent,
   mpc.inv_restore_snapshot,
   fun _ v => ⟨mpc.textpres_success v, mpc.presinv_success v⟩,
   fun _ => ⟨mpc.textpres_fail, mpc.presinv_fail⟩,
   ⟨mpc.textpres_indent, mpc.presinv_indent⟩,
   ⟨mpc.textpres_dedent, mpc.presinv_dedent⟩,
   ⟨mpc.textpres_indention, mpc.presinv_indention⟩,
   ⟨mpc.textpres_anyIndention, mpc.presinv_anyIndention⟩,
   ⟨mpc.textpres_anyChar, mpc.presinv_anyChar⟩,
   fun str => ⟨mpc.textpres_anyCharOf str, mpc.presinv_anyCharOf str⟩,
   fun _ str m => ⟨mpc.textpres_anyCharOf2 str m, mpc.presinv_anyCharOf2 str m⟩,
   fun str => ⟨mpc.textpres_anyStringOf str, mpc.presinv_anyStringOf str⟩,
   ⟨mpc.textpres_EOS, mpc.presinv_EOS⟩,
   ⟨mpc.textpres_EOL, mpc.presinv_EOL⟩,
   fun f => ⟨mpc.textpres_satisfy f, mpc.presinv_satisfy f⟩,
   fun f => ⟨mpc.textpres_satisfyMany f, mpc.presinv_satisfyMany f⟩,
   fun f => ⟨mpc.textpres_skipSatisfyMany f, mpc.presinv_skipSatisfyMany f⟩,
   fun str => ⟨mpc.textpres_skipString str, mpc.presinv_skipString str⟩,
   fun _ p tp hp => ⟨mpc.textpres_many p tp, mpc.presinv_many p hp⟩,
   fun p tp hp => ⟨mpc.textpres_manyString p tp, mpc.presinv_manyString p hp⟩,
   fun _ p tp hp => ⟨mpc.textpres_opt p tp, mpc.presinv_opt p hp⟩,
   fun _ p tp hp => ⟨mpc.textpres_noResult p tp, mpc.presinv_noResult p hp⟩,
   fun _ _ p v tp hp => ⟨mpc.textpres_result p v tp, mpc.presinv_result p v hp⟩,
   fun _ p f tp hp => ⟨mpc.textpres_test p f tp, mpc.presinv_test p f hp tp⟩,
   fun _ p i tp hp =>
     ⟨mpc.textpres_consumedAtLeast p i tp, mpc.presinv_consumedAtLeast p i hp tp⟩,
   fun _ p pb pe tp hp tb hb te he =>
     ⟨mpc.textpres_inBetween p pb pe tp tb te,
      mpc.presinv_inBetween p pb pe hp hb he tp tb te⟩,
   fun _ _ p q tp hp tq hq =>
     ⟨mpc.textpres_keepLeft p q tp tq, mpc.presinv_keepLeft p q hp hq tp tq⟩,
   fun _ _ p q tp hp tq hq =>
     ⟨mpc.textpres_keepRight p q tp tq, mpc.presinv_keepRight p q hp hq tp tq⟩,
   fun _ _ p q tp hp tq hq =>
     ⟨mpc.textpres_except p q tp tq, mpc.presinv_except p q hp hq tq⟩,
   fun _ _ p f tp hp => ⟨mpc.textpres_transform p f tp, mpc.presinv_transform p f hp⟩,
   fun _ _ p0 p1 t0 h0 t1 h1 =>
     ⟨mpc.textpres_combine2 p0 p1 t0 t1, mpc.presinv_combine2 p0 p1 h0 h1 t0 t1⟩,
   fun _ _ _ p0 p1 p2 t0 h0 t1 h1 t2 h2 =>
     ⟨mpc.textpres_combine3 p0 p1 p2 t0 t1 t2, mpc.presinv_combine3 p0 p1 p2 h0 h1 h2 t0 t1 t2⟩,
   fun _ _ p sep c tp hp ts hs =>
     ⟨mpc.textpres_chainLeft p sep c tp ts, mpc.presinv_chainLeft p sep c hp hs tp ts⟩,
   fun _ l tl hl => ⟨mpc.textpres_choice l tl, mpc.presinv_choice l hl⟩,
   fun _ d cs tl hl =>
     ⟨mpc.textpres_switchOver d cs tl, mpc.presinv_switchOver d cs hl⟩⟩

/-- Witness for C10: the invariant clauses instantiated at a concrete
state and a concrete combinator application, with hypotheses discharged
by the claim theorem's own clauses and decidable checks. -/
theorem claim_C10_witness :
    mpc.Inv (mpc.ParserState.init ("ab".toList))
    ∧ (mpc.TextPres (mpc.anyChar.keepLeft mpc.anyChar)
        ∧ mpc.PresInv (mpc.anyChar.keepLeft mpc.anyChar)) := by
  obtain ⟨hInit, -, -, -, -, -, -, -, -, -, -, -, hAnyChar, -, -, -, -, -, -, -, -, -, -, -,
    -, -, -, -, -, -, hKeepLeft, -⟩ := claim_C10_cursor_invariant_preserved
  exact ⟨hInit ("ab".toList),
    hKeepLeft Nat Nat mpc.anyChar mpc.anyChar hAnyChar.1 hAnyChar.2 hAnyChar.1 hAnyChar.2⟩

/-- C4: the expression grammar builds operator chains left-associatively
and gives multiplicative operators higher precedence than additive ones:
parsing "1 - 2 - 3" succeeds with ((1 - 2) - 3) and not (1 - (2 - 3)),
and parsing "1 + 2 * 3" succeeds with (1 + (2 * 3)). -/
theorem claim_C4_left_associativity_and_precedence :
    (exp.parseExpression ("1 - 2 - 3".toList)).value =
      some (exp.Expression.BinaryExpression exp.BinaryOperator.Subtract
        (exp.Expression.BinaryExpression exp.BinaryOperator.Subtract
          (exp.Expression.NumberLiteralExpression 1)
          (exp.Expression.NumberLiteralExpression 2))
        (exp.Expression.NumberLiteralExpression 3))
  ∧ (exp.parseExpression ("1 - 2 - 3".toList)).value ≠
      some (exp.Expression.BinaryExpression exp.BinaryOperator.Subtract
        (exp.Expression.NumberLiteralExpression 1)
        (exp.Expression.BinaryExpression exp.BinaryOperator.Subtract
          (exp.Expression.NumberLiteralExpression 2)
          (exp.Expression.NumberLiteralExpression 3)))
  ∧ (exp.parseExpression ("1 + 2 * 3".toList)).value =
      some (exp.Expression.BinaryExpression exp.BinaryOperator.Add
        (exp.Expression.NumberLiteralExpression 1)
        (exp.Expression.BinaryExpression exp.BinaryOperator.Multiply
          (exp.Expression.NumberLiteralExpression 2)
          (exp.Expression.NumberLiteralExpression 3))) := by
  refine ⟨by decide, by decide, by decide⟩

/-- C5 counterexample: both inputs do parse successfully, but the spaced
input "x + 3 * ( y + 3 * z )" yields a different tree than the compact
one — the opening parenthesis does not consume trailing whitespace, so the
sub-expression parse fails on the space before y, the term fails, and the
parse stops after "x + 3 " with the tree (x + 3). -/
theorem claim_C5_counterexample :
    (exp.parseExpression ("x+3*(y+3*z)".toList)).value.isSome = true
  ∧ (exp.parseExpression ("x + 3 * ( y + 3 * z )".toList)).value.isSome = true
  ∧ (exp.parseExpression ("x+3*(y+3*z)".toList)).value ≠
      (exp.parseExpression ("x + 3 * ( y + 3 * z )".toList)).value := by
  refine ⟨by decide, by decide, by decide⟩

/-- C5 amended: "x+3*(y+3*z)" and "x + 3 * (y + 3 * z )" — whitespace
everywhere except immediately after the opening parenthesis — parse to
structurally identical ASTs, while the fully spaced
"x + 3 * ( y + 3 * z )" succeeds with only the prefix tree (x + 3)
because "(" does not consume the whitespace that follows it. -/
theorem claim_C5_amended_whitespace_tolerance :
    (exp.parseExpression ("x+3*(y+3*z)".toList)).value.isSome = true
  ∧ (exp.parseExpression ("x+3*(y+3*z)".toList)).value =
      (exp.parseExpression ("x + 3 * (y + 3 * z )".toList)).value
  ∧ (exp.parseExpression ("x + 3 * ( y + 3 * z )".toList)).value =
      some (exp.Expression.BinaryExpression exp.BinaryOperator.Add
        (exp.Expression.IdentifierExpression ("x".toList))
        (exp.Expression.NumberLiteralExpression 3)) := by
  refine ⟨by decide, by decide, by decide⟩

/-- C6 counterexample: the input "1+" whose operator has no right operand
does not fail — chainLeft backtracks the dangling separator and succeeds
with the first term, and the top-level parse never requires end of input,
so parseExpression returns success with the tree 1. -/
theorem claim_C6_counterexample :
    (exp.parseExpression ("1+".toList)).value =
      some (exp.Expression.NumberLiteralExpression 1) := by decide

/-- C6 amended: parseExpression fails on the empty input and on the
unbalanced "(1+2", while on "1+" it succeeds with the tree 1, consuming
only the "1" and leaving the dangling "+" unconsumed. -/
theorem claim_C6_amended_rejection_cases :
    (exp.parseExpression ("".toList)).value = none
  ∧ (exp.parseExpression ("(1+2".toList)).value = none
  ∧ (exp.parseExpression ("1+".toList)).value =
      some (exp.Expression.NumberLiteralExpression 1)
  ∧ (exp.parseExpression ("1+".toList)).state.position = 1 := by
  refine ⟨by decide, by decide, by decide, by decide⟩

/-- C7 counterexample: "1" is a valid expression and a proper prefix of
"12", yet parseExpression on "12" returns the tree 12 — not the AST of
that prefix — and consumes the remaining character instead of leaving it
unconsumed. -/
theorem claim_C7_counterexample :
    (exp.parseExpression ("1".toList)).value =
      some (exp.Expression.NumberLiteralExpression 1)
  ∧ (exp.parseExpression ("12".toList)).value =
      some (exp.Expression.NumberLiteralExpression 12)
  ∧ (exp.parseExpression ("12".toList)).state.position = 2
  ∧ exp.Expression.NumberLiteralExpression 12 ≠ exp.Expression.NumberLiteralExpression 1 := by
  refine ⟨by decide, by decide, by decide, by decide⟩

/-- C7 amended: the top-level parse entry never checks that the input was
fully consumed: parseExpression can succeed with the cursor short of the
end of the input, returning the AST of the greedy prefix it consumed —
on "1+" it succeeds with the tree 1 at position 1 of 2, leaving "+"
unconsumed — so success of parseExpression does not imply the cursor
reached end of input; a longer valid prefix wins over a shorter one, as
on "12". -/
theorem claim_C7_amended_no_full_consumption :
    (exp.parseExpression ("1+".toList)).value =
      some (exp.Expression.NumberLiteralExpression 1)
  ∧ (exp.parseExpression ("1+".toList)).state.position = 1
  ∧ ("1+".toList).length = 2
  ∧ (exp.parseExpression ("12".toList)).value =
      some (exp.Expression.NumberLiteralExpression 12) := by
  refine ⟨by decide, by decide, by decide, by decide⟩

namespace mpc

theorem state_eq_of_fields (a b : ParserState) (ht : a.text = b.text)
    (hp : a.position = b.position) (hi : a.indent = b.indent) : a = b := by
  cases a; cases b; simp_all

theorem chainLeftLoop_sound {T S : Type} (p : Parser T) (sep : Parser S) (c : Combiner T S)
    (tp : TextPres p) (ts : TextPres sep) (ms : MonoPos sep) (ap : AdvancesOnSuccess p)
    (bp : BoundedPos p) (bs : BoundedPos sep) :
    ∀ (fuel : Nat) (s : ParserState) (v : T),
      s.position ≤ s.text.length → s.text.length + 1 - s.position ≤ fuel →
      ∃ sf vf, chainLeftLoop p sep c fuel s s.snapshot v = ⟨sf, some vf⟩ ∧
        ChainFrom p sep c s v sf vf := by
  intro fuel
  induction fuel with
  | zero => intro s v hb hf; omega
  | succ n ih =>
    intro s v hb hf
    simp only [chainLeftLoop]
    cases hrs : (sep s).value with
    | none =>
      refine ⟨s, v, ?_, ChainFrom.stopSep s v hrs⟩
      have heq : (sep s).state.restore s.snapshot = s :=
        state_eq_of_fields _ _ (by simpa using ts s) (by simp) (by simp)
      simp [heq, ParserState.succeed]
    | some op =>
      cases hrp : (p (sep s).state).value with
      | none =>
        refine ⟨s, v, ?_, ChainFrom.stopTerm s v op hrs hrp⟩
        have heq : (p (sep s).state).state.restore s.snapshot = s :=
          state_eq_of_fields _ _ (by simpa [ts s] using tp (sep s).state) (by simp) (by simp)
        simp [heq, ParserState.succeed]
      | some w =>
        have h1 : s.position ≤ (sep s).state.position := ms s
        have h2 : (sep s).state.position < (p (sep s).state).state.position :=
          ap (sep s).state w hrp
        have ht1 : (sep s).state.text = s.text := ts s
        have ht2 : (p (sep s).state).state.text = s.text := by
          simpa [ht1] using tp (sep s).state
        have hb1 : (sep s).state.position ≤ (sep s).state.text.length := by
          apply bs
          exact hb
        have hb2 : (p (sep s).state).state.position ≤ (p (sep s).state).state.text.length := by
          apply bp
          exact hb1
        have hf2 : (p (sep s).state).state.text.length + 1 -
            (p (sep s).state).state.position ≤ n := by
          rw [ht2]
          omega
        obtain ⟨sf, vf, heq, hcf⟩ := ih (p (sep s).state).state (c v op w) hb2 hf2
        exact ⟨sf, vf, by simpa [hrs, hrp] using heq,
          ChainFrom.step s v op w sf vf hrs hrp hcf⟩

theorem chainLeft_fails_iff {T S : Type} (p : Parser T) (sep : Parser S) (c : Combiner T S)
    (ps : ParserState) : (chainLeft p sep c ps).value = none ↔ (p ps).value = none := by
  constructor
  · intro h
    by_contra hne
    cases hr : (p ps).value with
    | none => exact hne hr
    | some v =>
      have := chainLeftLoop_value p sep c
        ((p ps).state.text.length + 1 - (p ps).state.position)
        (p ps).state (p ps).state.snapshot v
      simp only [chainLeft, hr] at h
      rw [h] at this
      simp at this
  · intro h
    simp [chainLeft, h]

theorem mono_anyChar : MonoPos anyChar := by
  intro ps
  cases hc : ps.currentCharCode <;> simp [anyChar, hc]

theorem adv_anyChar : AdvancesOnSuccess anyChar := by
  intro ps v h
  cases hc : ps.currentCharCode with
  | none => simp [anyChar, hc] at h
  | some ch => simp [anyChar, hc]

theorem bounded_anyChar : BoundedPos anyChar := by
  intro ps h
  cases hc : ps.currentCharCode with
  | none => simpa [anyChar, hc] using h
  | some ch =>
    have : ¬ ps.position ≥ ps.text.length := by
      intro hge
      simp [ParserState.currentCharCode, hge] at hc
    simp only [anyChar, hc]
    simp
    omega

end mpc

/-- C3: chainLeft parses one term, then repeatedly parses (separator,
term) pairs folding the combiner left-associatively; it stops at the first
point where the separator or the following term fails, restoring the
cursor (position and indent, on the same text) to its value at the end of
the last fully accepted term — a dangling trailing separator is not
consumed; and it fails if and only if the very first term fails.  The
iteration is captured by the ChainFrom relation, whose stop cases end in
exactly the state after the last accepted term; the well-behavedness
hypotheses (text preservation, separator monotonicity, strict advance and
position boundedness of the term parser) guarantee the loop terminates. -/
theorem claim_C3_chainLeft_folds_left :
    ∀ (T S : Type) (p : mpc.Parser T) (sep : mpc.Parser S) (c : mpc.Combiner T S)
      (ps : mpc.ParserState),
      mpc.TextPres p → mpc.TextPres sep → mpc.MonoPos sep → mpc.AdvancesOnSuccess p →
      mpc.BoundedPos p → mpc.BoundedPos sep → ps.position ≤ ps.text.length →
      ((mpc.chainLeft p sep c ps).value = none ↔ (p ps).value = none)
      ∧ (∀ v0, (p ps).value = some v0 →
          ∃ sf vf, mpc.chainLeft p sep c ps = ⟨sf, some vf⟩ ∧
            mpc.ChainFrom p sep c (p ps).state v0 sf vf) := by
  intro T S p sep c ps tp ts ms ap bp bs hps
  refine ⟨mpc.chainLeft_fails_iff p sep c ps, ?_⟩
  intro v0 hr
  have hb : (p ps).state.position ≤ (p ps).state.text.length := bp ps hps
  obtain ⟨sf, vf, heq, hcf⟩ := mpc.chainLeftLoop_sound p sep c tp ts ms ap bp bs
    ((p ps).state.text.length + 1 - (p ps).state.position) (p ps).state v0 hb (by omega)
  exact ⟨sf, vf, by simpa [mpc.chainLeft, hr] using heq, hcf⟩

/-- Witness for C3: chainLeft over anyChar terms and anyChar separators
applied to a concrete two-character state, with the well-behavedness
hypotheses discharged by the corresponding library lemmas. -/
theorem claim_C3_witness :
    ((mpc.chainLeft mpc.anyChar mpc.anyChar (fun l _ r => l + r)
        (mpc.ParserState.init ("abc".toList))).value = none ↔
      (mpc.anyChar (mpc.ParserState.init ("abc".toList))).value = none)
    ∧ (∀ v0, (mpc.anyChar (mpc.ParserState.init ("abc".toList))).value = some v0 →
        ∃ sf vf, mpc.chainLeft mpc.anyChar mpc.anyChar (fun l _ r => l + r)
            (mpc.ParserState.init ("abc".toList)) = ⟨sf, some vf⟩ ∧
          mpc.ChainFrom mpc.anyChar mpc.anyChar (fun l _ r => l + r)
            (mpc.anyChar (mpc.ParserState.init ("abc".toList))).state v0 sf vf) :=
  claim_C3_chainLeft_folds_left Nat Nat mpc.anyChar mpc.anyChar (fun l _ r => l + r)
    (mpc.ParserState.init ("abc".toList)) mpc.textpres_anyChar mpc.textpres_anyChar
    mpc.mono_anyChar mpc.adv_anyChar mpc.bounded_anyChar mpc.bounded_anyChar (by decide)

namespace mpc

theorem manyLoop_sound {T : Type} (p : Parser T)
    (tp : TextPres p) (ap : AdvancesOnSuccess p) (bp : BoundedPos p) :
    ∀ (fuel : Nat) (s : ParserState) (acc : List T),
      s.position ≤ s.text.length → s.text.length + 1 - s.position ≤ fuel →
      ∃ sf vs, manyLoop p fuel s acc = ⟨sf, some vs⟩ ∧ ManyFrom p s acc sf vs := by
  intro fuel
  induction fuel with
  | zero => intro s acc hb hf; omega
  | succ n ih =>
    intro s acc hb hf
    simp only [manyLoop]
    cases hr : (p s).value with
    | none =>
      exact ⟨(p s).state, acc, by simp [hr, ParserState.succeed], ManyFrom.stop s acc hr⟩
    | some v =>
      have h2 : s.position < (p s).state.position := ap s v hr
      have ht : (p s).state.text = s.text := tp s
      have hb2 : (p s).state.position ≤ (p s).state.text.length := bp s hb
      have hf2 : (p s).state.text.length + 1 - (p s).state.position ≤ n := by
        rw [ht]
        omega
      obtain ⟨sf, vs, heq, hmf⟩ := ih (p s).state (acc ++ [v]) hb2 hf2
      exact ⟨sf, vs, by simpa [hr] using heq, ManyFrom.step s acc v sf vs hr hmf⟩

theorem manyLoop_acc {T : Type} (p : Parser T) :
    ∀ (fuel : Nat) (s : ParserState) (acc : List T),
      manyLoop p fuel s acc =
        ⟨(manyLoop p fuel s []).state, some (acc ++ ((manyLoop p fuel s []).value.getD []))⟩ := by
  intro fuel
  induction fuel with
  | zero => intro s acc; simp [manyLoop, ParserState.succeed]
  | succ n ih =>
    intro s acc
    simp only [manyLoop]
    cases hr : (p s).value with
    | none => simp [hr, ParserState.succeed]
    | some v =>
      simp only [hr]
      rw [ih (p s).state (acc ++ [v]), ih (p s).state ([] ++ [v])]
      simp

theorem manyStringLoop_via_manyLoop (p : Parser Nat) :
    ∀ (fuel : Nat) (s : ParserState) (acc : List Char),
      manyStringLoop p fuel s acc =
        ⟨(manyLoop p fuel s []).state,
         some (acc ++ ((manyLoop p fuel s []).value.getD []).map (fun n => Char.ofNat n))⟩ := by
  intro fuel
  induction fuel with
  | zero => intro s acc; simp [manyStringLoop, manyLoop, ParserState.succeed]
  | succ n ih =>
    intro s acc
    simp only [manyStringLoop, manyLoop]
    cases hr : (p s).value with
    | none => simp [hr, ParserState.succeed]
    | some v =>
      simp only [hr]
      rw [ih (p s).state (acc ++ [Char.ofNat v]), manyLoop_acc p n (p s).state ([] ++ [v])]
      simp

end mpc

/-- C8: for every inner parser p, many p and manyString p always succeed;
under the well-behavedness hypotheses — p preserves the text, keeps the
position within it, and every successful application strictly advances
the cursor — the repetition loop terminates, returning exactly the
(possibly empty) sequence of values collected by applying p until its
first failure, as captured by the ManyFrom relation; and manyString
returns the same sequence joined into a string of the collected character
codes. -/
theorem claim_C8_many_always_succeeds_and_terminates :
    (∀ (T : Type) (p : mpc.Parser T) (ps : mpc.ParserState),
      (mpc.many p ps).value.isSome = true)
  ∧ (∀ (p : mpc.Parser Nat) (ps : mpc.ParserState),
      (mpc.manyString p ps).value.isSome = true)
  ∧ (∀ (T : Type) (p : mpc.Parser T) (ps : mpc.ParserState),
      mpc.TextPres p → mpc.AdvancesOnSuccess p → mpc.BoundedPos p →
      ps.position ≤ ps.text.length →
      ∃ sf vs, mpc.many p ps = ⟨sf, some vs⟩ ∧ mpc.ManyFrom p ps [] sf vs)
  ∧ (∀ (p : mpc.Parser Nat) (ps : mpc.ParserState),
      mpc.TextPres p → mpc.AdvancesOnSuccess p → mpc.BoundedPos p →
      ps.position ≤ ps.text.length →
      ∃ sf vs, mpc.many p ps = ⟨sf, some vs⟩ ∧ mpc.ManyFrom p ps [] sf vs ∧
        mpc.manyString p ps = ⟨sf, some (vs.map (fun n => Char.ofNat n))⟩) := by
  refine ⟨?_, ?_, ?_, ?_⟩
  · intro T p ps
    exact mpc.manyLoop_value p _ ps []
  · intro p ps
    exact mpc.manyStringLoop_value p _ ps []
  · intro T p ps tp ap bp hps
    exact mpc.manyLoop_sound p tp ap bp _ ps [] hps (by omega)
  · intro p ps tp ap bp hps
    obtain ⟨sf, vs, heq, hmf⟩ := mpc.manyLoop_sound p tp ap bp
      (ps.text.length + 1 - ps.position) ps [] hps (by omega)
    refine ⟨sf, vs, heq, hmf, ?_⟩
    show mpc.manyStringLoop p (ps.text.length + 1 - ps.position) ps [] = _
    rw [mpc.manyStringLoop_via_manyLoop p (ps.text.length + 1 - ps.position) ps []]
    have : mpc.manyLoop p (ps.text.length + 1 - ps.position) ps [] = ⟨sf, some vs⟩ := heq
    rw [this]
    simp

/-- Witness for C8: the loop clauses instantiated with anyChar over a
concrete two-character input, hypotheses discharged by the library
lemmas. -/
theorem claim_C8_witness :
    ∃ sf vs, mpc.many mpc.anyChar (mpc.ParserState.init ("ab".toList)) = ⟨sf, some vs⟩ ∧
      mpc.ManyFrom mpc.anyChar (mpc.ParserState.init ("ab".toList)) [] sf vs ∧
      mpc.manyString mpc.anyChar (mpc.ParserState.init ("ab".toList)) =
        ⟨sf, some (vs.map (fun n => Char.ofNat n))⟩ :=
  claim_C8_many_always_succeeds_and_terminates.2.2.2 mpc.anyChar
    (mpc.ParserState.init ("ab".toList)) mpc.textpres_anyChar mpc.adv_anyChar
    mpc.bounded_anyChar (by decide)

namespace mpc

theorem fail_state_eq {T : Type} (p : Parser T) (hr : RestoresOnFailure p) (ht : TextPres p)
    (ps : ParserState) (h : (p ps).value = none) : (p ps).state = ps :=
  state_eq_of_fields _ _ (ht ps) (hr ps h).1 (hr ps h).2

theorem mono_keepLeft {T R : Type} (p : Parser T) (q : Parser R)
    (mp : MonoPos p) (mq : MonoPos q) : MonoPos (p.keepLeft q) := by
  intro ps
  simp only [Parser.keepLeft]
  cases hr : (p ps).value with
  | none => simpa [hr] using mp ps
  | some v =>
    cases hro : (q (p ps).state).value with
    | none => simp [hr, hro]
    | some w => simpa [hr, hro] using (mp ps).trans (mq (p ps).state)

theorem bounded_keepLeft {T R : Type} (p : Parser T) (q : Parser R)
    (bp : BoundedPos p) (bq : BoundedPos q) (tp : TextPres p) (tq : TextPres q) :
    BoundedPos (p.keepLeft q) := by
  intro ps h
  simp only [Parser.keepLeft]
  cases hr : (p ps).value with
  | none => simpa [hr] using bp ps h
  | some v =>
    cases hro : (q (p ps).state).value with
    | none =>
      simp only [hr, hro]
      simp only [fail_state, restore_position, snapshot_position, restore_text]
      rw [(tq (p ps).state).trans (tp ps)]
      exact h
    | some w => simpa [hr, hro] using bq (p ps).state (bp ps h)

theorem mono_transform {T R : Type} (p : Parser T) (f : T → R) (mp : MonoPos p) :
    MonoPos (p.transform f) := by
  intro ps
  simp only [Parser.transform]
  cases hr : (p ps).value <;> simpa [hr] using mp ps

theorem bounded_transform {T R : Type} (p : Parser T) (f : T → R) (bp : BoundedPos p) :
    BoundedPos (p.transform f) := by
  intro ps h
  simp only [Parser.transform]
  cases hr : (p ps).value <;> simpa [hr] using bp ps h

theorem mono_consumedAtLeast {T : Type} (p : Parser T) (i : Nat) (mp : MonoPos p) :
    MonoPos (p.consumedAtLeast i) := by
  intro ps
  simp only [Parser.consumedAtLeast]
  cases hr : (p ps).value with
  | none => simpa [hr] using mp ps
  | some v =>
    by_cases hc : (p ps).state.position < ps.position + i
    · simp [hr, hc]
    · simpa [hr, hc] using mp ps

theorem bounded_consumedAtLeast {T : Type} (p : Parser T) (i : Nat)
    (bp : BoundedPos p) (tp : TextPres p) : BoundedPos (p.consumedAtLeast i) := by
  intro ps h
  simp only [Parser.consumedAtLeast]
  cases hr : (p ps).value with
  | none => simpa [hr] using bp ps h
  | some v =>
    by_cases hc : (p ps).state.position < ps.position + i
    · simp only [hr, snapshot_position]
      rw [if_pos hc]
      simp only [fail_state, restore_position, snapshot_position, restore_text]
      rw [tp ps]
      exact h
    · simp only [hr, snapshot_position]
      rw [if_neg hc]
      simpa using bp ps h

theorem mono_result {T R : Type} (p : Parser T) (v : R) (mp : MonoPos p) :
    MonoPos (p.result v) := by
  intro ps
  simp only [Parser.result]
  cases hr : (p ps).value <;> simpa [hr] using mp ps

theorem bounded_result {T R : Type} (p : Parser T) (v : R) (bp : BoundedPos p) :
    BoundedPos (p.result v) := by
  intro ps h
  simp only [Parser.result]
  cases hr : (p ps).value <;> simpa [hr] using bp ps h

theorem mono_choiceGo {T : Type} (l : List (Parser T)) (hl : ∀ q ∈ l, MonoPos q) :
    ∀ ps, ps.position ≤ (choiceGo l ps).state.position := by
  induction l with
  | nil => intro ps; simp [choiceGo]
  | cons q rest ih =>
    intro ps
    simp only [choiceGo]
    cases hr : (q ps).value with
    | some v => simpa [hr] using hl q (by simp) ps
    | none =>
      simp only [hr]
      exact (hl q (by simp) ps).trans (ih (fun r h2 => hl r (by simp [h2])) (q ps).state)

theorem mono_choice {T : Type} (l : List (Parser T)) (hl : ∀ q ∈ l, MonoPos q) :
    MonoPos (choice l) := fun ps => mono_choiceGo l hl ps

theorem bounded_choiceGo {T : Type} (l : List (Parser T)) (hl : ∀ q ∈ l, BoundedPos q) :
    ∀ ps, ps.position ≤ ps.text.length →
      (choiceGo l ps).state.position ≤ (choiceGo l ps).state.text.length := by
  induction l with
  | nil => intro ps h; simpa [choiceGo] using h
  | cons q rest ih =>
    intro ps h
    simp only [choiceGo]
    cases hr : (q ps).value with
    | some v => simpa [hr] using hl q (by simp) ps h
    | none =>
      simp only [hr]
      exact ih (fun r h2 => hl r (by simp [h2])) (q ps).state (hl q (by simp) ps h)

theorem bounded_choice {T : Type} (l : List (Parser T)) (hl : ∀ q ∈ l, BoundedPos q) :
    BoundedPos (choice l) := fun ps h => bounded_choiceGo l hl ps h

theorem mono_inBetween {T : Type} (p : Parser T) (pb pe : Parser Unit)
    (mp : MonoPos p) (mb : MonoPos pb) (me : MonoPos pe) : MonoPos (p.inBetween pb pe) := by
  intro ps
  simp only [Parser.inBetween]
  cases hrb : (pb ps).value with
  | none => simpa [hrb] using mb ps
  | some u =>
    cases hr : (p (pb ps).state).value with
    | none => simp [hrb, hr]
    | some v =>
      cases hre : (pe (p (pb ps).state).state).value with
      | none => simp [hrb, hr, hre]
      | some w =>
        simpa [hrb, hr, hre] using
          ((mb ps).trans (mp (pb ps).state)).trans (me (p (pb ps).state).state)

theorem bounded_inBetween {T : Type} (p : Parser T) (pb pe : Parser Unit)
    (bp : BoundedPos p) (bb : BoundedPos pb) (be : BoundedPos pe)
    (tp : TextPres p) (tb : TextPres pb) (te : TextPres pe) :
    BoundedPos (p.inBetween pb pe) := by
  intro ps h
  simp only [Parser.inBetween]
  cases hrb : (pb ps).value with
  | none => simpa [hrb] using bb ps h
  | some u =>
    have h1 := bb ps h
    cases hr : (p (pb ps).state).value with
    | none =>
      simp only [hrb, hr]
      simp only [fail_state, restore_position, snapshot_position, restore_text]
      rw [(tp (pb ps).state).trans (tb ps)]
      exact h
    | some v =>
      have h2 := bp (pb ps).state h1
      cases hre : (pe (p (pb ps).state).state).value with
      | none =>
        simp only [hrb, hr, hre]
        simp only [fail_state, restore_position, snapshot_position, restore_text]
        rw [(te (p (pb ps).state).state).trans ((tp (pb ps).state).trans (tb ps))]
        exact h
      | some w => simpa [hrb, hr, hre] using be (p (pb ps).state).state h2

theorem mono_chainLeftLoop {T S : Type} (p : Parser T) (sep : Parser S) (c : Combiner T S)
    (mp : MonoPos p) (ms : MonoPos sep) :
    ∀ (fuel : Nat) (ps : ParserState) (snap : Snapshot) (v : T) (q : Nat),
      q ≤ snap.position → q ≤ ps.position →
      q ≤ (chainLeftLoop p sep c fuel ps snap v).state.position := by
  intro fuel
  induction fuel with
  | zero => intro ps snap v q h1 h2; simpa [chainLeftLoop] using h1
  | succ n ih =>
    intro ps snap v q h1 h2
    simp only [chainLeftLoop]
    cases hrs : (sep ps).value with
    | none => simpa [hrs] using h1
    | some op =>
      cases hrp : (p (sep ps).state).value with
      | none => simpa [hrs, hrp] using h1
      | some w =>
        simp only [hrs, hrp]
        have h3 : q ≤ (p (sep ps).state).state.position :=
          (h2.trans (ms ps)).trans (mp (sep ps).state)
        exact ih (p (sep ps).state).state (p (sep ps).state).state.snapshot (c v op w) q
          (by simpa using h3) h3

theorem mono_chainLeft {T S : Type} (p : Parser T) (sep : Parser S) (c : Combiner T S)
    (mp : MonoPos p) (ms : MonoPos sep) : MonoPos (chainLeft p sep c) := by
  intro ps
  simp only [chainLeft]
  cases hr : (p ps).value with
  | none => simpa [hr] using mp ps
  | some v =>
    simp only [hr]
    exact mono_chainLeftLoop p sep c mp ms _ (p ps).state (p ps).state.snapshot v ps.position
      (by simpa using mp ps) (mp ps)

theorem bounded_chainLeftLoop {T S : Type} (p : Parser T) (sep : Parser S) (c : Combiner T S)
    (bp : BoundedPos p) (bs : BoundedPos sep) (tp : TextPres p) (ts : TextPres sep) :
    ∀ (fuel : Nat) (ps : ParserState) (snap : Snapshot) (v : T),
      ps.position ≤ ps.text.length → snap.position ≤ ps.text.length →
      (chainLeftLoop p sep c fuel ps snap v).state.position ≤
        (chainLeftLoop p sep c fuel ps snap v).state.text.length := by
  intro fuel
  induction fuel with
  | zero => intro ps snap v h1 h2; simpa [chainLeftLoop] using h2
  | succ n ih =>
    intro ps snap v h1 h2
    simp only [chainLeftLoop]
    cases hrs : (sep ps).value with
    | none =>
      simp only [hrs]
      simp only [succeed_state, restore_position, restore_text]
      rw [ts ps]
      exact h2
    | some op =>
      cases hrp : (p (sep ps).state).value with
      | none =>
        simp only [hrs, hrp]
        simp only [succeed_state, restore_position, restore_text]
        rw [(tp (sep ps).state).trans (ts ps)]
        exact h2
      | some w =>
        simp only [hrs, hrp]
        have hb1 := bs ps h1
        have hb2 := bp (sep ps).state hb1
        exact ih (p (sep ps).state).state (p (sep ps).state).state.snapshot (c v op w)
          hb2 (by simpa using hb2)

theorem bounded_chainLeft {T S : Type} (p : Parser T) (sep : Parser S) (c : Combiner T S)
    (bp : BoundedPos p) (bs : BoundedPos sep) (tp : TextPres p) (ts : TextPres sep) :
    BoundedPos (chainLeft p sep c) := by
  intro ps h
  simp only [chainLeft]
  cases hr : (p ps).value with
  | none => simpa [hr] using bp ps h
  | some v =>
    simp only [hr]
    have h1 := bp ps h
    exact bounded_chainLeftLoop p sep c bp bs tp ts _ (p ps).state (p ps).state.snapshot v
      h1 (by simpa using h1)

theorem mono_satisfyMany (f : Satisfy) : MonoPos (satisfyMany f) := by
  intro ps; simp [satisfyMany, ParserState.advance]

theorem bounded_satisfyMany (f : Satisfy) : BoundedPos (satisfyMany f) := by
  intro ps h
  simpa [satisfyMany, ParserState.advance] using pos_add_advanceCount_le f ps h

theorem mono_anyStringOf (str : List Char) : MonoPos (anyStringOf str) := by
  intro ps; simp [anyStringOf, ParserState.advance]

theorem bounded_anyStringOf (str : List Char) : BoundedPos (anyStringOf str) := by
  intro ps h
  simpa [anyStringOf, ParserState.advance] using pos_add_advanceCount_le _ ps h

theorem mono_skipSatisfyMany (f : Satisfy) : MonoPos (skipSatisfyMany f) := by
  intro ps; simp [skipSatisfyMany, ParserState.skipAdvance]

theorem bounded_skipSatisfyMany (f : Satisfy) : BoundedPos (skipSatisfyMany f) := by
  intro ps h
  simpa [skipSatisfyMany, ParserState.skipAdvance] using pos_add_advanceCount_le f ps h

theorem mono_skipString (str : List Char) : MonoPos (skipString str) := by
  intro ps
  simp only [skipString, ParserState.skipAdvance]
  split_ifs <;> simp

theorem bounded_skipString (str : List Char) : BoundedPos (skipString str) := by
  intro ps h
  simp only [skipString, ParserState.skipAdvance]
  split_ifs with h1
  · simpa using pos_add_advanceCount_le _ ps h
  · simpa using h

theorem mono_anyCharOf2 {T : Type} (str : List Char) (mapTo : List T) :
    MonoPos (anyCharOf2 str mapTo) := by
  intro ps
  cases hc : ps.currentCharCode with
  | none => simp [anyCharOf2, hc]
  | some ch =>
    cases hi : indexOfCode (str.map Char.toNat) ch with
    | none => simp [anyCharOf2, hc, hi]
    | some i =>
      cases hm : mapTo[i]? <;> simp [anyCharOf2, hc, hi, hm, List.get?_eq_getElem?]

theorem bounded_anyCharOf2 {T : Type} (str : List Char) (mapTo : List T) :
    BoundedPos (anyCharOf2 str mapTo) := by
  intro ps h
  cases hc : ps.currentCharCode with
  | none => simpa [anyCharOf2, hc] using h
  | some ch =>
    have hlt : ¬ ps.position ≥ ps.text.length := by
      intro hge
      simp [ParserState.currentCharCode, hge] at hc
    cases hi : indexOfCode (str.map Char.toNat) ch with
    | none => simpa [anyCharOf2, hc, hi] using h
    | some i =>
      cases hm : mapTo[i]? with
      | none => simpa [anyCharOf2, hc, hi, hm, List.get?_eq_getElem?] using h
      | some v =>
        simp only [anyCharOf2, hc, hi, List.get?_eq_getElem?, hm]
        simp
        omega

end mpc

namespace exp

theorem textpres_p_whitespaces : mpc.TextPres p_whitespaces :=
  mpc.textpres_skipSatisfyMany mpc.satisyWhitespace

theorem mono_p_whitespaces : mpc.MonoPos p_whitespaces :=
  mpc.mono_skipSatisfyMany mpc.satisyWhitespace

theorem bounded_p_whitespaces : mpc.BoundedPos p_whitespaces :=
  mpc.bounded_skipSatisfyMany mpc.satisyWhitespace

theorem textpres_p_addLikeOperator : mpc.TextPres p_addLikeOperator :=
  mpc.textpres_keepLeft _ _ (mpc.textpres_anyCharOf2 _ _) textpres_p_whitespaces

theorem mono_p_addLikeOperator : mpc.MonoPos p_addLikeOperator :=
  mpc.mono_keepLeft _ _ (mpc.mono_anyCharOf2 _ _) mono_p_whitespaces

theorem bounded_p_addLikeOperator : mpc.BoundedPos p_addLikeOperator :=
  mpc.bounded_keepLeft _ _ (mpc.bounded_anyCharOf2 _ _) bounded_p_whitespaces
    (mpc.textpres_anyCharOf2 _ _) textpres_p_whitespaces

theorem textpres_p_multiplyLikeOperator : mpc.TextPres p_multiplyLikeOperator :=
  mpc.textpres_keepLeft _ _ (mpc.textpres_anyCharOf2 _ _) textpres_p_whitespaces

theorem mono_p_multiplyLikeOperator : mpc.MonoPos p_multiplyLikeOperator :=
  mpc.mono_keepLeft _ _ (mpc.mono_anyCharOf2 _ _) mono_p_whitespaces

theorem bounded_p_multiplyLikeOperator : mpc.BoundedPos p_multiplyLikeOperator :=
  mpc.bounded_keepLeft _ _ (mpc.bounded_anyCharOf2 _ _) bounded_p_whitespaces
    (mpc.textpres_anyCharOf2 _ _) textpres_p_whitespaces

theorem textpres_cmp_choice :
    mpc.TextPres (mpc.choice
      [(mpc.skipString ("=".toList)).result BinaryOperator.EqualTo,
       (mpc.skipString ("<>".toList)).result BinaryOperator.NotEqualTo]) := by
  apply mpc.textpres_choice
  intro q hq
  simp at hq
  rcases hq with h | h <;> subst h <;>
    exact mpc.textpres_result _ _ (mpc.textpres_skipString _)

theorem mono_cmp_choice :
    mpc.MonoPos (mpc.choice
      [(mpc.skipString ("=".toList)).result BinaryOperator.EqualTo,
       (mpc.skipString ("<>".toList)).result BinaryOperator.NotEqualTo]) := by
  apply mpc.mono_choice
  intro q hq
  simp at hq
  rcases hq with h | h <;> subst h <;>
    exact mpc.mono_result _ _ (mpc.mono_skipString _)

theorem bounded_cmp_choice :
    mpc.BoundedPos (mpc.choice
      [(mpc.skipString ("=".toList)).result BinaryOperator.EqualTo,
       (mpc.skipString ("<>".toList)).result BinaryOperator.NotEqualTo]) := by
  apply mpc.bounded_choice
  intro q hq
  simp at hq
  rcases hq with h | h <;> subst h <;>
    exact mpc.bounded_result _ _ (mpc.bounded_skipString _)

theorem textpres_p_comparisonOperator : mpc.TextPres p_comparisonOperator :=
  mpc.textpres_keepLeft _ _ textpres_cmp_choice textpres_p_whitespaces

theorem mono_p_comparisonOperator : mpc.MonoPos p_comparisonOperator :=
  mpc.mono_keepLeft _ _ mono_cmp_choice mono_p_whitespaces

theorem bounded_p_comparisonOperator : mpc.BoundedPos p_comparisonOperator :=
  mpc.bounded_keepLeft _ _ bounded_cmp_choice bounded_p_whitespaces
    textpres_cmp_choice textpres_p_whitespaces

theorem textpres_p_number : mpc.TextPres p_number :=
  mpc.textpres_transform _ _
    (mpc.textpres_keepLeft _ _
      (mpc.textpres_consumedAtLeast _ _ (mpc.textpres_anyStringOf _)) textpres_p_whitespaces)

theorem mono_p_number : mpc.MonoPos p_number :=
  mpc.mono_transform _ _
    (mpc.mono_keepLeft _ _
      (mpc.mono_consumedAtLeast _ _ (mpc.mono_anyStringOf _)) mono_p_whitespaces)

theorem bounded_p_number : mpc.BoundedPos p_number :=
  mpc.bounded_transform _ _
    (mpc.bounded_keepLeft _ _
      (mpc.bounded_consumedAtLeast _ _ (mpc.bounded_anyStringOf _) (mpc.textpres_anyStringOf _))
      bounded_p_whitespaces
      (mpc.textpres_consumedAtLeast _ _ (mpc.textpres_anyStringOf _)) textpres_p_whitespaces)

theorem textpres_p_identifer : mpc.TextPres p_identifer :=
  mpc.textpres_transform _ _
    (mpc.textpres_keepLeft _ _
      (mpc.textpres_consumedAtLeast _ _ (mpc.textpres_satisfyMany _)) textpres_p_whitespaces)

theorem mono_p_identifer : mpc.MonoPos p_identifer :=
  mpc.mono_transform _ _
    (mpc.mono_keepLeft _ _
      (mpc.mono_consumedAtLeast _ _ (mpc.mono_satisfyMany _)) mono_p_whitespaces)

theorem bounded_p_identifer : mpc.BoundedPos p_identifer :=
  mpc.bounded_transform _ _
    (mpc.bounded_keepLeft _ _
      (mpc.bounded_consumedAtLeast _ _ (mpc.bounded_satisfyMany _) (mpc.textpres_satisfyMany _))
      bounded_p_whitespaces
      (mpc.textpres_consumedAtLeast _ _ (mpc.textpres_satisfyMany _)) textpres_p_whitespaces)

theorem textpres_p_subExpressionOf (pe : mpc.Parser Expression) (tpe : mpc.TextPres pe) :
    mpc.TextPres (p_subExpressionOf pe) :=
  mpc.textpres_keepLeft _ _
    (mpc.textpres_inBetween _ _ _ tpe (mpc.textpres_skipString _) (mpc.textpres_skipString _))
    textpres_p_whitespaces

theorem mono_p_subExpressionOf (pe : mpc.Parser Expression) (mpe : mpc.MonoPos pe) :
    mpc.MonoPos (p_subExpressionOf pe) :=
  mpc.mono_keepLeft _ _
    (mpc.mono_inBetween _ _ _ mpe (mpc.mono_skipString _) (mpc.mono_skipString _))
    mono_p_whitespaces

theorem bounded_p_subExpressionOf (pe : mpc.Parser Expression)
    (bpe : mpc.BoundedPos pe) (tpe : mpc.TextPres pe) :
    mpc.BoundedPos (p_subExpressionOf pe) :=
  mpc.bounded_keepLeft _ _
    (mpc.bounded_inBetween _ _ _ bpe (mpc.bounded_skipString _) (mpc.bounded_skipString _)
      tpe (mpc.textpres_skipString _) (mpc.textpres_skipString _))
    bounded_p_whitespaces
    (mpc.textpres_inBetween _ _ _ tpe (mpc.textpres_skipString _) (mpc.textpres_skipString _))
    textpres_p_whitespaces

theorem textpres_p_termOf (pe : mpc.Parser Expression) (tpe : mpc.TextPres pe) :
    mpc.TextPres (p_termOf pe) := by
  apply mpc.textpres_choice
  intro q hq
  simp [p_termOf] at hq
  rcases hq with h | h | h <;> subst h
  · exact textpres_p_number
  · exact textpres_p_identifer
  · exact textpres_p_subExpressionOf pe tpe

theorem mono_p_termOf (pe : mpc.Parser Expression) (mpe : mpc.MonoPos pe) :
    mpc.MonoPos (p_termOf pe) := by
  apply mpc.mono_choice
  intro q hq
  simp [p_termOf] at hq
  rcases hq with h | h | h <;> subst h
  · exact mono_p_number
  · exact mono_p_identifer
  · exact mono_p_subExpressionOf pe mpe

theorem bounded_p_termOf (pe : mpc.Parser Expression)
    (bpe : mpc.BoundedPos pe) (tpe : mpc.TextPres pe) :
    mpc.BoundedPos (p_termOf pe) := by
  apply mpc.bounded_choice
  intro q hq
  simp [p_termOf] at hq
  rcases hq with h | h | h <;> subst h
  · exact bounded_p_number
  · exact bounded_p_identifer
  · exact bounded_p_subExpressionOf pe bpe tpe

theorem textpres_p_l1Of (pe : mpc.Parser Expression) (tpe : mpc.TextPres pe) :
    mpc.TextPres (p_l1Of pe) :=
  mpc.textpres_chainLeft _ _ _ (textpres_p_termOf pe tpe) textpres_p_multiplyLikeOperator

theorem mono_p_l1Of (pe : mpc.Parser Expression) (mpe : mpc.MonoPos pe) :
    mpc.MonoPos (p_l1Of pe) :=
  mpc.mono_chainLeft _ _ _ (mono_p_termOf pe mpe) mono_p_multiplyLikeOperator

theorem bounded_p_l1Of (pe : mpc.Parser Expression)
    (bpe : mpc.BoundedPos pe) (tpe : mpc.TextPres pe) :
    mpc.BoundedPos (p_l1Of pe) :=
  mpc.bounded_chainLeft _ _ _ (bounded_p_termOf pe bpe tpe) bounded_p_multiplyLikeOperator
    (textpres_p_termOf pe tpe) textpres_p_multiplyLikeOperator

theorem textpres_p_l2Of (pe : mpc.Parser Expression) (tpe : mpc.TextPres pe) :
    mpc.TextPres (p_l2Of pe) :=
  mpc.textpres_chainLeft _ _ _ (textpres_p_l1Of pe tpe) textpres_p_addLikeOperator

theorem mono_p_l2Of (pe : mpc.Parser Expression) (mpe : mpc.MonoPos pe) :
    mpc.MonoPos (p_l2Of pe) :=
  mpc.mono_chainLeft _ _ _ (mono_p_l1Of pe mpe) mono_p_addLikeOperator

theorem bounded_p_l2Of (pe : mpc.Parser Expression)
    (bpe : mpc.BoundedPos pe) (tpe : mpc.TextPres pe) :
    mpc.BoundedPos (p_l2Of pe) :=
  mpc.bounded_chainLeft _ _ _ (bounded_p_l1Of pe bpe tpe) bounded_p_addLikeOperator
    (textpres_p_l1Of pe tpe) textpres_p_addLikeOperator

theorem textpres_p_l3Of (pe : mpc.Parser Expression) (tpe : mpc.TextPres pe) :
    mpc.TextPres (p_l3Of pe) :=
  mpc.textpres_chainLeft _ _ _ (textpres_p_l2Of pe tpe) textpres_p_comparisonOperator

theorem mono_p_l3Of (pe : mpc.Parser Expression) (mpe : mpc.MonoPos pe) :
    mpc.MonoPos (p_l3Of pe) :=
  mpc.mono_chainLeft _ _ _ (mono_p_l2Of pe mpe) mono_p_comparisonOperator

theorem bounded_p_l3Of (pe : mpc.Parser Expression)
    (bpe : mpc.BoundedPos pe) (tpe : mpc.TextPres pe) :
    mpc.BoundedPos (p_l3Of pe) :=
  mpc.bounded_chainLeft _ _ _ (bounded_p_l2Of pe bpe tpe) bounded_p_comparisonOperator
    (textpres_p_l2Of pe tpe) textpres_p_comparisonOperator

theorem textpres_p_expression : ∀ n, mpc.TextPres (p_expression n) := by
  intro n
  induction n with
  | zero => intro ps; simp [p_expression]
  | succ k ih => exact textpres_p_l3Of (p_expression k) ih

theorem mono_p_expression : ∀ n, mpc.MonoPos (p_expression n) := by
  intro n
  induction n with
  | zero => intro ps; simp [p_expression]
  | succ k ih => exact mono_p_l3Of (p_expression k) ih

theorem bounded_p_expression : ∀ n, mpc.BoundedPos (p_expression n) := by
  intro n
  induction n with
  | zero => intro ps h; simpa [p_expression] using h
  | succ k ih => exact bounded_p_l3Of (p_expression k) ih (textpres_p_expression k)

end exp

namespace mpc

theorem skipString_success_state (str : List Char) (ps : ParserState)
    (h : (skipString str ps).value.isSome = true) :
    (skipString str ps).state = { ps with position := ps.position + str.length } := by
  simp only [skipString, ParserState.skipAdvance, List.getD_eq_getElem?_getD] at h ⊢
  split_ifs at h ⊢ with h1
  · simp [h1]
  · simp at h

theorem chainLeftLoop_cong {T S : Type} (p₁ p₂ : Parser T) (sep : Parser S) (c : Combiner T S)
    (t : List Char) (q : Nat)
    (hagree : ∀ s, s.text = t → q ≤ s.position → s.position ≤ t.length → p₁ s = p₂ s)
    (ts : TextPres sep) (ms : MonoPos sep) (bs : BoundedPos sep)
    (t1 : TextPres p₁) (m1 : MonoPos p₁) (b1 : BoundedPos p₁) :
    ∀ (fuel : Nat) (ps : ParserState) (snap : Snapshot) (v : T),
      ps.text = t → q ≤ ps.position → ps.position ≤ t.length →
      chainLeftLoop p₁ sep c fuel ps snap v = chainLeftLoop p₂ sep c fuel ps snap v := by
  intro fuel
  induction fuel with
  | zero => intro ps snap v _ _ _; rfl
  | succ n ih =>
    intro ps snap v ht hq hb
    simp only [chainLeftLoop]
    cases hrs : (sep ps).value with
    | none => rfl
    | some op =>
      have ht1 : (sep ps).state.text = t := by rw [ts ps, ht]
      have hq1 : q ≤ (sep ps).state.position := hq.trans (ms ps)
      have hb1 : (sep ps).state.position ≤ t.length := by
        have := bs ps (by rw [ht]; exact hb)
        rwa [ts ps, ht] at this
      have hp := hagree (sep ps).state ht1 hq1 hb1
      rw [← hp]
      cases hrp : (p₁ (sep ps).state).value with
      | none => rfl
      | some w =>
        have ht2 : (p₁ (sep ps).state).state.text = t := by rw [t1 (sep ps).state, ht1]
        have hq2 : q ≤ (p₁ (sep ps).state).state.position := hq1.trans (m1 (sep ps).state)
        have hb2 : (p₁ (sep ps).state).state.position ≤ t.length := by
          have := b1 (sep ps).state (by rw [ht1]; exact hb1)
          rwa [t1 (sep ps).state, ht1] at this
        exact ih (p₁ (sep ps).state).state (p₁ (sep ps).state).state.snapshot (c v op w)
          ht2 hq2 hb2

theorem chainLeft_cong {T S : Type} (p₁ p₂ : Parser T) (sep : Parser S) (c : Combiner T S)
    (t : List Char) (q : Nat)
    (hagree : ∀ s, s.text = t → q ≤ s.position → s.position ≤ t.length → p₁ s = p₂ s)
    (ts : TextPres sep) (ms : MonoPos sep) (bs : BoundedPos sep)
    (t1 : TextPres p₁) (m1 : MonoPos p₁) (b1 : BoundedPos p₁) :
    ∀ ps, ps.text = t → q ≤ ps.position → ps.position ≤ t.length →
      chainLeft p₁ sep c ps = chainLeft p₂ sep c ps := by
  intro ps ht hq hb
  have h0 := hagree ps ht hq hb
  simp only [chainLeft, ← h0]
  cases hr : (p₁ ps).value with
  | none => rfl
  | some v =>
    simp only [hr]
    have ht1 : (p₁ ps).state.text = t := by rw [t1 ps, ht]
    have hq1 : q ≤ (p₁ ps).state.position := hq.trans (m1 ps)
    have hb1 : (p₁ ps).state.position ≤ t.length := by
      have := b1 ps (by rw [ht]; exact hb)
      rwa [t1 ps, ht] at this
    exact chainLeftLoop_cong p₁ p₂ sep c t q hagree ts ms bs t1 m1 b1 _
      (p₁ ps).state (p₁ ps).state.snapshot v ht1 hq1 hb1

end mpc

namespace exp

theorem restores_p_number : mpc.RestoresOnFailure p_number :=
  mpc.restores_transform _ _
    (mpc.restores_keepLeft _ _
      (mpc.restores_consumedAtLeast _ _ (mpc.restores_anyStringOf _)))

theorem restores_p_identifer : mpc.RestoresOnFailure p_identifer :=
  mpc.restores_transform _ _
    (mpc.restores_keepLeft _ _
      (mpc.restores_consumedAtLeast _ _ (mpc.restores_satisfyMany _)))

theorem subExpr_cong (pe₁ pe₂ : mpc.Parser Expression) (t : List Char) (q : Nat)
    (hagree : ∀ s, s.text = t → q < s.position → s.position ≤ t.length → pe₁ s = pe₂ s) :
    ∀ s, s.text = t → q ≤ s.position → s.position ≤ t.length →
      p_subExpressionOf pe₁ s = p_subExpressionOf pe₂ s := by
  intro s ht hq hb
  simp only [p_subExpressionOf, mpc.Parser.keepLeft, mpc.Parser.inBetween]
  cases hrb : (mpc.skipString ("(".toList) s).value with
  | none => simp [hrb]
  | some u =>
    have hstate : (mpc.skipString ("(".toList) s).state =
        { s with position := s.position + 1 } := by
      simpa using mpc.skipString_success_state ("(".toList) s (by rw [hrb]; rfl)
    have hpe := hagree (mpc.skipString ("(".toList) s).state
      (by rw [hstate]; exact ht)
      (by rw [hstate]; simp; omega)
      (by
        have := mpc.bounded_skipString ("(".toList) s (by rw [ht]; exact hb)
        rwa [mpc.textpres_skipString ("(".toList) s, ht] at this)
    simp only [hrb, hpe]

theorem term_cong (pe₁ pe₂ : mpc.Parser Expression) (t : List Char) (q : Nat)
    (hagree : ∀ s, s.text = t → q < s.position → s.position ≤ t.length → pe₁ s = pe₂ s) :
    ∀ s, s.text = t → q ≤ s.position → s.position ≤ t.length →
      p_termOf pe₁ s = p_termOf pe₂ s := by
  intro s ht hq hb
  simp only [p_termOf, mpc.choice, mpc.choiceGo]
  cases hn : (p_number s).value with
  | some v => simp [hn]
  | none =>
    have hs : (p_number s).state = s :=
      mpc.fail_state_eq _ restores_p_number textpres_p_number s hn
    simp only [hn, hs]
    cases hi : (p_identifer s).value with
    | some v => simp [hi]
    | none =>
      have hs2 : (p_identifer s).state = s :=
        mpc.fail_state_eq _ restores_p_identifer textpres_p_identifer s hi
      simp only [hi, hs2]
      rw [subExpr_cong pe₁ pe₂ t q hagree s ht hq hb]

theorem l1_cong (pe₁ pe₂ : mpc.Parser Expression) (t : List Char) (q : Nat)
    (hagree : ∀ s, s.text = t → q < s.position → s.position ≤ t.length → pe₁ s = pe₂ s)
    (tpe : mpc.TextPres pe₁) (mpe : mpc.MonoPos pe₁) (bpe : mpc.BoundedPos pe₁) :
    ∀ s, s.text = t → q ≤ s.position → s.position ≤ t.length →
      p_l1Of pe₁ s = p_l1Of pe₂ s := by
  intro s ht hq hb
  exact mpc.chainLeft_cong (p_termOf pe₁) (p_termOf pe₂) _ _ t q
    (term_cong pe₁ pe₂ t q hagree)
    textpres_p_multiplyLikeOperator mono_p_multiplyLikeOperator bounded_p_multiplyLikeOperator
    (textpres_p_termOf pe₁ tpe) (mono_p_termOf pe₁ mpe) (bounded_p_termOf pe₁ bpe tpe)
    s ht hq hb

theorem l2_cong (pe₁ pe₂ : mpc.Parser Expression) (t : List Char) (q : Nat)
    (hagree : ∀ s, s.text = t → q < s.position → s.position ≤ t.length → pe₁ s = pe₂ s)
    (tpe : mpc.TextPres pe₁) (mpe : mpc.MonoPos pe₁) (bpe : mpc.BoundedPos pe₁) :
    ∀ s, s.text = t → q ≤ s.position → s.position ≤ t.length →
      p_l2Of pe₁ s = p_l2Of pe₂ s := by
  intro s ht hq hb
  exact mpc.chainLeft_cong (p_l1Of pe₁) (p_l1Of pe₂) _ _ t q
    (l1_cong pe₁ pe₂ t q hagree tpe mpe bpe)
    textpres_p_addLikeOperator mono_p_addLikeOperator bounded_p_addLikeOperator
    (textpres_p_l1Of pe₁ tpe) (mono_p_l1Of pe₁ mpe) (bounded_p_l1Of pe₁ bpe tpe)
    s ht hq hb

theorem l3_cong (pe₁ pe₂ : mpc.Parser Expression) (t : List Char) (q : Nat)
    (hagree : ∀ s, s.text = t → q < s.position → s.position ≤ t.length → pe₁ s = pe₂ s)
    (tpe : mpc.TextPres pe₁) (mpe : mpc.MonoPos pe₁) (bpe : mpc.BoundedPos pe₁) :
    ∀ s, s.text = t → q ≤ s.position → s.position ≤ t.length →
      p_l3Of pe₁ s = p_l3Of pe₂ s := by
  intro s ht hq hb
  exact mpc.chainLeft_cong (p_l2Of pe₁) (p_l2Of pe₂) _ _ t q
    (l2_cong pe₁ pe₂ t q hagree tpe mpe bpe)
    textpres_p_comparisonOperator mono_p_comparisonOperator bounded_p_comparisonOperator
    (textpres_p_l2Of pe₁ tpe) (mono_p_l2Of pe₁ mpe) (bounded_p_l2Of pe₁ bpe tpe)
    s ht hq hb

theorem p_expression_fuel_irrel :
    ∀ (d : Nat) (s : mpc.ParserState) (n m : Nat),
      s.text.length - s.position ≤ d → s.position ≤ s.text.length →
      s.text.length + 1 - s.position ≤ n → s.text.length + 1 - s.position ≤ m →
      p_expression n s = p_expression m s := by
  intro d
  induction d with
  | zero =>
    intro s n m hd hb hn hm
    obtain ⟨n', rfl⟩ : ∃ n', n = n' + 1 := ⟨n - 1, by omega⟩
    obtain ⟨m', rfl⟩ : ∃ m', m = m' + 1 := ⟨m - 1, by omega⟩
    show p_l3Of (p_expression n') s = p_l3Of (p_expression m') s
    apply l3_cong (p_expression n') (p_expression m') s.text s.position
      (fun s' ht' hq' hb' => absurd (lt_of_lt_of_le hq' hb') (by omega))
      (textpres_p_expression n') (mono_p_expression n') (bounded_p_expression n')
      s rfl le_rfl hb
  | succ k ih =>
    intro s n m hd hb hn hm
    obtain ⟨n', rfl⟩ : ∃ n', n = n' + 1 := ⟨n - 1, by omega⟩
    obtain ⟨m', rfl⟩ : ∃ m', m = m' + 1 := ⟨m - 1, by omega⟩
    show p_l3Of (p_expression n') s = p_l3Of (p_expression m') s
    apply l3_cong (p_expression n') (p_expression m') s.text s.position
      ?_ (textpres_p_expression n') (mono_p_expression n') (bounded_p_expression n')
      s rfl le_rfl hb
    intro s' ht' hq' hb'
    have hlen : s'.text.length = s.text.length := by rw [ht']
    exact ih s' n' m' (by omega) (by omega) (by omega) (by omega)

end exp

/-- C9: after grammar assembly the rebound placeholder p_expression behaves
identically to the fully assembled p_l3 on every ParserState: at any fuel
adequate for the state (the nesting of parenthesized sub-expressions
consumes at least one character per level, so remaining input plus one
suffices), running the placeholder equals running p_l3 built over that
same placeholder, which is what every parser that captured the placeholder
earlier — in particular p_subExpression — observes after the rebinding. -/
theorem claim_C9_placeholder_equals_assembled_grammar :
    ∀ (ps : mpc.ParserState) (n : Nat),
      ps.position ≤ ps.text.length →
      ps.text.length + 1 - ps.position ≤ n →
      exp.p_expression n ps = exp.p_l3Of (exp.p_expression n) ps := by
  intro ps n hb hn
  obtain ⟨n', rfl⟩ : ∃ n', n = n' + 1 := ⟨n - 1, by omega⟩
  show exp.p_l3Of (exp.p_expression n') ps = exp.p_l3Of (exp.p_expression (n' + 1)) ps
  apply exp.l3_cong (exp.p_expression n') (exp.p_expression (n' + 1)) ps.text ps.position
    ?_ (exp.textpres_p_expression n') (exp.mono_p_expression n')
    (exp.bounded_p_expression n') ps rfl le_rfl hb
  intro s' ht' hq' hb'
  have hlen : s'.text.length = ps.text.length := by rw [ht']
  exact exp.p_expression_fuel_irrel (s'.text.length - s'.position) s' n' (n' + 1)
    le_rfl (by omega) (by omega) (by omega)

/-- Witness for C9: the equivalence at the concrete initial state over
"1+(2)" with the canonical fuel. -/
theorem claim_C9_witness :
    exp.p_expression 7 (mpc.ParserState.init ("1+(2)".toList)) =
      exp.p_l3Of (exp.p_expression 7) (mpc.ParserState.init ("1+(2)".toList)) :=
  claim_C9_placeholder_equals_assembled_grammar
    (mpc.ParserState.init ("1+(2)".toList)) 7 (by decide) (by decide)

namespace exp

theorem digitChar_toNat (m : Nat) (h : m < 10) : (digitChar m).toNat = 48 + m := by
  interval_cases m <;> decide

theorem digitChar_isDigit (m : Nat) (h : m < 10) : isDigitChar (digitChar m) := by
  rw [isDigitChar, digitChar_toNat m h]
  omega

theorem digitsToNat_append_singleton (xs : List Char) (c : Char) :
    digitsToNat (xs ++ [c]) = 10 * digitsToNat xs + (c.toNat - 48) := by
  simp [digitsToNat, List.foldl_append]
  omega

theorem natDigitsAux_spec : ∀ (n fuel : Nat), n < fuel →
    natDigitsAux fuel n ≠ [] ∧ (∀ c ∈ natDigitsAux fuel n, isDigitChar c) ∧
      digitsToNat (natDigitsAux fuel n) = n := by
  intro n
  induction n using Nat.strong_induction_on with
  | _ n ih =>
    intro fuel hf
    obtain ⟨f, rfl⟩ : ∃ f, fuel = f + 1 := ⟨fuel - 1, by omega⟩
    by_cases h10 : n < 10
    · refine ⟨by simp [natDigitsAux, h10], ?_, ?_⟩
      · intro c hc
        simp [natDigitsAux, h10] at hc
        rw [hc]
        exact digitChar_isDigit n h10
      · simp only [natDigitsAux, h10, if_true, digitsToNat, List.foldl_cons, List.foldl_nil]
        rw [digitChar_toNat n h10]
        omega
    · have hdiv : n / 10 < n := Nat.div_lt_self (by omega) (by omega)
      have hdivf : n / 10 < f := by omega
      obtain ⟨h1, h2, h3⟩ := ih (n / 10) hdiv f hdivf
      refine ⟨by simp [natDigitsAux, h10], ?_, ?_⟩
      · intro c hc
        simp only [natDigitsAux, h10, if_false, List.mem_append, List.mem_singleton] at hc
        rcases hc with hc | hc
        · exact h2 c hc
        · rw [hc]
          exact digitChar_isDigit (n % 10) (Nat.mod_lt _ (by omega))
      · simp only [natDigitsAux, h10, if_false]
        rw [digitsToNat_append_singleton, h3,
          digitChar_toNat (n % 10) (Nat.mod_lt _ (by omega))]
        omega

theorem natToDigits_ne_nil (n : Nat) : natToDigits n ≠ [] :=
  (natDigitsAux_spec n (n + 1) (by omega)).1

theorem natToDigits_digits (n : Nat) : ∀ c ∈ natToDigits n, isDigitChar c :=
  (natDigitsAux_spec n (n + 1) (by omega)).2.1

theorem digitsToNat_natToDigits (n : Nat) : digitsToNat (natToDigits n) = n :=
  (natDigitsAux_spec n (n + 1) (by omega)).2.2

theorem jsNatToString_small (n : Nat) (h : (natToDigits n).length ≤ 21) :
    jsNatToString n = natToDigits n := by
  simp [jsNatToString, h]

end exp

namespace mpc

theorem advanceCount_append_full (f : Satisfy) :
    ∀ (a b : List Char) (i : Nat),
      (∀ (j : Nat) (hj : j < a.length), f (a.get ⟨j, hj⟩).toNat (i + j) = true) →
      (∀ c r', b = c :: r' → f c.toNat (i + a.length) = false) →
      advanceCount f (a ++ b) i = a.length := by
  intro a
  induction a with
  | nil =>
    intro b i _ h2
    cases b with
    | nil => simp [advanceCount]
    | cons c r' =>
      have hfalse := h2 c r' rfl
      simp only [List.length_nil, Nat.add_zero] at hfalse
      simp [advanceCount, hfalse]
  | cons x a' ih =>
    intro b i h1 h2
    have hx : f x.toNat i = true := by
      have := h1 0 (by simp)
      simpa using this
    have ha : advanceCount f (a' ++ b) (i + 1) = a'.length := by
      apply ih
      · intro j hj
        have := h1 (j + 1) (by simpa using Nat.succ_lt_succ hj)
        simpa [Nat.add_assoc, Nat.add_comm 1 j] using this
      · intro c r' hb
        have := h2 c r' hb
        simpa [Nat.add_assoc, Nat.add_comm 1 a'.length] using this
    show advanceCount f (x :: (a' ++ b)) i = a'.length + 1
    simp only [advanceCount, hx, if_true]
    rw [ha]

theorem advanceCount_nil (f : Satisfy) (i : Nat) : advanceCount f [] i = 0 := rfl

theorem advanceCount_head_false (f : Satisfy) (c : Char) (r : List Char) (i : Nat)
    (h : f c.toNat i = false) : advanceCount f (c :: r) i = 0 := by
  simp [advanceCount, h]

theorem drop_append_of_drop (text X Y : List Char) (pos : Nat)
    (h : text.drop pos = X ++ Y) : text.drop (pos + X.length) = Y := by
  rw [← List.drop_drop, h, List.drop_left]

theorem currentCharCode_cons (text : List Char) (pos : Nat) (ind : Int) (c : Char)
    (r : List Char) (h : text.drop pos = c :: r) :
    (ParserState.mk text pos ind).currentCharCode = some c.toNat := by
  have hlt : pos < text.length := by
    have hl := congrArg List.length h
    simp at hl
    omega
  have h2 := List.drop_eq_getElem_cons (l := text) (n := pos) hlt
  rw [h] at h2
  have hc : text[pos] = c := ((List.cons.inj h2).1).symm
  have hnot : ¬ pos ≥ text.length := Nat.not_le.mpr hlt
  simp [ParserState.currentCharCode, hnot, List.getD_eq_getElem?_getD,
    List.getElem?_eq_getElem hlt, hc]

theorem currentCharCode_nil (text : List Char) (pos : Nat) (ind : Int)
    (h : text.drop pos = []) : (ParserState.mk text pos ind).currentCharCode = none := by
  have hge : pos ≥ text.length := by
    have := congrArg List.length h
    simp at this
    omega
  simp [ParserState.currentCharCode, hge]

theorem anyCharOf2_eval {T : Type} (str : List Char) (m : List T)
    (text : List Char) (pos : Nat) (ind : Int) (c : Char) (r : List Char)
    (h : text.drop pos = c :: r) :
    anyCharOf2 str m (ParserState.mk text pos ind) =
      match indexOfCode (str.map Char.toNat) c.toNat with
      | none => ⟨ParserState.mk text pos ind, none⟩
      | some i =>
        match m[i]? with
        | none => ⟨ParserState.mk text pos ind, none⟩
        | some v => ⟨ParserState.mk text (pos + 1) ind, some v⟩ := by
  simp only [anyCharOf2, currentCharCode_cons text pos ind c r h]
  cases hi : indexOfCode (str.map Char.toNat) c.toNat with
  | none => simp [hi, ParserState.fail]
  | some i =>
    cases hm : m[i]? <;>
      simp [hi, List.get?_eq_getElem?, hm, ParserState.succeed, ParserState.fail]

theorem anyCharOf2_eval_nil {T : Type} (str : List Char) (m : List T)
    (text : List Char) (pos : Nat) (ind : Int) (h : text.drop pos = []) :
    anyCharOf2 str m (ParserState.mk text pos ind) = ⟨ParserState.mk text pos ind, none⟩ := by
  simp only [anyCharOf2, currentCharCode_nil text pos ind h]
  rfl

theorem skipString_eval (str : List Char) (text : List Char) (pos : Nat) (ind : Int)
    (r : List Char) (h : text.drop pos = str ++ r) :
    skipString str (ParserState.mk text pos ind) =
      ⟨ParserState.mk text (pos + str.length) ind, some ()⟩ := by
  have hc : advanceCount
      (fun ch p => decide (p < str.length) && decide ((str.getD p ' ').toNat = ch))
      (text.drop pos) 0 = str.length := by
    rw [h]
    apply advanceCount_append_full
    · intro j hj
      have : str.getD j ' ' = str.get ⟨j, hj⟩ := by
        rw [List.getD_eq_getElem?_getD, List.getElem?_eq_getElem hj]
        rfl
      simp [this, hj]
    · intro c r' _
      simp
  simp only [List.getD_eq_getElem?_getD] at hc
  simp [skipString, ParserState.skipAdvance, hc, ParserState.succeed]

theorem skipString_fail_nil (str : List Char) (text : List Char) (pos : Nat) (ind : Int)
    (h : text.drop pos = []) (hs : str ≠ []) :
    skipString str (ParserState.mk text pos ind) = ⟨ParserState.mk text pos ind, none⟩ := by
  have hc : advanceCount
      (fun ch p => decide (p < str.length) && decide ((str.getD p ' ').toNat = ch))
      (text.drop pos) 0 = 0 := by
    rw [h]
    rfl
  have hne : (0 : Nat) ≠ str.length := by
    intro h0
    exact hs (List.eq_nil_of_length_eq_zero h0.symm)
  simp only [List.getD_eq_getElem?_getD] at hc
  simp [skipString, ParserState.skipAdvance, hc, hne, ParserState.fail,
    ParserState.restore, ParserState.snapshot]

theorem skipString_fail_head (str : List Char) (text : List Char) (pos : Nat) (ind : Int)
    (c : Char) (r : List Char) (h : text.drop pos = c :: r) (hs : str ≠ [])
    (hne : (str.getD 0 ' ').toNat ≠ c.toNat) :
    skipString str (ParserState.mk text pos ind) = ⟨ParserState.mk text pos ind, none⟩ := by
  simp only [List.getD_eq_getElem?_getD] at hne
  have hc : advanceCount
      (fun ch p => decide (p < str.length) && decide ((str[p]?.getD ' ').toNat = ch))
      (text.drop pos) 0 = 0 := by
    rw [h]
    apply advanceCount_head_false
    simp only [Bool.and_eq_false_imp, decide_eq_true_eq, decide_eq_false_iff_not]
    intro _
    exact hne
  have hnel : (0 : Nat) ≠ str.length := by
    intro h0
    exact hs (List.eq_nil_of_length_eq_zero h0.symm)
  simp [skipString, ParserState.skipAdvance, hc, hnel, ParserState.fail,
    ParserState.restore, ParserState.snapshot]

end mpc

namespace mpc

theorem transform_eval {T R : Type} (p : Parser T) (f : T → R) (ps s : ParserState) (v : T)
    (h : p ps = ⟨s, some v⟩) : p.transform f ps = ⟨s, some (f v)⟩ := by
  simp [Parser.transform, h, ParserState.succeed]

theorem transform_eval_fail {T R : Type} (p : Parser T) (f : T → R) (ps s : ParserState)
    (h : p ps = ⟨s, none⟩) : p.transform f ps = ⟨s, none⟩ := by
  simp [Parser.transform, h, ParserState.fail]

theorem keepLeft_eval {T R : Type} (p : Parser T) (q : Parser R) (ps s1 s2 : ParserState)
    (v : T) (w : R) (h1 : p ps = ⟨s1, some v⟩) (h2 : q s1 = ⟨s2, some w⟩) :
    p.keepLeft q ps = ⟨s2, some v⟩ := by
  simp [Parser.keepLeft, h1, h2, ParserState.succeed]

theorem keepLeft_eval_fail1 {T R : Type} (p : Parser T) (q : Parser R) (ps s1 : ParserState)
    (h1 : p ps = ⟨s1, none⟩) : p.keepLeft q ps = ⟨s1, none⟩ := by
  simp [Parser.keepLeft, h1, ParserState.fail]

theorem consumedAtLeast_eval {T : Type} (p : Parser T) (i : Nat) (ps s : ParserState) (v : T)
    (h : p ps = ⟨s, some v⟩) (hpos : ¬ s.position < ps.position + i) :
    p.consumedAtLeast i ps = ⟨s, some v⟩ := by
  simp [Parser.consumedAtLeast, h, hpos, ParserState.succeed]

theorem consumedAtLeast_eval_fail {T : Type} (p : Parser T) (i : Nat) (ps s : ParserState)
    (v : T) (h : p ps = ⟨s, some v⟩) (hpos : s.position < ps.position + i) :
    p.consumedAtLeast i ps = ⟨s.restore ps.snapshot, none⟩ := by
  simp [Parser.consumedAtLeast, h, hpos, ParserState.fail]

theorem inBetween_eval {T : Type} (p : Parser T) (pb pe : Parser Unit)
    (ps s1 s2 s3 : ParserState) (v : T)
    (hb : pb ps = ⟨s1, some ()⟩) (hp : p s1 = ⟨s2, some v⟩) (he : pe s2 = ⟨s3, some ()⟩) :
    p.inBetween pb pe ps = ⟨s3, some v⟩ := by
  simp [Parser.inBetween, hb, hp, he, ParserState.succeed]

theorem choiceGo_cons_succ {T : Type} (q : Parser T) (rest : List (Parser T))
    (ps s : ParserState) (v : T) (h : q ps = ⟨s, some v⟩) :
    choiceGo (q :: rest) ps = ⟨s, some v⟩ := by
  simp [choiceGo, h, ParserState.succeed]

theorem choiceGo_cons_fail {T : Type} (q : Parser T) (rest : List (Parser T))
    (ps s : ParserState) (h : q ps = ⟨s, none⟩) :
    choiceGo (q :: rest) ps = choiceGo rest s := by
  simp [choiceGo, h]

theorem chainLeft_eval_zero {T S : Type} (p : Parser T) (sep : Parser S) (c : Combiner T S)
    (ps s0 : ParserState) (v : T) (hp : p ps = ⟨s0, some v⟩)
    (hsep : sep s0 = ⟨s0, none⟩) (hb : s0.position ≤ s0.text.length) :
    chainLeft p sep c ps = ⟨s0, some v⟩ := by
  obtain ⟨f, hf⟩ : ∃ f, s0.text.length + 1 - s0.position = f + 1 :=
    ⟨s0.text.length - s0.position, by omega⟩
  have hrestore : s0.restore s0.snapshot = s0 :=
    state_eq_of_fields _ _ rfl rfl rfl
  simp [chainLeft, hp, hf, chainLeftLoop, hsep, hrestore, ParserState.succeed]

theorem chainLeft_eval_one {T S : Type} (p : Parser T) (sep : Parser S) (c : Combiner T S)
    (ps s0 s1 s2 : ParserState) (v : T) (op : S) (w : T)
    (hp : p ps = ⟨s0, some v⟩) (hsep : sep s0 = ⟨s1, some op⟩) (hp2 : p s1 = ⟨s2, some w⟩)
    (hsep2 : sep s2 = ⟨s2, none⟩)
    (htext : s2.text = s0.text) (hlt : s0.position < s2.position)
    (hb : s2.position ≤ s2.text.length) :
    chainLeft p sep c ps = ⟨s2, some (c v op w)⟩ := by
  obtain ⟨f, hf⟩ : ∃ f, s0.text.length + 1 - s0.position = f + 2 :=
    ⟨s0.text.length - s0.position - 1, by rw [← htext]; omega⟩
  have hrestore : s2.restore s2.snapshot = s2 :=
    state_eq_of_fields _ _ rfl rfl rfl
  simp [chainLeft, hp, hf, chainLeftLoop, hsep, hp2, hsep2, hrestore, ParserState.succeed]

end mpc

namespace exp

theorem ws_sat_iff (c : Char) (i : Nat) :
    mpc.satisyWhitespace c.toNat i = true ↔ isWsChar c := by
  simp [mpc.satisyWhitespace, isWsChar]

theorem digits_contains_iff (ch : Nat) :
    ((("0123456789".toList).map Char.toNat).contains ch) = true ↔ (48 ≤ ch ∧ ch ≤ 57) := by
  have hlist : ("0123456789".toList).map Char.toNat =
      [48, 49, 50, 51, 52, 53, 54, 55, 56, 57] := by rfl
  rw [hlist]
  simp only [List.contains, List.elem_eq_mem, decide_eq_true_eq, List.mem_cons,
    List.not_mem_nil, or_false]
  omega

theorem closer_not_ws (c : Char) (h : closerChar c) : ¬ isWsChar c := by
  unfold isWsChar
  rcases h with rfl | rfl | rfl | rfl | rfl | rfl | rfl <;> decide

theorem closer_not_digit (c : Char) (h : closerChar c) : ¬ isDigitChar c := by
  unfold isDigitChar
  rcases h with rfl | rfl | rfl | rfl | rfl | rfl | rfl <;> decide

theorem closer_not_letter (c : Char) (h : closerChar c) : ¬ isLetterCode c.toNat := by
  unfold isLetterCode
  rcases h with rfl | rfl | rfl | rfl | rfl | rfl | rfl <;> decide

theorem ws_not_digit (c : Char) (h : isWsChar c) : ¬ isDigitChar c := by
  intro hd
  rcases h with h | h | h | h <;> rcases hd with ⟨h1, h2⟩ <;> omega

theorem ws_not_letter (c : Char) (h : isWsChar c) : ¬ isLetterCode c.toNat := by
  intro hd
  rcases h with h | h | h | h <;> rcases hd with ⟨h1, h2⟩ | ⟨h1, h2⟩ <;> omega

theorem p_whitespaces_eval (text : List Char) (pos : Nat) (ind : Int) (W r : List Char)
    (hdrop : text.drop pos = W ++ r) (hW : ∀ c ∈ W, isWsChar c)
    (hr : ∀ c r', r = c :: r' → ¬ isWsChar c) :
    p_whitespaces (mpc.ParserState.mk text pos ind) =
      ⟨mpc.ParserState.mk text (pos + W.length) ind, some W.length⟩ := by
  have hc : mpc.advanceCount mpc.satisyWhitespace (text.drop pos) 0 = W.length := by
    rw [hdrop]
    apply mpc.advanceCount_append_full
    · intro j hj
      exact (ws_sat_iff _ _).mpr (hW (W.get ⟨j, hj⟩) (W.get_mem j hj))
    · intro c r' hb
      have := hr c r' hb
      rw [← ws_sat_iff c (0 + W.length)] at this
      simpa using this
  simp [p_whitespaces, mpc.skipSatisfyMany, mpc.ParserState.skipAdvance, hc,
    mpc.ParserState.succeed]

theorem anyStringOf_digits_eval (text : List Char) (pos : Nat) (ind : Int)
    (ds rest : List Char) (hdrop : text.drop pos = ds ++ rest)
    (hds : ∀ c ∈ ds, isDigitChar c) (hrest : ∀ c r', rest = c :: r' → ¬ isDigitChar c) :
    mpc.anyStringOf ("0123456789".toList) (mpc.ParserState.mk text pos ind) =
      ⟨mpc.ParserState.mk text (pos + ds.length) ind, some ds⟩ := by
  have hc : mpc.advanceCount
      (fun ch _ => (((("0123456789".toList)).map Char.toNat).contains ch))
      (text.drop pos) 0 = ds.length := by
    rw [hdrop]
    apply mpc.advanceCount_append_full
    · intro j hj
      exact (digits_contains_iff _).mpr (hds (ds.get ⟨j, hj⟩) (ds.get_mem j hj))
    · intro c r' hb
      have := hrest c r' hb
      rw [isDigitChar, ← digits_contains_iff c.toNat] at this
      simpa using this
  have htake : (text.drop pos).take ds.length = ds := by
    rw [hdrop, List.take_left]
  simp only [mpc.anyStringOf, mpc.ParserState.advance]
  rw [hc, htake]
  rfl

theorem p_number_eval (text : List Char) (pos : Nat) (ind : Int) (ds W r : List Char)
    (hdrop : text.drop pos = ds ++ (W ++ r)) (hne : ds ≠ [])
    (hds : ∀ c ∈ ds, isDigitChar c) (hW : ∀ c ∈ W, isWsChar c)
    (hWr : ∀ c t', W ++ r = c :: t' → ¬ isDigitChar c)
    (hr : ∀ c t', r = c :: t' → ¬ isWsChar c) :
    p_number (mpc.ParserState.mk text pos ind) =
      ⟨mpc.ParserState.mk text (pos + (ds.length + W.length)) ind,
       some (Expression.NumberLiteralExpression (digitsToNat ds))⟩ := by
  have h1 := anyStringOf_digits_eval text pos ind ds (W ++ r) hdrop hds hWr
  have h2 : (mpc.anyStringOf ("0123456789".toList)).consumedAtLeast 1
      (mpc.ParserState.mk text pos ind) =
      ⟨mpc.ParserState.mk text (pos + ds.length) ind, some ds⟩ := by
    apply mpc.consumedAtLeast_eval _ _ _ _ _ h1
    have hlen : 0 < ds.length := List.length_pos.mpr hne
    show ¬ pos + ds.length < pos + 1
    omega
  have hdrop2 : text.drop (pos + ds.length) = W ++ r :=
    mpc.drop_append_of_drop text ds (W ++ r) pos hdrop
  have h3 := p_whitespaces_eval text (pos + ds.length) ind W r hdrop2 hW hr
  have h4 := mpc.keepLeft_eval _ p_whitespaces _ _ _ ds W.length h2 h3
  have h5 := mpc.transform_eval _
    (fun c => Expression.NumberLiteralExpression (digitsToNat c)) _ _ ds h4
  show (((mpc.anyStringOf ("0123456789".toList)).consumedAtLeast 1).keepLeft
    p_whitespaces).transform _ _ = _
  rw [h5, Nat.add_assoc]

theorem p_number_eval_fail (text : List Char) (pos : Nat) (ind : Int)
    (h : text.drop pos = [] ∨ ∃ c r', text.drop pos = c :: r' ∧ ¬ isDigitChar c) :
    p_number (mpc.ParserState.mk text pos ind) = ⟨mpc.ParserState.mk text pos ind, none⟩ := by
  have h1 : mpc.anyStringOf ("0123456789".toList) (mpc.ParserState.mk text pos ind) =
      ⟨mpc.ParserState.mk text (pos + 0) ind, some []⟩ := by
    have := anyStringOf_digits_eval text pos ind [] (text.drop pos) (by simp) (by simp)
      (by
        intro c r' hb hd
        rcases h with h | ⟨c2, r2, h2, hnd⟩
        · rw [h] at hb
          exact absurd hb (by simp)
        · rw [h2] at hb
          obtain ⟨rfl, rfl⟩ := List.cons.inj hb
          exact hnd hd)
    simpa using this
  have h2 := mpc.consumedAtLeast_eval_fail _ 1 _ _ []  h1 (by simp)
  have h3 := mpc.keepLeft_eval_fail1 _ p_whitespaces _ _ h2
  have h4 := mpc.transform_eval_fail _
    (fun c => Expression.NumberLiteralExpression (digitsToNat c)) _ _ h3
  show (((mpc.anyStringOf ("0123456789".toList)).consumedAtLeast 1).keepLeft
    p_whitespaces).transform _ _ = _
  rw [h4]
  simp [mpc.ParserState.restore, mpc.ParserState.snapshot]

end exp

namespace exp

theorem letter_sat_iff (c : Char) :
    (decide ((65 ≤ c.toNat ∧ c.toNat ≤ 90) ∨ (97 ≤ c.toNat ∧ c.toNat ≤ 122))) = true ↔
      isLetterCode c.toNat := by
  simp [isLetterCode]

theorem satisfyMany_letters_eval (text : List Char) (pos : Nat) (ind : Int)
    (ls rest : List Char) (hdrop : text.drop pos = ls ++ rest)
    (hls : ∀ c ∈ ls, isLetterCode c.toNat)
    (hrest : ∀ c r', rest = c :: r' → ¬ isLetterCode c.toNat) :
    mpc.satisfyMany
        (fun ch _ => decide ((65 ≤ ch ∧ ch ≤ 90) ∨ (97 ≤ ch ∧ ch ≤ 122)))
        (mpc.ParserState.mk text pos ind) =
      ⟨mpc.ParserState.mk text (pos + ls.length) ind, some ls⟩ := by
  have hc : mpc.advanceCount
      (fun ch _ => decide ((65 ≤ ch ∧ ch ≤ 90) ∨ (97 ≤ ch ∧ ch ≤ 122)))
      (text.drop pos) 0 = ls.length := by
    rw [hdrop]
    apply mpc.advanceCount_append_full
    · intro j hj
      exact (letter_sat_iff _).mpr (hls (ls.get ⟨j, hj⟩) (ls.get_mem j hj))
    · intro c r' hb
      have := hrest c r' hb
      rw [← letter_sat_iff c] at this
      simpa using this
  have htake : (text.drop pos).take ls.length = ls := by
    rw [hdrop, List.take_left]
  simp only [mpc.satisfyMany, mpc.ParserState.advance]
  rw [hc, htake]
  rfl

theorem p_identifer_eval (text : List Char) (pos : Nat) (ind : Int) (ls W r : List Char)
    (hdrop : text.drop pos = ls ++ (W ++ r)) (hne : ls ≠ [])
    (hls : ∀ c ∈ ls, isLetterCode c.toNat) (hW : ∀ c ∈ W, isWsChar c)
    (hWr : ∀ c t', W ++ r = c :: t' → ¬ isLetterCode c.toNat)
    (hr : ∀ c t', r = c :: t' → ¬ isWsChar c) :
    p_identifer (mpc.ParserState.mk text pos ind) =
      ⟨mpc.ParserState.mk text (pos + (ls.length + W.length)) ind,
       some (Expression.IdentifierExpression ls)⟩ := by
  have h1 := satisfyMany_letters_eval text pos ind ls (W ++ r) hdrop hls hWr
  have h2 : (mpc.satisfyMany
      (fun ch _ => decide ((65 ≤ ch ∧ ch ≤ 90) ∨ (97 ≤ ch ∧ ch ≤ 122)))).consumedAtLeast 1
      (mpc.ParserState.mk text pos ind) =
      ⟨mpc.ParserState.mk text (pos + ls.length) ind, some ls⟩ := by
    apply mpc.consumedAtLeast_eval _ _ _ _ _ h1
    have hlen : 0 < ls.length := List.length_pos.mpr hne
    show ¬ pos + ls.length < pos + 1
    omega
  have hdrop2 : text.drop (pos + ls.length) = W ++ r :=
    mpc.drop_append_of_drop text ls (W ++ r) pos hdrop
  have h3 := p_whitespaces_eval text (pos + ls.length) ind W r hdrop2 hW hr
  have h4 := mpc.keepLeft_eval _ p_whitespaces _ _ _ ls W.length h2 h3
  have h5 := mpc.transform_eval _ (fun c => Expression.IdentifierExpression c) _ _ ls h4
  show ((((mpc.satisfyMany _).consumedAtLeast 1).keepLeft p_whitespaces).transform _) _ = _
  rw [h5, Nat.add_assoc]

theorem p_identifer_eval_fail (text : List Char) (pos : Nat) (ind : Int)
    (h : text.drop pos = [] ∨ ∃ c r', text.drop pos = c :: r' ∧ ¬ isLetterCode c.toNat) :
    p_identifer (mpc.ParserState.mk text pos ind) =
      ⟨mpc.ParserState.mk text pos ind, none⟩ := by
  have h1 : mpc.satisfyMany
      (fun ch _ => decide ((65 ≤ ch ∧ ch ≤ 90) ∨ (97 ≤ ch ∧ ch ≤ 122)))
      (mpc.ParserState.mk text pos ind) =
      ⟨mpc.ParserState.mk text (pos + 0) ind, some []⟩ := by
    have := satisfyMany_letters_eval text pos ind [] (text.drop pos) (by simp) (by simp)
      (by
        intro c r' hb hd
        rcases h with h | ⟨c2, r2, h2, hnd⟩
        · rw [h] at hb
          exact absurd hb (by simp)
        · rw [h2] at hb
          obtain ⟨rfl, rfl⟩ := List.cons.inj hb
          exact hnd hd)
    simpa using this
  have h2 := mpc.consumedAtLeast_eval_fail _ 1 _ _ [] h1 (by simp)
  have h3 := mpc.keepLeft_eval_fail1 _ p_whitespaces _ _ h2
  have h4 := mpc.transform_eval_fail _ (fun c => Expression.IdentifierExpression c) _ _ h3
  show ((((mpc.satisfyMany _).consumedAtLeast 1).keepLeft p_whitespaces).transform _) _ = _
  rw [h4]
  simp [mpc.ParserState.restore, mpc.ParserState.snapshot]

end exp

namespace mpc

theorem result_eval {T R : Type} (p : Parser T) (v : R) (ps s : ParserState) (w : T)
    (h : p ps = ⟨s, some w⟩) : p.result v ps = ⟨s, some v⟩ := by
  simp [Parser.result, h, ParserState.succeed]

theorem result_eval_fail {T R : Type} (p : Parser T) (v : R) (ps s : ParserState)
    (h : p ps = ⟨s, none⟩) : p.result v ps = ⟨s, none⟩ := by
  simp [Parser.result, h, ParserState.fail]

end mpc

namespace exp

theorem addOp_eval (text : List Char) (pos : Nat) (ind : Int) (W r : List Char)
    (c : Char) (op : BinaryOperator)
    (hc : (c = '+' ∧ op = BinaryOperator.Add) ∨ (c = '-' ∧ op = BinaryOperator.Subtract))
    (hdrop : text.drop pos = c :: (W ++ r)) (hW : ∀ x ∈ W, isWsChar x)
    (hr : ∀ x t', r = x :: t' → ¬ isWsChar x) :
    p_addLikeOperator (mpc.ParserState.mk text pos ind) =
      ⟨mpc.ParserState.mk text (pos + (1 + W.length)) ind, some op⟩ := by
  have h1 : mpc.anyCharOf2 ("+-".toList) [BinaryOperator.Add, BinaryOperator.Subtract]
      (mpc.ParserState.mk text pos ind) =
      ⟨mpc.ParserState.mk text (pos + 1) ind, some op⟩ := by
    rw [mpc.anyCharOf2_eval _ _ text pos ind c (W ++ r) hdrop]
    rcases hc with ⟨rfl, rfl⟩ | ⟨rfl, rfl⟩ <;> rfl
  have hdrop2 : text.drop (pos + 1) = W ++ r := by
    have := mpc.drop_append_of_drop text [c] (W ++ r) pos (by simpa using hdrop)
    simpa using this
  have h3 := p_whitespaces_eval text (pos + 1) ind W r hdrop2 hW hr
  have h4 := mpc.keepLeft_eval _ p_whitespaces _ _ _ op W.length h1 h3
  show (mpc.anyCharOf2 _ _).keepLeft p_whitespaces _ = _
  rw [h4, Nat.add_assoc]

theorem mulOp_eval (text : List Char) (pos : Nat) (ind : Int) (W r : List Char)
    (c : Char) (op : BinaryOperator)
    (hc : (c = '*' ∧ op = BinaryOperator.Multiply) ∨ (c = '/' ∧ op = BinaryOperator.Divide))
    (hdrop : text.drop pos = c :: (W ++ r)) (hW : ∀ x ∈ W, isWsChar x)
    (hr : ∀ x t', r = x :: t' → ¬ isWsChar x) :
    p_multiplyLikeOperator (mpc.ParserState.mk text pos ind) =
      ⟨mpc.ParserState.mk text (pos + (1 + W.length)) ind, some op⟩ := by
  have h1 : mpc.anyCharOf2 ("*/".toList) [BinaryOperator.Multiply, BinaryOperator.Divide]
      (mpc.ParserState.mk text pos ind) =
      ⟨mpc.ParserState.mk text (pos + 1) ind, some op⟩ := by
    rw [mpc.anyCharOf2_eval _ _ text pos ind c (W ++ r) hdrop]
    rcases hc with ⟨rfl, rfl⟩ | ⟨rfl, rfl⟩ <;> rfl
  have hdrop2 : text.drop (pos + 1) = W ++ r := by
    have := mpc.drop_append_of_drop text [c] (W ++ r) pos (by simpa using hdrop)
    simpa using this
  have h3 := p_whitespaces_eval text (pos + 1) ind W r hdrop2 hW hr
  have h4 := mpc.keepLeft_eval _ p_whitespaces _ _ _ op W.length h1 h3
  show (mpc.anyCharOf2 _ _).keepLeft p_whitespaces _ = _
  rw [h4, Nat.add_assoc]

theorem mulOp_fail (text : List Char) (pos : Nat) (ind : Int) (r : List Char)
    (hdrop : text.drop pos = r) (hf : FollowL1 r) :
    p_multiplyLikeOperator (mpc.ParserState.mk text pos ind) =
      ⟨mpc.ParserState.mk text pos ind, none⟩ := by
  have h1 : mpc.anyCharOf2 ("*/".toList) [BinaryOperator.Multiply, BinaryOperator.Divide]
      (mpc.ParserState.mk text pos ind) = ⟨mpc.ParserState.mk text pos ind, none⟩ := by
    rcases hf with rfl | ⟨c, r', rfl, hc⟩
    · exact mpc.anyCharOf2_eval_nil _ _ text pos ind hdrop
    · rw [mpc.anyCharOf2_eval _ _ text pos ind c r' hdrop]
      rcases hc with rfl | rfl | rfl | rfl | rfl <;> rfl
  exact mpc.keepLeft_eval_fail1 _ _ _ _ h1

theorem addOp_fail (text : List Char) (pos : Nat) (ind : Int) (r : List Char)
    (hdrop : text.drop pos = r) (hf : FollowL2 r) :
    p_addLikeOperator (mpc.ParserState.mk text pos ind) =
      ⟨mpc.ParserState.mk text pos ind, none⟩ := by
  have h1 : mpc.anyCharOf2 ("+-".toList) [BinaryOperator.Add, BinaryOperator.Subtract]
      (mpc.ParserState.mk text pos ind) = ⟨mpc.ParserState.mk text pos ind, none⟩ := by
    rcases hf with rfl | ⟨c, r', rfl, hc⟩
    · exact mpc.anyCharOf2_eval_nil _ _ text pos ind hdrop
    · rw [mpc.anyCharOf2_eval _ _ text pos ind c r' hdrop]
      rcases hc with rfl | rfl | rfl <;> rfl
  exact mpc.keepLeft_eval_fail1 _ _ _ _ h1

theorem cmpOp_fail (text : List Char) (pos : Nat) (ind : Int) (r : List Char)
    (hdrop : text.drop pos = r) (hf : FollowL3 r) :
    p_comparisonOperator (mpc.ParserState.mk text pos ind) =
      ⟨mpc.ParserState.mk text pos ind, none⟩ := by
  have heq : mpc.skipString ("=".toList) (mpc.ParserState.mk text pos ind) =
      ⟨mpc.ParserState.mk text pos ind, none⟩ := by
    rcases hf with rfl | ⟨r', rfl⟩
    · exact mpc.skipString_fail_nil _ text pos ind hdrop (by decide)
    · exact mpc.skipString_fail_head _ text pos ind ')' r' hdrop (by decide) (by decide)
  have hne : mpc.skipString ("<>".toList) (mpc.ParserState.mk text pos ind) =
      ⟨mpc.ParserState.mk text pos ind, none⟩ := by
    rcases hf with rfl | ⟨r', rfl⟩
    · exact mpc.skipString_fail_nil _ text pos ind hdrop (by decide)
    · exact mpc.skipString_fail_head _ text pos ind ')' r' hdrop (by decide) (by decide)
  have h1 : mpc.choice
      [(mpc.skipString ("=".toList)).result BinaryOperator.EqualTo,
       (mpc.skipString ("<>".toList)).result BinaryOperator.NotEqualTo]
      (mpc.ParserState.mk text pos ind) = ⟨mpc.ParserState.mk text pos ind, none⟩ := by
    show mpc.choiceGo _ _ = _
    rw [mpc.choiceGo_cons_fail _ _ _ _ (mpc.result_eval_fail _ _ _ _ heq),
      mpc.choiceGo_cons_fail _ _ _ _ (mpc.result_eval_fail _ _ _ _ hne)]
    rfl
  exact mpc.keepLeft_eval_fail1 _ _ _ _ h1

theorem cmpOp_eval_eq (text : List Char) (pos : Nat) (ind : Int) (W r : List Char)
    (hdrop : text.drop pos = '=' :: (W ++ r)) (hW : ∀ x ∈ W, isWsChar x)
    (hr : ∀ x t', r = x :: t' → ¬ isWsChar x) :
    p_comparisonOperator (mpc.ParserState.mk text pos ind) =
      ⟨mpc.ParserState.mk text (pos + (1 + W.length)) ind, some BinaryOperator.EqualTo⟩ := by
  have heq : mpc.skipString ("=".toList) (mpc.ParserState.mk text pos ind) =
      ⟨mpc.ParserState.mk text (pos + 1) ind, some ()⟩ := by
    have := mpc.skipString_eval ("=".toList) text pos ind (W ++ r) (by simpa using hdrop)
    simpa using this
  have h1 : mpc.choice
      [(mpc.skipString ("=".toList)).result BinaryOperator.EqualTo,
       (mpc.skipString ("<>".toList)).result BinaryOperator.NotEqualTo]
      (mpc.ParserState.mk text pos ind) =
      ⟨mpc.ParserState.mk text (pos + 1) ind, some BinaryOperator.EqualTo⟩ := by
    show mpc.choiceGo _ _ = _
    rw [mpc.choiceGo_cons_succ _ _ _ _ _ (mpc.result_eval _ _ _ _ _ heq)]
  have hdrop2 : text.drop (pos + 1) = W ++ r := by
    have := mpc.drop_append_of_drop text ['='] (W ++ r) pos (by simpa using hdrop)
    simpa using this
  have h3 := p_whitespaces_eval text (pos + 1) ind W r hdrop2 hW hr
  have h4 := mpc.keepLeft_eval _ p_whitespaces _ _ _ BinaryOperator.EqualTo W.length h1 h3
  show (mpc.choice _).keepLeft p_whitespaces _ = _
  rw [h4, Nat.add_assoc]

theorem cmpOp_eval_ne (text : List Char) (pos : Nat) (ind : Int) (W r : List Char)
    (hdrop : text.drop pos = '<' :: '>' :: (W ++ r)) (hW : ∀ x ∈ W, isWsChar x)
    (hr : ∀ x t', r = x :: t' → ¬ isWsChar x) :
    p_comparisonOperator (mpc.ParserState.mk text pos ind) =
      ⟨mpc.ParserState.mk text (pos + (2 + W.length)) ind,
       some BinaryOperator.NotEqualTo⟩ := by
  have heq : mpc.skipString ("=".toList) (mpc.ParserState.mk text pos ind) =
      ⟨mpc.ParserState.mk text pos ind, none⟩ :=
    mpc.skipString_fail_head _ text pos ind '<' ('>' :: (W ++ r)) hdrop (by decide) (by decide)
  have hne : mpc.skipString ("<>".toList) (mpc.ParserState.mk text pos ind) =
      ⟨mpc.ParserState.mk text (pos + 2) ind, some ()⟩ := by
    have := mpc.skipString_eval ("<>".toList) text pos ind (W ++ r) (by simpa using hdrop)
    simpa using this
  have h1 : mpc.choice
      [(mpc.skipString ("=".toList)).result BinaryOperator.EqualTo,
       (mpc.skipString ("<>".toList)).result BinaryOperator.NotEqualTo]
      (mpc.ParserState.mk text pos ind) =
      ⟨mpc.ParserState.mk text (pos + 2) ind, some BinaryOperator.NotEqualTo⟩ := by
    show mpc.choiceGo _ _ = _
    rw [mpc.choiceGo_cons_fail _ _ _ _ (mpc.result_eval_fail _ _ _ _ heq),
      mpc.choiceGo_cons_succ _ _ _ _ _ (mpc.result_eval _ _ _ _ _ hne)]
  have hdrop2 : text.drop (pos + 2) = W ++ r := by
    have := mpc.drop_append_of_drop text ['<', '>'] (W ++ r) pos (by simpa using hdrop)
    simpa using this
  have h3 := p_whitespaces_eval text (pos + 2) ind W r hdrop2 hW hr
  have h4 := mpc.keepLeft_eval _ p_whitespaces _ _ _ BinaryOperator.NotEqualTo W.length h1 h3
  show (mpc.choice _).keepLeft p_whitespaces _ = _
  rw [h4, Nat.add_assoc]

end exp

namespace mpc

theorem drop_len_bound (text X : List Char) (pos : Nat) (h : text.drop pos = X) :
    text.length - pos = X.length := by
  rw [← h, List.length_drop]

end mpc

namespace exp

theorem letter_not_digit (c : Char) (h : isLetterCode c.toNat) : ¬ isDigitChar c := by
  intro hd
  rcases h with ⟨h1, h2⟩ | ⟨h1, h2⟩ <;> rcases hd with ⟨h3, h4⟩ <;> omega

theorem serialize_ne_nil (T : Expression) (h : wfS T) : serialize T ≠ [] := by
  cases T with
  | BinaryExpression op l r => simp [serialize]
  | NumberLiteralExpression v =>
      rw [show serialize (Expression.NumberLiteralExpression v) = jsNatToString v from rfl,
        jsNatToString_small v h.2]
      exact natToDigits_ne_nil v
  | IdentifierExpression name => exact h.1.1

theorem serialize_head_cons (T : Expression) (h : wfS T) :
    ∃ c t, serialize T = c :: t ∧ ¬ isWsChar c := by
  cases T with
  | BinaryExpression op l r =>
      refine ⟨'(', serialize l ++ serializeOp op ++ serialize r ++ ")".toList, ?_, ?_⟩
      · simp [serialize]
      · unfold isWsChar
        decide
  | NumberLiteralExpression v =>
      have hser : serialize (Expression.NumberLiteralExpression v) = natToDigits v := by
        rw [show serialize (Expression.NumberLiteralExpression v) = jsNatToString v from rfl,
          jsNatToString_small v h.2]
      cases hd : natToDigits v with
      | nil => exact absurd hd (natToDigits_ne_nil v)
      | cons c t =>
          refine ⟨c, t, by rw [hser, hd], ?_⟩
          intro hws
          exact ws_not_digit c hws (natToDigits_digits v c (by rw [hd]; exact List.mem_cons_self c t))
  | IdentifierExpression name =>
      cases hd : name with
      | nil => exact absurd hd h.1.1
      | cons c t =>
          refine ⟨c, t, rfl, ?_⟩
          intro hws
          exact ws_not_letter c hws (h.1.2 c (by rw [hd]; exact List.mem_cons_self c t))

theorem depth_le_serialize (T : Expression) : depth T ≤ (serialize T).length := by
  induction T with
  | BinaryExpression op l r ihl ihr =>
      have hpar1 : ("(".toList).length = 1 := rfl
      have hpar2 : (")".toList).length = 1 := rfl
      simp only [depth, serialize, List.length_append, hpar1, hpar2]
      rcases Nat.le_total (depth l) (depth r) with hm | hm
      · rw [Nat.max_eq_right hm]
        omega
      · rw [Nat.max_eq_left hm]
        omega
  | NumberLiteralExpression v => exact Nat.zero_le _
  | IdentifierExpression name => exact Nat.zero_le _

theorem followTerm_of_l1 (r : List Char) (h : FollowL1 r) : FollowTerm r := by
  rcases h with rfl | ⟨c, r', rfl, hc⟩
  · exact Or.inl rfl
  · refine Or.inr ⟨c, r', rfl, ?_⟩
    unfold closerChar
    rcases hc with rfl | rfl | rfl | rfl | rfl <;> tauto

theorem followL1_of_l2 (r : List Char) (h : FollowL2 r) : FollowL1 r := by
  rcases h with rfl | ⟨c, r', rfl, hc⟩
  · exact Or.inl rfl
  · refine Or.inr ⟨c, r', rfl, ?_⟩
    rcases hc with rfl | rfl | rfl <;> tauto

theorem followL2_of_l3 (r : List Char) (h : FollowL3 r) : FollowL2 r := by
  rcases h with rfl | ⟨r', rfl⟩
  · exact Or.inl rfl
  · exact Or.inr ⟨')', r', rfl, Or.inl rfl⟩

end exp

namespace exp

theorem interior_mulClass (m : Nat) (l r : Expression) (c : Char) (op : BinaryOperator)
    (hc : (c = '*' ∧ op = BinaryOperator.Multiply) ∨ (c = '/' ∧ op = BinaryOperator.Divide))
    (hwr : wfS r) (htl : TermSpec l m) (htr : TermSpec r m)
    (text : List Char) (pos : Nat) (ind : Int) (rest : List Char)
    (hdrop : text.drop pos = serialize l ++ [' ', c, ' '] ++ (serialize r ++ ')' :: rest)) :
    p_l3Of (p_expression m) (mpc.ParserState.mk text pos ind) =
      ⟨mpc.ParserState.mk text (pos + ((serialize l).length + 3 + (serialize r).length)) ind,
       some (Expression.BinaryExpression op l r)⟩ := by
  have hlb := mpc.drop_len_bound text _ pos hdrop
  simp only [List.length_append, List.length_cons, List.length_nil] at hlb
  have hcc : closerChar c := by
    unfold closerChar
    rcases hc with ⟨rfl, -⟩ | ⟨rfl, -⟩ <;> tauto
  obtain ⟨c0, t0, hR, hc0⟩ := serialize_head_cons r hwr
  have hrHead : ∀ x t', serialize r ++ ')' :: rest = x :: t' → ¬ isWsChar x := by
    intro x t' hx
    rw [hR] at hx
    simp only [List.cons_append] at hx
    obtain ⟨rfl, -⟩ := List.cons.inj hx
    exact hc0
  have hW1 : ∀ x ∈ [' '], isWsChar x := by
    intro x hx
    rw [List.mem_singleton] at hx
    subst hx
    unfold isWsChar
    decide
  have hd1 : text.drop pos = serialize l ++ [' '] ++ (c :: ' ' :: (serialize r ++ ')' :: rest)) := by
    rw [hdrop]
    simp
  have hT1 := htl text pos ind [' '] _ hd1 hW1 (Or.inr ⟨c, _, rfl, hcc⟩)
  have hd2 : text.drop (pos + ((serialize l).length + 1)) =
      c :: (' ' :: (serialize r ++ ')' :: rest)) := by
    have hx : text.drop pos =
        (serialize l ++ [' ']) ++ (c :: ' ' :: (serialize r ++ ')' :: rest)) := by
      rw [hdrop]
      simp
    have h2 := mpc.drop_append_of_drop text _ _ pos hx
    simpa using h2
  have hS1 := mulOp_eval text (pos + ((serialize l).length + 1)) ind [' ']
    (serialize r ++ ')' :: rest) c op hc hd2 hW1 hrHead
  have hd3 : text.drop (pos + ((serialize l).length + 3)) = serialize r ++ ')' :: rest := by
    have h3 := mpc.drop_append_of_drop text _ _ pos hdrop
    simpa using h3
  have hT2 := htr text (pos + ((serialize l).length + 3)) ind [] (')' :: rest)
    (by simpa using hd3) (by intro x hx; simp at hx) (Or.inr ⟨')', rest, rfl, Or.inl rfl⟩)
  have hd4 : text.drop (pos + ((serialize l).length + 3) + (serialize r).length) =
      ')' :: rest := mpc.drop_append_of_drop text _ _ _ hd3
  have hS2 := mulOp_fail text (pos + ((serialize l).length + 3) + (serialize r).length) ind
    (')' :: rest) hd4 (Or.inr ⟨')', rest, rfl, by tauto⟩)
  have hb2 : pos + ((serialize l).length + 3) + (serialize r).length ≤ text.length := by
    omega
  have hL1 : p_l1Of (p_expression m) (mpc.ParserState.mk text pos ind) =
      ⟨mpc.ParserState.mk text (pos + ((serialize l).length + 3) + (serialize r).length) ind,
       some (Expression.BinaryExpression op l r)⟩ := by
    exact mpc.chainLeft_eval_one (p_termOf (p_expression m)) p_multiplyLikeOperator
      expressionCombiner _ _ _ _ l op r hT1 hS1 hT2 hS2 rfl (by simp; omega) hb2
  have hS3 := addOp_fail text (pos + ((serialize l).length + 3) + (serialize r).length) ind
    (')' :: rest) hd4 (Or.inr ⟨')', rest, rfl, by tauto⟩)
  have hL2 : p_l2Of (p_expression m) (mpc.ParserState.mk text pos ind) =
      ⟨mpc.ParserState.mk text (pos + ((serialize l).length + 3) + (serialize r).length) ind,
       some (Expression.BinaryExpression op l r)⟩ := by
    exact mpc.chainLeft_eval_zero (p_l1Of (p_expression m)) p_addLikeOperator
      expressionCombiner _ _ _ hL1 hS3 hb2
  have hS4 := cmpOp_fail text (pos + ((serialize l).length + 3) + (serialize r).length) ind
    (')' :: rest) hd4 (Or.inr ⟨rest, rfl⟩)
  have hL3 : p_l3Of (p_expression m) (mpc.ParserState.mk text pos ind) =
      ⟨mpc.ParserState.mk text (pos + ((serialize l).length + 3) + (serialize r).length) ind,
       some (Expression.BinaryExpression op l r)⟩ := by
    exact mpc.chainLeft_eval_zero (p_l2Of (p_expression m)) p_comparisonOperator
      expressionCombiner _ _ _ hL2 hS4 hb2
  rw [hL3, Nat.add_assoc]

end exp

namespace exp

theorem interior_addClass (m : Nat) (l r : Expression) (c : Char) (op : BinaryOperator)
    (hc : (c = '+' ∧ op = BinaryOperator.Add) ∨ (c = '-' ∧ op = BinaryOperator.Subtract))
    (hwr : wfS r) (htl : TermSpec l m) (htr : TermSpec r m)
    (text : List Char) (pos : Nat) (ind : Int) (rest : List Char)
    (hdrop : text.drop pos = serialize l ++ [' ', c, ' '] ++ (serialize r ++ ')' :: rest)) :
    p_l3Of (p_expression m) (mpc.ParserState.mk text pos ind) =
      ⟨mpc.ParserState.mk text (pos + ((serialize l).length + 3 + (serialize r).length)) ind,
       some (Expression.BinaryExpression op l r)⟩ := by
  have hlb := mpc.drop_len_bound text _ pos hdrop
  simp only [List.length_append, List.length_cons, List.length_nil] at hlb
  have hcc : closerChar c := by
    unfold closerChar
    rcases hc with ⟨rfl, -⟩ | ⟨rfl, -⟩ <;> tauto
  obtain ⟨c0, t0, hR, hc0⟩ := serialize_head_cons r hwr
  have hrHead : ∀ x t', serialize r ++ ')' :: rest = x :: t' → ¬ isWsChar x := by
    intro x t' hx
    rw [hR] at hx
    simp only [List.cons_append] at hx
    obtain ⟨rfl, -⟩ := List.cons.inj hx
    exact hc0
  have hW1 : ∀ x ∈ [' '], isWsChar x := by
    intro x hx
    rw [List.mem_singleton] at hx
    subst hx
    unfold isWsChar
    decide
  have hd1 : text.drop pos = serialize l ++ [' '] ++ (c :: ' ' :: (serialize r ++ ')' :: rest)) := by
    rw [hdrop]
    simp
  have hT1 := htl text pos ind [' '] _ hd1 hW1 (Or.inr ⟨c, _, rfl, hcc⟩)
  have hd2 : text.drop (pos + ((serialize l).length + 1)) =
      c :: (' ' :: (serialize r ++ ')' :: rest)) := by
    have hx : text.drop pos =
        (serialize l ++ [' ']) ++ (c :: ' ' :: (serialize r ++ ')' :: rest)) := by
      rw [hdrop]
      simp
    have h2 := mpc.drop_append_of_drop text _ _ pos hx
    simpa using h2
  have hb1 : pos + ((serialize l).length + 1) ≤ text.length := by
    omega
  have hM1 := mulOp_fail text (pos + ((serialize l).length + 1)) ind
    (c :: ' ' :: (serialize r ++ ')' :: rest)) hd2
    (Or.inr ⟨c, _, rfl, by rcases hc with ⟨rfl, -⟩ | ⟨rfl, -⟩ <;> tauto⟩)
  have hL1a : p_l1Of (p_expression m) (mpc.ParserState.mk text pos ind) =
      ⟨mpc.ParserState.mk text (pos + ((serialize l).length + 1)) ind, some l⟩ := by
    exact mpc.chainLeft_eval_zero (p_termOf (p_expression m)) p_multiplyLikeOperator
      expressionCombiner _ _ _ hT1 hM1 hb1
  have hS2 := addOp_eval text (pos + ((serialize l).length + 1)) ind [' ']
    (serialize r ++ ')' :: rest) c op hc hd2 hW1 hrHead
  have hd3 : text.drop (pos + ((serialize l).length + 3)) = serialize r ++ ')' :: rest := by
    have h3 := mpc.drop_append_of_drop text _ _ pos hdrop
    simpa using h3
  have hT2 := htr text (pos + ((serialize l).length + 3)) ind [] (')' :: rest)
    (by simpa using hd3) (by intro x hx; simp at hx) (Or.inr ⟨')', rest, rfl, Or.inl rfl⟩)
  have hd4 : text.drop (pos + ((serialize l).length + 3) + (serialize r).length) =
      ')' :: rest := mpc.drop_append_of_drop text _ _ _ hd3
  have hb2 : pos + ((serialize l).length + 3) + (serialize r).length ≤ text.length := by
    omega
  have hM2 := mulOp_fail text (pos + ((serialize l).length + 3) + (serialize r).length) ind
    (')' :: rest) hd4 (Or.inr ⟨')', rest, rfl, by tauto⟩)
  have hL1b : p_l1Of (p_expression m) (mpc.ParserState.mk text
      (pos + ((serialize l).length + 3)) ind) =
      ⟨mpc.ParserState.mk text (pos + ((serialize l).length + 3) + (serialize r).length) ind,
       some r⟩ := by
    exact mpc.chainLeft_eval_zero (p_termOf (p_expression m)) p_multiplyLikeOperator
      expressionCombiner _ _ _ hT2 hM2 hb2
  have hA2 := addOp_fail text (pos + ((serialize l).length + 3) + (serialize r).length) ind
    (')' :: rest) hd4 (Or.inr ⟨')', rest, rfl, by tauto⟩)
  have hL2 : p_l2Of (p_expression m) (mpc.ParserState.mk text pos ind) =
      ⟨mpc.ParserState.mk text (pos + ((serialize l).length + 3) + (serialize r).length) ind,
       some (Expression.BinaryExpression op l r)⟩ := by
    exact mpc.chainLeft_eval_one (p_l1Of (p_expression m)) p_addLikeOperator
      expressionCombiner _ _ _ _ l op r hL1a hS2 hL1b hA2 rfl (by simp; omega) hb2
  have hS4 := cmpOp_fail text (pos + ((serialize l).length + 3) + (serialize r).length) ind
    (')' :: rest) hd4 (Or.inr ⟨rest, rfl⟩)
  have hL3 : p_l3Of (p_expression m) (mpc.ParserState.mk text pos ind) =
      ⟨mpc.ParserState.mk text (pos + ((serialize l).length + 3) + (serialize r).length) ind,
       some (Expression.BinaryExpression op l r)⟩ := by
    exact mpc.chainLeft_eval_zero (p_l2Of (p_expression m)) p_comparisonOperator
      expressionCombiner _ _ _ hL2 hS4 hb2
  rw [hL3, Nat.add_assoc]

end exp

namespace exp

theorem interior_eqClass (m : Nat) (l r : Expression)
    (hwr : wfS r) (htl : TermSpec l m) (htr : TermSpec r m)
    (text : List Char) (pos : Nat) (ind : Int) (rest : List Char)
    (hdrop : text.drop pos = serialize l ++ [' ', '=', ' '] ++ (serialize r ++ ')' :: rest)) :
    p_l3Of (p_expression m) (mpc.ParserState.mk text pos ind) =
      ⟨mpc.ParserState.mk text (pos + ((serialize l).length + 3 + (serialize r).length)) ind,
       some (Expression.BinaryExpression BinaryOperator.EqualTo l r)⟩ := by
  have hlb := mpc.drop_len_bound text _ pos hdrop
  simp only [List.length_append, List.length_cons, List.length_nil] at hlb
  obtain ⟨c0, t0, hR, hc0⟩ := serialize_head_cons r hwr
  have hrHead : ∀ x t', serialize r ++ ')' :: rest = x :: t' → ¬ isWsChar x := by
    intro x t' hx
    rw [hR] at hx
    simp only [List.cons_append] at hx
    obtain ⟨rfl, -⟩ := List.cons.inj hx
    exact hc0
  have hW1 : ∀ x ∈ [' '], isWsChar x := by
    intro x hx
    rw [List.mem_singleton] at hx
    subst hx
    unfold isWsChar
    decide
  have hd1 : text.drop pos =
      serialize l ++ [' '] ++ ('=' :: ' ' :: (serialize r ++ ')' :: rest)) := by
    rw [hdrop]
    simp
  have hT1 := htl text pos ind [' '] _ hd1 hW1 (Or.inr ⟨'=', _, rfl, by unfold closerChar; tauto⟩)
  have hd2 : text.drop (pos + ((serialize l).length + 1)) =
      '=' :: (' ' :: (serialize r ++ ')' :: rest)) := by
    have hx : text.drop pos =
        (serialize l ++ [' ']) ++ ('=' :: ' ' :: (serialize r ++ ')' :: rest)) := by
      rw [hdrop]
      simp
    have h2 := mpc.drop_append_of_drop text _ _ pos hx
    simpa using h2
  have hb1 : pos + ((serialize l).length + 1) ≤ text.length := by
    omega
  have hM1 := mulOp_fail text (pos + ((serialize l).length + 1)) ind
    ('=' :: ' ' :: (serialize r ++ ')' :: rest)) hd2 (Or.inr ⟨'=', _, rfl, by tauto⟩)
  have hL1a : p_l1Of (p_expression m) (mpc.ParserState.mk text pos ind) =
      ⟨mpc.ParserState.mk text (pos + ((serialize l).length + 1)) ind, some l⟩ := by
    exact mpc.chainLeft_eval_zero (p_termOf (p_expression m)) p_multiplyLikeOperator
      expressionCombiner _ _ _ hT1 hM1 hb1
  have hA1 := addOp_fail text (pos + ((serialize l).length + 1)) ind
    ('=' :: ' ' :: (serialize r ++ ')' :: rest)) hd2 (Or.inr ⟨'=', _, rfl, by tauto⟩)
  have hL2a : p_l2Of (p_expression m) (mpc.ParserState.mk text pos ind) =
      ⟨mpc.ParserState.mk text (pos + ((serialize l).length + 1)) ind, some l⟩ := by
    exact mpc.chainLeft_eval_zero (p_l1Of (p_expression m)) p_addLikeOperator
      expressionCombiner _ _ _ hL1a hA1 hb1
  have hS2 := cmpOp_eval_eq text (pos + ((serialize l).length + 1)) ind [' ']
    (serialize r ++ ')' :: rest) hd2 hW1 hrHead
  have hd3 : text.drop (pos + ((serialize l).length + 3)) = serialize r ++ ')' :: rest := by
    have h3 := mpc.drop_append_of_drop text _ _ pos hdrop
    simpa using h3
  have hT2 := htr text (pos + ((serialize l).length + 3)) ind [] (')' :: rest)
    (by simpa using hd3) (by intro x hx; simp at hx) (Or.inr ⟨')', rest, rfl, Or.inl rfl⟩)
  have hd4 : text.drop (pos + ((serialize l).length + 3) + (serialize r).length) =
      ')' :: rest := mpc.drop_append_of_drop text _ _ _ hd3
  have hb2 : pos + ((serialize l).length + 3) + (serialize r).length ≤ text.length := by
    omega
  have hM2 := mulOp_fail text (pos + ((serialize l).length + 3) + (serialize r).length) ind
    (')' :: rest) hd4 (Or.inr ⟨')', rest, rfl, by tauto⟩)
  have hL1b : p_l1Of (p_expression m) (mpc.ParserState.mk text
      (pos + ((serialize l).length + 3)) ind) =
      ⟨mpc.ParserState.mk text (pos + ((serialize l).length + 3) + (serialize r).length) ind,
       some r⟩ := by
    exact mpc.chainLeft_eval_zero (p_termOf (p_expression m)) p_multiplyLikeOperator
      expressionCombiner _ _ _ hT2 hM2 hb2
  have hA2 := addOp_fail text (pos + ((serialize l).length + 3) + (serialize r).length) ind
    (')' :: rest) hd4 (Or.inr ⟨')', rest, rfl, by tauto⟩)
  have hL2b : p_l2Of (p_expression m) (mpc.ParserState.mk text
      (pos + ((serialize l).length + 3)) ind) =
      ⟨mpc.ParserState.mk text (pos + ((serialize l).length + 3) + (serialize r).length) ind,
       some r⟩ := by
    exact mpc.chainLeft_eval_zero (p_l1Of (p_expression m)) p_addLikeOperator
      expressionCombiner _ _ _ hL1b hA2 hb2
  have hC2 := cmpOp_fail text (pos + ((serialize l).length + 3) + (serialize r).length) ind
    (')' :: rest) hd4 (Or.inr ⟨rest, rfl⟩)
  have hL3 : p_l3Of (p_expression m) (mpc.ParserState.mk text pos ind) =
      ⟨mpc.ParserState.mk text (pos + ((serialize l).length + 3) + (serialize r).length) ind,
       some (Expression.BinaryExpression BinaryOperator.EqualTo l r)⟩ := by
    exact mpc.chainLeft_eval_one (p_l2Of (p_expression m)) p_comparisonOperator
      expressionCombiner _ _ _ _ l BinaryOperator.EqualTo r hL2a hS2 hL2b hC2 rfl
      (by simp; omega) hb2
  rw [hL3, Nat.add_assoc]

end exp

namespace exp

theorem interior_neClass (m : Nat) (l r : Expression)
    (hwr : wfS r) (htl : TermSpec l m) (htr : TermSpec r m)
    (text : List Char) (pos : Nat) (ind : Int) (rest : List Char)
    (hdrop : text.drop pos =
      serialize l ++ [' ', '<', '>', ' '] ++ (serialize r ++ ')' :: rest)) :
    p_l3Of (p_expression m) (mpc.ParserState.mk text pos ind) =
      ⟨mpc.ParserState.mk text (pos + ((serialize l).length + 4 + (serialize r).length)) ind,
       some (Expression.BinaryExpression BinaryOperator.NotEqualTo l r)⟩ := by
  have hlb := mpc.drop_len_bound text _ pos hdrop
  simp only [List.length_append, List.length_cons, List.length_nil] at hlb
  obtain ⟨c0, t0, hR, hc0⟩ := serialize_head_cons r hwr
  have hrHead : ∀ x t', serialize r ++ ')' :: rest = x :: t' → ¬ isWsChar x := by
    intro x t' hx
    rw [hR] at hx
    simp only [List.cons_append] at hx
    obtain ⟨rfl, -⟩ := List.cons.inj hx
    exact hc0
  have hW1 : ∀ x ∈ [' '], isWsChar x := by
    intro x hx
    rw [List.mem_singleton] at hx
    subst hx
    unfold isWsChar
    decide
  have hd1 : text.drop pos =
      serialize l ++ [' '] ++ ('<' :: '>' :: ' ' :: (serialize r ++ ')' :: rest)) := by
    rw [hdrop]
    simp
  have hT1 := htl text pos ind [' '] _ hd1 hW1 (Or.inr ⟨'<', _, rfl, by unfold closerChar; tauto⟩)
  have hd2 : text.drop (pos + ((serialize l).length + 1)) =
      '<' :: '>' :: (' ' :: (serialize r ++ ')' :: rest)) := by
    have hx : text.drop pos =
        (serialize l ++ [' ']) ++ ('<' :: '>' :: ' ' :: (serialize r ++ ')' :: rest)) := by
      rw [hdrop]
      simp
    have h2 := mpc.drop_append_of_drop text _ _ pos hx
    simpa using h2
  have hb1 : pos + ((serialize l).length + 1) ≤ text.length := by
    omega
  have hM1 := mulOp_fail text (pos + ((serialize l).length + 1)) ind
    ('<' :: '>' :: ' ' :: (serialize r ++ ')' :: rest)) hd2 (Or.inr ⟨'<', _, rfl, by tauto⟩)
  have hL1a : p_l1Of (p_expression m) (mpc.ParserState.mk text pos ind) =
      ⟨mpc.ParserState.mk text (pos + ((serialize l).length + 1)) ind, some l⟩ := by
    exact mpc.chainLeft_eval_zero (p_termOf (p_expression m)) p_multiplyLikeOperator
      expressionCombiner _ _ _ hT1 hM1 hb1
  have hA1 := addOp_fail text (pos + ((serialize l).length + 1)) ind
    ('<' :: '>' :: ' ' :: (serialize r ++ ')' :: rest)) hd2 (Or.inr ⟨'<', _, rfl, by tauto⟩)
  have hL2a : p_l2Of (p_expression m) (mpc.ParserState.mk text pos ind) =
      ⟨mpc.ParserState.mk text (pos + ((serialize l).length + 1)) ind, some l⟩ := by
    exact mpc.chainLeft_eval_zero (p_l1Of (p_expression m)) p_addLikeOperator
      expressionCombiner _ _ _ hL1a hA1 hb1
  have hS2 := cmpOp_eval_ne text (pos + ((serialize l).length + 1)) ind [' ']
    (serialize r ++ ')' :: rest) hd2 hW1 hrHead
  have hd3 : text.drop (pos + ((serialize l).length + 4)) = serialize r ++ ')' :: rest := by
    have h3 := mpc.drop_append_of_drop text _ _ pos hdrop
    simpa using h3
  have hT2 := htr text (pos + ((serialize l).length + 4)) ind [] (')' :: rest)
    (by simpa using hd3) (by intro x hx; simp at hx) (Or.inr ⟨')', rest, rfl, Or.inl rfl⟩)
  have hd4 : text.drop (pos + ((serialize l).length + 4) + (serialize r).length) =
      ')' :: rest := mpc.drop_append_of_drop text _ _ _ hd3
  have hb2 : pos + ((serialize l).length + 4) + (serialize r).length ≤ text.length := by
    omega
  have hM2 := mulOp_fail text (pos + ((serialize l).length + 4) + (serialize r).length) ind
    (')' :: rest) hd4 (Or.inr ⟨')', rest, rfl, by tauto⟩)
  have hL1b : p_l1Of (p_expression m) (mpc.ParserState.mk text
      (pos + ((serialize l).length + 4)) ind) =
      ⟨mpc.ParserState.mk text (pos + ((serialize l).length + 4) + (serialize r).length) ind,
       some r⟩ := by
    exact mpc.chainLeft_eval_zero (p_termOf (p_expression m)) p_multiplyLikeOperator
      expressionCombiner _ _ _ hT2 hM2 hb2
  have hA2 := addOp_fail text (pos + ((serialize l).length + 4) + (serialize r).length) ind
    (')' :: rest) hd4 (Or.inr ⟨')', rest, rfl, by tauto⟩)
  have hL2b : p_l2Of (p_expression m) (mpc.ParserState.mk text
      (pos + ((serialize l).length + 4)) ind) =
      ⟨mpc.ParserState.mk text (pos + ((serialize l).length + 4) + (serialize r).length) ind,
       some r⟩ := by
    exact mpc.chainLeft_eval_zero (p_l1Of (p_expression m)) p_addLikeOperator
      expressionCombiner _ _ _ hL1b hA2 hb2
  have hC2 := cmpOp_fail text (pos + ((serialize l).length + 4) + (serialize r).length) ind
    (')' :: rest) hd4 (Or.inr ⟨rest, rfl⟩)
  have hL3 : p_l3Of (p_expression m) (mpc.ParserState.mk text pos ind) =
      ⟨mpc.ParserState.mk text (pos + ((serialize l).length + 4) + (serialize r).length) ind,
       some (Expression.BinaryExpression BinaryOperator.NotEqualTo l r)⟩ := by
    exact mpc.chainLeft_eval_one (p_l2Of (p_expression m)) p_comparisonOperator
      expressionCombiner _ _ _ _ l BinaryOperator.NotEqualTo r hL2a hS2 hL2b hC2 rfl
      (by simp; omega) hb2
  rw [hL3, Nat.add_assoc]

end exp

namespace mpc

theorem presult_congr_pos {T : Type} (text : List Char) (P Q : Nat) (ind : Int)
    (v : Option T) (h : P = Q) :
    (⟨⟨text, P, ind⟩, v⟩ : ParseResult T) = ⟨⟨text, Q, ind⟩, v⟩ := by
  rw [h]

end mpc

namespace exp

theorem term_assemble (m : Nat) (op : BinaryOperator) (l r : Expression) (K : Nat)
    (opchars : List Char) (hKlen : opchars.length = K)
    (hser : serialize (Expression.BinaryExpression op l r) =
      '(' :: (serialize l ++ opchars ++ (serialize r ++ [')'])))
    (hint : ∀ (text : List Char) (pos : Nat) (ind : Int) (rest : List Char),
      text.drop pos = serialize l ++ opchars ++ (serialize r ++ ')' :: rest) →
      p_l3Of (p_expression m) (mpc.ParserState.mk text pos ind) =
        ⟨mpc.ParserState.mk text
          (pos + ((serialize l).length + K + (serialize r).length)) ind,
         some (Expression.BinaryExpression op l r)⟩) :
    TermSpec (Expression.BinaryExpression op l r) (m + 1) := by
  intro text pos ind W r0 hdrop hW hfollow
  have hr0 : ∀ x t', r0 = x :: t' → ¬ isWsChar x := by
    intro x t' hx
    rcases hfollow with rfl | ⟨cc, rr, hcc0, hcc⟩
    · exact absurd hx (by simp)
    · rw [hcc0] at hx
      obtain ⟨rfl, -⟩ := List.cons.inj hx
      exact closer_not_ws _ hcc
  have hd0 : text.drop pos =
      ['('] ++ (serialize l ++ opchars ++ (serialize r ++ ')' :: (W ++ r0))) := by
    rw [hdrop, hser]
    simp
  have hskip := mpc.skipString_eval ("(".toList) text pos ind
    (serialize l ++ opchars ++ (serialize r ++ ')' :: (W ++ r0))) hd0
  have hdin : text.drop (pos + 1) =
      serialize l ++ opchars ++ (serialize r ++ ')' :: (W ++ r0)) := by
    exact mpc.drop_append_of_drop text ['('] _ pos hd0
  have hI := hint text (pos + 1) ind (W ++ r0) hdin
  have hx2 : text.drop (pos + 1) =
      ((serialize l ++ opchars) ++ serialize r) ++ (')' :: (W ++ r0)) := by
    rw [hdin]
    simp
  have hdcl := mpc.drop_append_of_drop text _ _ (pos + 1) hx2
  have hlen2 : ((serialize l ++ opchars) ++ serialize r).length =
      (serialize l).length + K + (serialize r).length := by
    simp only [List.length_append, hKlen]
  rw [hlen2] at hdcl
  have hskip2 := mpc.skipString_eval (")".toList) text
    (pos + 1 + ((serialize l).length + K + (serialize r).length)) ind (W ++ r0) hdcl
  have hdw : text.drop (pos + 1 + ((serialize l).length + K + (serialize r).length) + 1) =
      W ++ r0 := by
    exact mpc.drop_append_of_drop text [')'] _ _ hdcl
  have hws := p_whitespaces_eval text
    (pos + 1 + ((serialize l).length + K + (serialize r).length) + 1) ind W r0 hdw hW hr0
  have hib := mpc.inBetween_eval (p_expression (m + 1))
    (mpc.skipString ("(".toList)) (mpc.skipString (")".toList)) _ _ _ _ _ hskip hI hskip2
  have hsub : p_subExpressionOf (p_expression (m + 1)) (mpc.ParserState.mk text pos ind) =
      ⟨mpc.ParserState.mk text
        (pos + 1 + ((serialize l).length + K + (serialize r).length) + 1 + W.length) ind,
       some (Expression.BinaryExpression op l r)⟩ := by
    exact mpc.keepLeft_eval _ p_whitespaces _ _ _ _ _ hib hws
  have hnum := p_number_eval_fail text pos ind
    (Or.inr ⟨'(', serialize l ++ opchars ++ (serialize r ++ ')' :: (W ++ r0)), hd0,
      by unfold isDigitChar; decide⟩)
  have hiden := p_identifer_eval_fail text pos ind
    (Or.inr ⟨'(', serialize l ++ opchars ++ (serialize r ++ ')' :: (W ++ r0)), hd0,
      by unfold isLetterCode; decide⟩)
  have hBlen : (serialize (Expression.BinaryExpression op l r)).length =
      (serialize l).length + K + (serialize r).length + 2 := by
    rw [hser]
    simp only [List.length_cons, List.length_append, List.length_nil, hKlen]
    omega
  show mpc.choiceGo [p_number, p_identifer, p_subExpressionOf (p_expression (m + 1))]
    (mpc.ParserState.mk text pos ind) = _
  rw [mpc.choiceGo_cons_fail _ _ _ _ hnum, mpc.choiceGo_cons_fail _ _ _ _ hiden,
    mpc.choiceGo_cons_succ _ _ _ _ _ hsub]
  exact mpc.presult_congr_pos text _ _ ind _ (by omega)

end exp

namespace exp

theorem termSpec_all (T : Expression) (hwf : wfS T) : ∀ n, depth T ≤ n → TermSpec T n := by
  induction T with
  | BinaryExpression op l r ihl ihr =>
      intro n hn
      obtain ⟨m, rfl⟩ : ∃ m, n = m + 1 := by
        rcases n with _ | m
        · exfalso
          simp [depth] at hn
        · exact ⟨m, rfl⟩
      have hwl : wfS l := ⟨hwf.1.2.1, hwf.2.1⟩
      have hwr : wfS r := ⟨hwf.1.2.2, hwf.2.2⟩
      have hop : op ≠ BinaryOperator.Unknown := hwf.1.1
      have hmax : max (depth l) (depth r) + 1 ≤ m + 1 := hn
      have hml : depth l ≤ max (depth l) (depth r) := Nat.le_max_left _ _
      have hmr : depth r ≤ max (depth l) (depth r) := Nat.le_max_right _ _
      have htl := ihl hwl m (by omega)
      have htr := ihr hwr m (by omega)
      have hparL : "(".toList = ['('] := rfl
      have hparR : ")".toList = [')'] := rfl
      cases op with
      | Unknown => exact absurd rfl hop
      | Add =>
          exact term_assemble m _ l r 3 [' ', '+', ' '] rfl
            (by simp [serialize, show serializeOp BinaryOperator.Add = [' ', '+', ' '] from rfl,
              hparL, hparR])
            (fun text pos ind rest hd =>
              interior_addClass m l r '+' _ (Or.inl ⟨rfl, rfl⟩) hwr htl htr text pos ind rest hd)
      | Subtract =>
          exact term_assemble m _ l r 3 [' ', '-', ' '] rfl
            (by simp [serialize,
              show serializeOp BinaryOperator.Subtract = [' ', '-', ' '] from rfl, hparL, hparR])
            (fun text pos ind rest hd =>
              interior_addClass m l r '-' _ (Or.inr ⟨rfl, rfl⟩) hwr htl htr text pos ind rest hd)
      | Multiply =>
          exact term_assemble m _ l r 3 [' ', '*', ' '] rfl
            (by simp [serialize,
              show serializeOp BinaryOperator.Multiply = [' ', '*', ' '] from rfl, hparL, hparR])
            (fun text pos ind rest hd =>
              interior_mulClass m l r '*' _ (Or.inl ⟨rfl, rfl⟩) hwr htl htr text pos ind rest hd)
      | Divide =>
          exact term_assemble m _ l r 3 [' ', '/', ' '] rfl
            (by simp [serialize,
              show serializeOp BinaryOperator.Divide = [' ', '/', ' '] from rfl, hparL, hparR])
            (fun text pos ind rest hd =>
              interior_mulClass m l r '/' _ (Or.inr ⟨rfl, rfl⟩) hwr htl htr text pos ind rest hd)
      | EqualTo =>
          exact term_assemble m _ l r 3 [' ', '=', ' '] rfl
            (by simp [serialize,
              show serializeOp BinaryOperator.EqualTo = [' ', '=', ' '] from rfl, hparL, hparR])
            (fun text pos ind rest hd =>
              interior_eqClass m l r hwr htl htr text pos ind rest hd)
      | NotEqualTo =>
          exact term_assemble m _ l r 4 [' ', '<', '>', ' '] rfl
            (by simp [serialize,
              show serializeOp BinaryOperator.NotEqualTo = [' ', '<', '>', ' '] from rfl,
              hparL, hparR])
            (fun text pos ind rest hd =>
              interior_neClass m l r hwr htl htr text pos ind rest hd)
  | NumberLiteralExpression v =>
      intro n hn
      intro text pos ind W r0 hdrop hW hfollow
      have hser : serialize (Expression.NumberLiteralExpression v) = natToDigits v := by
        rw [show serialize (Expression.NumberLiteralExpression v) = jsNatToString v from rfl,
          jsNatToString_small v hwf.2]
      rw [hser] at hdrop
      have hr0 : ∀ x t', r0 = x :: t' → ¬ isWsChar x := by
        intro x t' hx
        rcases hfollow with rfl | ⟨cc, rr, hcc0, hcc⟩
        · exact absurd hx (by simp)
        · rw [hcc0] at hx
          obtain ⟨rfl, -⟩ := List.cons.inj hx
          exact closer_not_ws _ hcc
      have hWr : ∀ c t', W ++ r0 = c :: t' → ¬ isDigitChar c := by
        intro c t' hx
        cases W with
        | nil =>
            simp only [List.nil_append] at hx
            rcases hfollow with rfl | ⟨cc, rr, hcc0, hcc⟩
            · exact absurd hx (by simp)
            · rw [hcc0] at hx
              obtain ⟨rfl, -⟩ := List.cons.inj hx
              exact closer_not_digit _ hcc
        | cons w ws =>
            simp only [List.cons_append] at hx
            obtain ⟨rfl, -⟩ := List.cons.inj hx
            exact ws_not_digit w (hW w (List.mem_cons_self w ws))
      have hnum := p_number_eval text pos ind (natToDigits v) W r0 (by simpa using hdrop)
        (natToDigits_ne_nil v) (natToDigits_digits v) hW hWr hr0
      rw [digitsToNat_natToDigits] at hnum
      show mpc.choiceGo [p_number, p_identifer, p_subExpressionOf (p_expression n)]
        (mpc.ParserState.mk text pos ind) = _
      rw [mpc.choiceGo_cons_succ _ _ _ _ _ hnum, hser]
  | IdentifierExpression name =>
      intro n hn
      intro text pos ind W r0 hdrop hW hfollow
      obtain ⟨c1, t1, hname⟩ : ∃ c1 t1, name = c1 :: t1 := by
        cases hd : name with
        | nil => exact absurd hd hwf.1.1
        | cons c1 t1 => exact ⟨c1, t1, rfl⟩
      have hr0 : ∀ x t', r0 = x :: t' → ¬ isWsChar x := by
        intro x t' hx
        rcases hfollow with rfl | ⟨cc, rr, hcc0, hcc⟩
        · exact absurd hx (by simp)
        · rw [hcc0] at hx
          obtain ⟨rfl, -⟩ := List.cons.inj hx
          exact closer_not_ws _ hcc
      have hdcons : text.drop pos = c1 :: ((t1 ++ W) ++ r0) := by
        rw [hdrop, show serialize (Expression.IdentifierExpression name) = name from rfl, hname]
        simp
      have hnumfail := p_number_eval_fail text pos ind
        (Or.inr ⟨c1, (t1 ++ W) ++ r0, hdcons,
          letter_not_digit c1 (hwf.1.2 c1 (by rw [hname]; exact List.mem_cons_self c1 t1))⟩)
      have hWr : ∀ c t', W ++ r0 = c :: t' → ¬ isLetterCode c.toNat := by
        intro c t' hx
        cases W with
        | nil =>
            simp only [List.nil_append] at hx
            rcases hfollow with rfl | ⟨cc, rr, hcc0, hcc⟩
            · exact absurd hx (by simp)
            · rw [hcc0] at hx
              obtain ⟨rfl, -⟩ := List.cons.inj hx
              exact closer_not_letter _ hcc
        | cons w ws =>
            simp only [List.cons_append] at hx
            obtain ⟨rfl, -⟩ := List.cons.inj hx
            exact ws_not_letter w (hW w (List.mem_cons_self w ws))
      have hiden := p_identifer_eval text pos ind name W r0 (by simpa using hdrop)
        hwf.1.1 hwf.1.2 hW hWr hr0
      show mpc.choiceGo [p_number, p_identifer, p_subExpressionOf (p_expression n)]
        (mpc.ParserState.mk text pos ind) = _
      rw [mpc.choiceGo_cons_fail _ _ _ _ hnumfail, mpc.choiceGo_cons_succ _ _ _ _ _ hiden]
      rfl

end exp

namespace exp

theorem l1Spec_of_term (T : Expression) (n : Nat) (hwf : wfS T) (h : TermSpec T n) :
    L1Spec T n := by
  intro text pos ind W r hdrop hW hf
  have hT := h text pos ind W r hdrop hW (followTerm_of_l1 r hf)
  have hdr : text.drop (pos + ((serialize T).length + W.length)) = r := by
    have h2 := mpc.drop_append_of_drop text (serialize T ++ W) r pos hdrop
    have hlen : (serialize T ++ W).length = (serialize T).length + W.length := by
      simp
    rw [hlen] at h2
    exact h2
  have hM := mulOp_fail text _ ind r hdr hf
  have hSL : 1 ≤ (serialize T).length := by
    cases hs : serialize T with
    | nil => exact absurd hs (serialize_ne_nil T hwf)
    | cons a b => simp [hs]
  have hb : pos + ((serialize T).length + W.length) ≤ text.length := by
    have hlb := mpc.drop_len_bound text _ pos hdrop
    simp only [List.length_append] at hlb
    omega
  exact mpc.chainLeft_eval_zero _ _ _ _ _ _ hT hM hb

theorem l2Spec_of_term (T : Expression) (n : Nat) (hwf : wfS T) (h : TermSpec T n) :
    L2Spec T n := by
  intro text pos ind W r hdrop hW hf
  have hL1 := l1Spec_of_term T n hwf h text pos ind W r hdrop hW (followL1_of_l2 r hf)
  have hdr : text.drop (pos + ((serialize T).length + W.length)) = r := by
    have h2 := mpc.drop_append_of_drop text (serialize T ++ W) r pos hdrop
    have hlen : (serialize T ++ W).length = (serialize T).length + W.length := by
      simp
    rw [hlen] at h2
    exact h2
  have hA := addOp_fail text _ ind r hdr hf
  have hSL : 1 ≤ (serialize T).length := by
    cases hs : serialize T with
    | nil => exact absurd hs (serialize_ne_nil T hwf)
    | cons a b => simp [hs]
  have hb : pos + ((serialize T).length + W.length) ≤ text.length := by
    have hlb := mpc.drop_len_bound text _ pos hdrop
    simp only [List.length_append] at hlb
    omega
  exact mpc.chainLeft_eval_zero _ _ _ _ _ _ hL1 hA hb

theorem l3Spec_of_term (T : Expression) (n : Nat) (hwf : wfS T) (h : TermSpec T n) :
    L3Spec T n := by
  intro text pos ind W r hdrop hW hf
  have hL2 := l2Spec_of_term T n hwf h text pos ind W r hdrop hW (followL2_of_l3 r hf)
  have hdr : text.drop (pos + ((serialize T).length + W.length)) = r := by
    have h2 := mpc.drop_append_of_drop text (serialize T ++ W) r pos hdrop
    have hlen : (serialize T ++ W).length = (serialize T).length + W.length := by
      simp
    rw [hlen] at h2
    exact h2
  have hC := cmpOp_fail text _ ind r hdr hf
  have hSL : 1 ≤ (serialize T).length := by
    cases hs : serialize T with
    | nil => exact absurd hs (serialize_ne_nil T hwf)
    | cons a b => simp [hs]
  have hb : pos + ((serialize T).length + W.length) ≤ text.length := by
    have hlb := mpc.drop_len_bound text _ pos hdrop
    simp only [List.length_append] at hlb
    omega
  exact mpc.chainLeft_eval_zero _ _ _ _ _ _ hL2 hC hb

theorem serialize_roundtrip (T : Expression) (hwf : wfS T) :
    parseExpression (toString T) =
      ⟨mpc.ParserState.mk (toString T) (toString T).length 0, some T⟩ := by
  have hterm := termSpec_all T hwf ((toString T).length)
    (by rw [show toString T = serialize T from rfl]; exact depth_le_serialize T)
  have hL3 := l3Spec_of_term T ((toString T).length) hwf hterm (toString T) 0 0 [] []
    (by simp [toString]) (by intro c hc; simp at hc) (Or.inl rfl)
  have hfin : parseExpression (toString T) =
      ⟨mpc.ParserState.mk (toString T) (0 + ((serialize T).length + List.length [])) 0,
       some T⟩ := hL3
  rw [hfin]
  exact mpc.presult_congr_pos _ _ _ _ _ (by simp [toString])

end exp

namespace exp

theorem produces_mono {T : Type} (p : mpc.Parser T) (P Q : T → Prop)
    (h : ∀ v, P v → Q v) (hp : Produces p P) : Produces p Q :=
  fun ps v hv => h v (hp ps v hv)

theorem produces_transform {T R : Type} (p : mpc.Parser T) (f : T → R)
    (P : T → Prop) (Q : R → Prop) (hf : ∀ v, P v → Q (f v)) (hp : Produces p P) :
    Produces (p.transform f) Q := by
  intro ps v hv
  unfold mpc.Parser.transform at hv
  cases hpv : (p ps).value with
  | none => simp [hpv] at hv
  | some w =>
      simp [hpv, mpc.ParserState.succeed] at hv
      exact hv ▸ hf w (hp ps w hpv)

theorem produces_keepLeft {T R : Type} (p : mpc.Parser T) (q : mpc.Parser R)
    (P : T → Prop) (hp : Produces p P) : Produces (p.keepLeft q) P := by
  intro ps v hv
  unfold mpc.Parser.keepLeft at hv
  cases hpv : (p ps).value with
  | none => simp [hpv] at hv
  | some w =>
      cases hqv : (q (p ps).state).value with
      | none => simp [hpv, hqv] at hv
      | some u =>
          simp [hpv, hqv, mpc.ParserState.succeed] at hv
          exact hv ▸ hp ps w hpv

theorem produces_consumedAtLeast {T : Type} (p : mpc.Parser T) (i : Nat)
    (P : T → Prop) (hp : Produces p P) : Produces (p.consumedAtLeast i) P := by
  intro ps v hv
  unfold mpc.Parser.consumedAtLeast at hv
  cases hpv : (p ps).value with
  | none => simp [hpv] at hv
  | some w =>
      by_cases hlt : (p ps).state.position < ps.position + i
      · simp [hpv, hlt] at hv
      · simp [hpv, hlt, mpc.ParserState.succeed] at hv
        exact hv ▸ hp ps w hpv

theorem produces_inBetween {T : Type} (p : mpc.Parser T) (pb pe : mpc.Parser Unit)
    (P : T → Prop) (hp : Produces p P) : Produces (p.inBetween pb pe) P := by
  intro ps v hv
  unfold mpc.Parser.inBetween at hv
  cases hbv : (pb ps).value with
  | none => simp [hbv] at hv
  | some u =>
      cases hpv : (p (pb ps).state).value with
      | none => simp [hbv, hpv] at hv
      | some w =>
          cases hev : (pe (p (pb ps).state).state).value with
          | none => simp [hbv, hpv, hev] at hv
          | some u2 =>
              simp [hbv, hpv, hev, mpc.ParserState.succeed] at hv
              exact hv ▸ hp (pb ps).state w hpv

theorem produces_result {T R : Type} (p : mpc.Parser T) (v : R) :
    Produces (p.result v) (fun w => w = v) := by
  intro ps w hw
  unfold mpc.Parser.result at hw
  cases hpv : (p ps).value with
  | none => simp [hpv] at hw
  | some u =>
      simp [hpv, mpc.ParserState.succeed] at hw
      exact hw.symm

theorem produces_choiceGo {T : Type} (P : T → Prop) :
    ∀ (l : List (mpc.Parser T)), (∀ q ∈ l, Produces q P) →
      ∀ (ps : mpc.ParserState) (v : T), (mpc.choiceGo l ps).value = some v → P v := by
  intro l
  induction l with
  | nil =>
      intro _ ps v hv
      simp [mpc.choiceGo] at hv
  | cons q rest ih =>
      intro h ps v hv
      cases hqv : (q ps).value with
      | some w =>
          simp [mpc.choiceGo, hqv, mpc.ParserState.succeed] at hv
          exact hv ▸ h q (List.mem_cons_self q rest) ps w hqv
      | none =>
          simp [mpc.choiceGo, hqv] at hv
          exact ih (fun q2 hq2 => h q2 (List.mem_cons_of_mem q hq2)) _ v hv

theorem produces_anyCharOf2_mem {T : Type} (str : List Char) (m : List T) :
    Produces (mpc.anyCharOf2 str m) (fun v => v ∈ m) := by
  intro ps v hv
  unfold mpc.anyCharOf2 at hv
  cases hcc : ps.currentCharCode with
  | none => simp [hcc] at hv
  | some ch =>
      cases hio : mpc.indexOfCode (str.map Char.toNat) ch with
      | none => simp [hcc, hio] at hv
      | some i =>
          cases hm : m.get? i with
          | none =>
              have hm2 : m[i]? = none := by rw [← List.get?_eq_getElem?]; exact hm
              simp [hcc, hio, List.get?_eq_getElem?, hm2] at hv
          | some w =>
              have hm2 : m[i]? = some w := by rw [← List.get?_eq_getElem?]; exact hm
              simp [hcc, hio, List.get?_eq_getElem?, hm2, mpc.ParserState.succeed] at hv
              exact hv ▸ List.get?_mem hm

theorem produces_chainLeftLoop {T S : Type} (p : mpc.Parser T) (sep : mpc.Parser S)
    (comb : mpc.Combiner T S) (P : T → Prop) (Q : S → Prop)
    (hp : Produces p P) (hq : Produces sep Q)
    (hcl : ∀ a op b, P a → Q op → P b → P (comb a op b)) :
    ∀ (fuel : Nat) (ps : mpc.ParserState) (snap : mpc.Snapshot) (acc : T) (v : T),
      P acc → (mpc.chainLeftLoop p sep comb fuel ps snap acc).value = some v → P v := by
  intro fuel
  induction fuel with
  | zero =>
      intro ps snap acc v hacc hv
      simp [mpc.chainLeftLoop, mpc.ParserState.succeed] at hv
      exact hv ▸ hacc
  | succ f ih =>
      intro ps snap acc v hacc hv
      cases hsv : (sep ps).value with
      | none =>
          simp [mpc.chainLeftLoop, hsv, mpc.ParserState.succeed] at hv
          exact hv ▸ hacc
      | some op =>
          cases hpv : (p (sep ps).state).value with
          | none =>
              simp [mpc.chainLeftLoop, hsv, hpv, mpc.ParserState.succeed] at hv
              exact hv ▸ hacc
          | some w =>
              simp only [mpc.chainLeftLoop, hsv, hpv] at hv
              exact ih _ _ _ v (hcl acc op w hacc (hq ps op hsv) (hp (sep ps).state w hpv)) hv

theorem produces_chainLeft {T S : Type} (p : mpc.Parser T) (sep : mpc.Parser S)
    (comb : mpc.Combiner T S) (P : T → Prop) (Q : S → Prop)
    (hp : Produces p P) (hq : Produces sep Q)
    (hcl : ∀ a op b, P a → Q op → P b → P (comb a op b)) :
    Produces (mpc.chainLeft p sep comb) P := by
  intro ps v hv
  unfold mpc.chainLeft at hv
  cases hpv : (p ps).value with
  | none => simp [hpv] at hv
  | some v0 =>
      simp only [hpv] at hv
      exact produces_chainLeftLoop p sep comb P Q hp hq hcl _ _ _ v0 v (hp ps v0 hpv) hv

end exp

namespace exp

theorem satisfyMany_eval_general (f : mpc.Satisfy) (ps : mpc.ParserState) :
    mpc.satisfyMany f ps =
      ⟨mpc.ParserState.mk ps.text
        (ps.position + mpc.advanceCount f (ps.text.drop ps.position) 0) ps.indent,
       some ((ps.text.drop ps.position).take
        (mpc.advanceCount f (ps.text.drop ps.position) 0))⟩ := rfl

theorem advanceCount_sat (f : mpc.Satisfy) :
    ∀ (cs : List Char) (i : Nat) (x : Char),
      x ∈ cs.take (mpc.advanceCount f cs i) → ∃ j, f x.toNat j = true := by
  intro cs
  induction cs with
  | nil =>
      intro i x hx
      simp [mpc.advanceCount] at hx
  | cons c rest ih =>
      intro i x hx
      by_cases hc : f c.toNat i = true
      · rw [show mpc.advanceCount f (c :: rest) i = mpc.advanceCount f rest (i + 1) + 1 from
          by simp [mpc.advanceCount, hc]] at hx
        rw [List.take_succ_cons] at hx
        rcases List.mem_cons.mp hx with rfl | hx2
        · exact ⟨i, hc⟩
        · exact ih (i + 1) x hx2
      · rw [show mpc.advanceCount f (c :: rest) i = 0 from
          by simp [mpc.advanceCount, hc]] at hx
        simp at hx

theorem produces_satisfyMany_consumed (f : mpc.Satisfy) (Pc : Char → Prop)
    (hf : ∀ c j, f c.toNat j = true → Pc c) :
    Produces ((mpc.satisfyMany f).consumedAtLeast 1)
      (fun s => s ≠ [] ∧ ∀ c ∈ s, Pc c) := by
  intro ps v hv
  by_cases h1 : ps.position + mpc.advanceCount f (ps.text.drop ps.position) 0 <
      ps.position + 1
  · rw [mpc.consumedAtLeast_eval_fail _ 1 ps _ _ (satisfyMany_eval_general f ps) h1] at hv
    simp at hv
  · rw [mpc.consumedAtLeast_eval _ 1 ps _ _ (satisfyMany_eval_general f ps) h1] at hv
    simp only [Option.some.injEq] at hv
    refine ⟨?_, ?_⟩
    · intro hnil
      rw [← hv] at hnil
      have hn : 1 ≤ mpc.advanceCount f (ps.text.drop ps.position) 0 := by omega
      have hle := mpc.advanceCount_le f (ps.text.drop ps.position) 0
      rcases List.take_eq_nil_iff.mp hnil with h0 | h0
      · omega
      · rw [h0] at hn
        simp [mpc.advanceCount] at hn
    · intro c hc
      rw [← hv] at hc
      obtain ⟨j, hj⟩ := advanceCount_sat f (ps.text.drop ps.position) 0 c hc
      exact hf c j hj

end exp

namespace exp

theorem produces_p_number : Produces p_number wfExpr := by
  intro ps v hv
  unfold p_number at hv
  have := produces_transform _ (fun c => Expression.NumberLiteralExpression (digitsToNat c))
    (fun _ => True) wfExpr (fun _ _ => trivial) (fun _ _ _ => trivial) ps v hv
  exact this

theorem produces_p_identifer : Produces p_identifer wfExpr := by
  intro ps v hv
  unfold p_identifer at hv
  refine produces_transform _ (fun c => Expression.IdentifierExpression c)
    (fun s => s ≠ [] ∧ ∀ c ∈ s, isLetterCode c.toNat) wfExpr
    (fun s hs => hs) ?_ ps v hv
  exact produces_keepLeft _ _ _
    (produces_satisfyMany_consumed _ _ (fun c j hj => (letter_sat_iff c).mp hj))

theorem produces_addOp : Produces p_addLikeOperator (fun op => op ≠ BinaryOperator.Unknown) := by
  refine produces_keepLeft _ _ _ (produces_mono _ _ _ ?_ (produces_anyCharOf2_mem _ _))
  intro v hvmem
  rcases List.mem_cons.mp hvmem with rfl | hvmem2
  · exact fun hEq => BinaryOperator.noConfusion hEq
  rcases List.mem_cons.mp hvmem2 with rfl | hvmem3
  · exact fun hEq => BinaryOperator.noConfusion hEq
  · exact absurd hvmem3 (List.not_mem_nil v)

theorem produces_mulOp :
    Produces p_multiplyLikeOperator (fun op => op ≠ BinaryOperator.Unknown) := by
  refine produces_keepLeft _ _ _ (produces_mono _ _ _ ?_ (produces_anyCharOf2_mem _ _))
  intro v hvmem
  rcases List.mem_cons.mp hvmem with rfl | hvmem2
  · exact fun hEq => BinaryOperator.noConfusion hEq
  rcases List.mem_cons.mp hvmem2 with rfl | hvmem3
  · exact fun hEq => BinaryOperator.noConfusion hEq
  · exact absurd hvmem3 (List.not_mem_nil v)

theorem produces_cmpOp :
    Produces p_comparisonOperator (fun op => op ≠ BinaryOperator.Unknown) := by
  refine produces_keepLeft _ _ _ ?_
  intro ps v hv
  refine produces_choiceGo (fun op => op ≠ BinaryOperator.Unknown) _ ?_ ps v hv
  intro q hq
  rcases List.mem_cons.mp hq with rfl | hq2
  · exact produces_mono _ (fun w => w = BinaryOperator.EqualTo) _
      (fun w hw hEq => BinaryOperator.noConfusion (hw ▸ hEq)) (produces_result _ _)
  rcases List.mem_cons.mp hq2 with rfl | hq3
  · exact produces_mono _ (fun w => w = BinaryOperator.NotEqualTo) _
      (fun w hw hEq => BinaryOperator.noConfusion (hw ▸ hEq)) (produces_result _ _)
  · exact absurd hq3 (List.not_mem_nil q)

theorem produces_term (pe : mpc.Parser Expression) (hpe : Produces pe wfExpr) :
    Produces (p_termOf pe) wfExpr := by
  intro ps v hv
  refine produces_choiceGo wfExpr _ ?_ ps v hv
  intro q hq
  rcases List.mem_cons.mp hq with rfl | hq2
  · exact produces_p_number
  rcases List.mem_cons.mp hq2 with rfl | hq3
  · exact produces_p_identifer
  rcases List.mem_cons.mp hq3 with rfl | hq4
  · exact produces_keepLeft _ _ _ (produces_inBetween _ _ _ _ hpe)
  · exact absurd hq4 (List.not_mem_nil q)

theorem wf_combiner (a : Expression) (op : BinaryOperator) (b : Expression)
    (ha : wfExpr a) (hop : op ≠ BinaryOperator.Unknown) (hb : wfExpr b) :
    wfExpr (expressionCombiner a op b) :=
  ⟨hop, ha, hb⟩

theorem produces_expression (n : Nat) : Produces (p_expression n) wfExpr := by
  induction n with
  | zero =>
      intro ps v hv
      simp [p_expression] at hv
  | succ m ih =>
      show Produces (p_l3Of (p_expression m)) wfExpr
      exact produces_chainLeft _ _ _ wfExpr _
        (produces_chainLeft _ _ _ wfExpr _
          (produces_chainLeft _ _ _ wfExpr _ (produces_term _ ih) produces_mulOp wf_combiner)
          produces_addOp wf_combiner)
        produces_cmpOp wf_combiner

theorem wf_of_parse (s : List Char) (st : mpc.ParserState) (T : Expression)
    (h : parseExpression s = ⟨st, some T⟩) : wfExpr T := by
  have hv : (p_expression (s.length + 1) (mpc.ParserState.init s)).value = some T := by
    rw [show p_expression (s.length + 1) (mpc.ParserState.init s) = parseExpression s from rfl,
      h]
  exact produces_expression (s.length + 1) (mpc.ParserState.init s) T hv

end exp

/-- C2 counterexample: the input "1000000000000000000000" (10^21) parses
successfully to the number literal 10^21, but the serializer renders that
literal the way JavaScript's Number.toString does — "1e+21" — and
re-parsing "1e+21" stops at the 'e' and yields the number literal 1, not a
tree structurally equal to the original.  The round trip as claimed
therefore fails for this parser-produced tree. -/
theorem claim_C2_counterexample :
    (exp.parseExpression ("1000000000000000000000".toList)).value =
      some (exp.Expression.NumberLiteralExpression (10 ^ 21))
  ∧ exp.toString (exp.Expression.NumberLiteralExpression (10 ^ 21)) = "1e+21".toList
  ∧ (exp.parseExpression
        (exp.toString (exp.Expression.NumberLiteralExpression (10 ^ 21)))).value =
      some (exp.Expression.NumberLiteralExpression 1)
  ∧ (exp.parseExpression
        (exp.toString (exp.Expression.NumberLiteralExpression (10 ^ 21)))).value ≠
      some (exp.Expression.NumberLiteralExpression (10 ^ 21)) := by
  refine ⟨by decide, by decide, by decide, by decide⟩

/-- C2 amended: for every input s on which parseExpression succeeds with
AST T, if every number literal of T is below 10^21 (so that it prints as a
plain digit string rather than in JavaScript's exponential notation), then
running parseExpression on toString T succeeds, consumes the whole
serialized string, and returns exactly T. -/
theorem claim_C2_amended_roundtrip (s : List Char) (st : mpc.ParserState)
    (T : exp.Expression) (h : exp.parseExpression s = ⟨st, some T⟩)
    (hsmall : exp.SmallNumbers T) :
    exp.parseExpression (exp.toString T) =
      ⟨mpc.ParserState.mk (exp.toString T) (exp.toString T).length 0, some T⟩ :=
  exp.serialize_roundtrip T ⟨exp.wf_of_parse s st T h, hsmall⟩

/-- C2 witness: the amended round trip applied to the concrete input "1". -/
theorem claim_C2_witness :
    exp.parseExpression ("1".toList) =
      ⟨mpc.ParserState.mk ("1".toList) 1 0, some (exp.Expression.NumberLiteralExpression 1)⟩
  ∧ exp.SmallNumbers (exp.Expression.NumberLiteralExpression 1)
  ∧ exp.parseExpression (exp.toString (exp.Expression.NumberLiteralExpression 1)) =
      ⟨mpc.ParserState.mk (exp.toString (exp.Expression.NumberLiteralExpression 1))
        (exp.toString (exp.Expression.NumberLiteralExpression 1)).length 0,
       some (exp.Expression.NumberLiteralExpression 1)⟩ :=
  ⟨by decide, by show (exp.natToDigits 1).length ≤ 21; decide,
   claim_C2_amended_roundtrip ("1".toList) (mpc.ParserState.mk ("1".toList) 1 0)
     (exp.Expression.NumberLiteralExpression 1) (by decide)
     (by show (exp.natToDigits 1).length ≤ 21; decide)⟩
